import Mathlib

/-!
A shallow embedding of the lexical scanner of `src/lexer.cpp`

The translation unit `lexer.cpp` defines the member functions of class `lexer`
(`lex_contents`, `next_token`, the `read_*` family, `skip_space`, `is_keyword`).
Its header is not part of the sources at hand, so the cursor primitives
(`current`, `consume`, `next`, `create_token`), the character table `chardefs`,
the keyword table `keyworddefs` and the record types are modelled from the
specification.

Conventions of the embedding.

* Characters are `Char`; offsets and counters (`std::size_t`) are `Nat`.
* The end-of-input sentinel `chardefs::eof` is a character whose value the
  specification does not give.  It is a parameter `eof` of every definition.
  The theorems about the scanner take it to be the zero character: this is the
  only value for which the scanner terminates on every input
  (`lexer.nonzero_sentinel_diverges`), because of the way C++ parses the test
  `!current() == chardefs::eof` of `read_unknown`.  As the sentinel is a
  character, an occurrence of it inside the input is indistinguishable from the
  end of the input, and the scanner stops there; statements that speak of the
  whole input therefore assume that the input does not contain it, and the
  counterexamples show what the scanner returns when it does.
* A C++ `while` loop is a function recursing on a fuel argument and returning
  `none` when the fuel is used up; the recursive calls
  `next_token -> next_token` and `read_string -> read_escaped -> read_string`
  are treated the same way.  Results are shown to exist for every amount of
  fuel exceeding the number of unread characters.
-/

/-! ## Library character classes (`<cctype>`, "C" locale, ASCII only) -/

/-- The C library predicate `std::isdigit`: one of `0` .. `9`. -/
def isdigit (c : Char) : Bool := 48 ≤ c.toNat && c.toNat ≤ 57

/-- The C library predicate `std::isalpha`: `A` .. `Z` or `a` .. `z`. -/
def isalpha (c : Char) : Bool :=
  (65 ≤ c.toNat && c.toNat ≤ 90) || (97 ≤ c.toNat && c.toNat ≤ 122)

/-- The C library predicate `std::isalnum`. -/
def isalnum (c : Char) : Bool := isalpha c || isdigit c

/-- The C library predicate `std::isspace`: space, `\t`, `\n`, `\v`, `\f`, `\r`. -/
def isspace (c : Char) : Bool := c.toNat = 32 || (9 ≤ c.toNat && c.toNat ≤ 13)

/-! ## Character and keyword tables -/

namespace chardefs

/-- Modelled from the spec: `chardefs::quote` of the absent header, the double
quote that opens and closes a string literal. -/
def quote : Char := Char.ofNat 34
/-- Modelled from the spec: `chardefs::back_slash`, the escape introducer. -/
def back_slash : Char := Char.ofNat 92
/-- Modelled from the spec: `chardefs::underscore`. -/
def underscore : Char := '_'
/-- Modelled from the spec: `chardefs::period`, the decimal point. -/
def period : Char := '.'
/-- Modelled from the spec: `chardefs::plus`. -/
def plus : Char := '+'
/-- Modelled from the spec: `chardefs::dash`. -/
def dash : Char := '-'
/-- Modelled from the spec: `chardefs::asterisk`. -/
def asterisk : Char := '*'
/-- Modelled from the spec: `chardefs::forward_slash`. -/
def forward_slash : Char := '/'
/-- Modelled from the spec: `chardefs::open_paren`. -/
def open_paren : Char := '('
/-- Modelled from the spec: `chardefs::close_paren`. -/
def close_paren : Char := ')'
/-- Modelled from the spec: `chardefs::open_brace`. -/
def open_brace : Char := Char.ofNat 123
/-- Modelled from the spec: `chardefs::close_brace`. -/
def close_brace : Char := Char.ofNat 125
/-- Modelled from the spec: `chardefs::open_angle`. -/
def open_angle : Char := '<'
/-- Modelled from the spec: `chardefs::close_angle`. -/
def close_angle : Char := '>'
/-- Modelled from the spec: `chardefs::open_square`. -/
def open_square : Char := '['
/-- Modelled from the spec: `chardefs::close_square`. -/
def close_square : Char := ']'
/-- Modelled from the spec: `chardefs::comma`. -/
def comma : Char := ','
/-- Modelled from the spec: `chardefs::semicolon`. -/
def semicolon : Char := ';'

end chardefs

namespace keyworddefs

/-- Modelled from the spec: the keyword table of the absent header (section 6). -/
def char_kw : List Char := ['c', 'h', 'a', 'r']
/-- Modelled from the spec: keyword `int`. -/
def int_kw : List Char := ['i', 'n', 't']
/-- Modelled from the spec: keyword `double`. -/
def double_kw : List Char := ['d', 'o', 'u', 'b', 'l', 'e']
/-- Modelled from the spec: keyword `float`. -/
def float_kw : List Char := ['f', 'l', 'o', 'a', 't']
/-- Modelled from the spec: keyword `struct`. -/
def struct_kw : List Char := ['s', 't', 'r', 'u', 'c', 't']
/-- Modelled from the spec: keyword `enum`. -/
def enum_kw : List Char := ['e', 'n', 'u', 'm']
/-- Modelled from the spec: keyword `void`. -/
def void_kw : List Char := ['v', 'o', 'i', 'd']
/-- Modelled from the spec: keyword `short`. -/
def short_kw : List Char := ['s', 'h', 'o', 'r', 't']
/-- Modelled from the spec: keyword `long`. -/
def long_kw : List Char := ['l', 'o', 'n', 'g']
/-- Modelled from the spec: keyword `const`. -/
def const_kw : List Char := ['c', 'o', 'n', 's', 't']
/-- Modelled from the spec: keyword `static`. -/
def static_kw : List Char := ['s', 't', 'a', 't', 'i', 'c']
/-- Modelled from the spec: keyword `if`. -/
def if_kw : List Char := ['i', 'f']
/-- Modelled from the spec: keyword `else`. -/
def else_kw : List Char := ['e', 'l', 's', 'e']
/-- Modelled from the spec: keyword `for`. -/
def for_kw : List Char := ['f', 'o', 'r']
/-- Modelled from the spec: keyword `while`. -/
def while_kw : List Char := ['w', 'h', 'i', 'l', 'e']
/-- Modelled from the spec: keyword `break`. -/
def break_kw : List Char := ['b', 'r', 'e', 'a', 'k']
/-- Modelled from the spec: keyword `continue`. -/
def continue_kw : List Char := ['c', 'o', 'n', 't', 'i', 'n', 'u', 'e']
/-- Modelled from the spec: keyword `return`. -/
def return_kw : List Char := ['r', 'e', 't', 'u', 'r', 'n']

end keyworddefs

/-! ## Tokens and the scanner state -/

/-- Modelled from the spec: the closed set of token kinds (section 3); the
constructor names are the enumerators used by `lexer.cpp`. -/
inductive token_type where
  | eof | identifier | keyword | integer | double_precision | single_precision
  | string | invalid | plus | minus | asterisk | forward_slash
  | open_paren | close_paren | open_brace | close_brace
  | open_angle | close_angle | open_square | close_square
  | comma | semicolon
  deriving DecidableEq, Repr

/-- Modelled from the spec: a token is a kind together with the captured
lexeme span `[start, stop)` into the source buffer; `text` is the content of
the capture buffer when the token was built. -/
structure token where
  type : token_type
  start : Nat
  stop : Nat
  text : List Char
  deriving DecidableEq, Repr

/-- Modelled from the spec: the scanner state of section 3, namely the source
buffer, the cursor `index_`, the cached `token_start_` and the capture buffer
`buffer_` of the token being built. -/
structure lexer where
  contents : List Char
  index : Nat
  token_start : Nat
  buffer : List Char
  deriving DecidableEq, Repr

namespace lexer

/-- Modelled from the spec: `current()` returns the character at the index, or
the end-of-input sentinel once the index is past the end. -/
def current (eof : Char) (s : lexer) : Char := s.contents.getD s.index eof

/-- Modelled from the spec: `consume()` appends the current character to the
capture buffer and advances the index by one. -/
def consume (eof : Char) (s : lexer) : lexer :=
  { s with buffer := s.buffer ++ [s.current eof], index := s.index + 1 }

/-- Modelled from the spec: `next()` moves the index by one without capturing. -/
def next (s : lexer) : lexer := { s with index := s.index + 1 }

/-- Modelled from the spec: the token builder materialises a token from the
captured span and a classification; the capture buffer starts afresh for the
following token. -/
def create_token (ty : token_type) (s : lexer) : token × lexer :=
  (⟨ty, s.token_start, s.index, s.buffer⟩, { s with buffer := [] })

/-- The loop `while (cond(current())) { count++; body(); }`, where `body` is
`consume()` or `next()`.  The counter is the `mantissa_length` /
`exponent_length` of the numeric readers and is ignored elsewhere. -/
def while_current (eof : Char) (cond : Char → Bool) (body : lexer → lexer) :
    Nat → Nat → lexer → Option (Nat × lexer)
  | 0, _, _ => none
  | fuel + 1, count, s =>
    if cond (s.current eof) then while_current eof cond body fuel (count + 1) (body s)
    else some (count, s)

/-- The continuation test of `read_unknown`, as C++ parses it:
`!std::isspace(current()) && ((!current()) == chardefs::eof)`.
The operand `!current()` is the `bool` "current() is the zero character",
promoted to `1` or `0` for the comparison with the sentinel. -/
def unknown_cond (eof : Char) (c : Char) : Bool :=
  !isspace c && ((if c.toNat = 0 then 1 else 0) == eof.toNat)

/-- `lexer::read_unknown` (lines 322-329). -/
def read_unknown (eof : Char) (fuel : Nat) (s : lexer) : Option (token × lexer) :=
  match while_current eof (unknown_cond eof) (consume eof) fuel 0 s with
  | none => none
  | some (_, s1) => some (create_token token_type.invalid s1)

/-- `lexer::read_float` (lines 284-289). -/
def read_float (s : lexer) : token × lexer :=
  create_token token_type.single_precision s

/-- `lexer::read_exponent` (lines 291-320). -/
def read_exponent (eof : Char) (fuel : Nat) (s : lexer) : Option (token × lexer) :=
  let s1 :=
    if s.current eof = chardefs.plus || s.current eof = chardefs.dash then s.consume eof
    else s
  match while_current eof isdigit (consume eof) fuel 0 s1 with
  | none => none
  | some (exponent_length, s2) =>
    if exponent_length = 0 then read_unknown eof fuel s2
    else if s2.current eof = 'f' then some (read_float (s2.consume eof))
    else some (create_token token_type.double_precision s2)

/-- `lexer::read_double` (lines 242-282). -/
def read_double (eof : Char) (fuel : Nat) (s : lexer) : Option (token × lexer) :=
  match while_current eof isdigit (consume eof) fuel 0 s with
  | none => none
  | some (mantissa_length, s1) =>
    if mantissa_length = 0 then read_unknown eof fuel s1
    else
      let breaking_char := s1.current eof
      if breaking_char = chardefs.period then read_unknown eof fuel s1
      else if breaking_char = 'e' then read_exponent eof fuel (s1.consume eof)
      else if breaking_char = 'f' then some (read_float (s1.consume eof))
      else some (create_token token_type.double_precision s1)

/-- `lexer::read_integer` (lines 214-240). -/
def read_integer (eof : Char) (fuel : Nat) (s : lexer) : Option (token × lexer) :=
  match while_current eof isdigit (consume eof) fuel 0 s with
  | none => none
  | some (_, s1) =>
    let breaking_char := s1.current eof
    if breaking_char = chardefs.period then read_double eof fuel (s1.consume eof)
    else if breaking_char = 'e' then read_exponent eof fuel (s1.consume eof)
    else some (create_token token_type.integer s1)

/-- `lexer::skip_space` (lines 206-212). -/
def skip_space (eof : Char) (fuel : Nat) (s : lexer) : Option lexer :=
  match while_current eof isspace next fuel 0 s with
  | none => none
  | some (_, s1) => some s1

/-- `lexer::is_keyword` (lines 331-353): the capture buffer compared with each
of the eighteen keyword texts. -/
def is_keyword (s : lexer) : Bool :=
  let text := s.buffer
  (text == keyworddefs.char_kw     ||
   text == keyworddefs.int_kw      ||
   text == keyworddefs.double_kw   ||
   text == keyworddefs.float_kw    ||
   text == keyworddefs.struct_kw   ||
   text == keyworddefs.enum_kw     ||
   text == keyworddefs.void_kw     ||
   text == keyworddefs.short_kw    ||
   text == keyworddefs.long_kw     ||
   text == keyworddefs.const_kw    ||
   text == keyworddefs.static_kw   ||
   text == keyworddefs.if_kw       ||
   text == keyworddefs.else_kw     ||
   text == keyworddefs.for_kw      ||
   text == keyworddefs.while_kw    ||
   text == keyworddefs.break_kw    ||
   text == keyworddefs.continue_kw ||
   text == keyworddefs.return_kw)

/-- `lexer::read_identifier` (lines 193-204). -/
def read_identifier (eof : Char) (fuel : Nat) (s : lexer) : Option (token × lexer) :=
  match while_current eof (fun c => isalnum c || c == chardefs.underscore)
      (consume eof) fuel 0 s with
  | none => none
  | some (_, s1) =>
    if s1.is_keyword then some (create_token token_type.keyword s1)
    else some (create_token token_type.identifier s1)

/-- The set of characters accepted after a backslash by `read_escaped`:
single quote, double quote, `?`, backslash, bell, backspace, form feed,
newline, carriage return, tab, vertical tab. -/
def is_escape (c : Char) : Bool :=
  c.toNat = 39 || c.toNat = 34 || c.toNat = 63 || c.toNat = 92 || c.toNat = 7 ||
  c.toNat = 8 || c.toNat = 12 || c.toNat = 10 || c.toNat = 13 || c.toNat = 9 ||
  c.toNat = 11

/-- The continuation test of the loop of `read_string`:
`current() != quote && current() != back_slash && current() != eof`. -/
def string_cond (eof : Char) (c : Char) : Bool :=
  c != chardefs.quote && c != chardefs.back_slash && c != eof

/-- `lexer::read_string` (lines 130-162) together with `lexer::read_escaped`
(lines 164-191), which calls back into it; the backslash case below is the
inlined body of `read_escaped` (see `read_escaped`). -/
def read_string (eof : Char) : Nat → lexer → Option (token × lexer)
  | 0, _ => none
  | fuel + 1, s =>
    match while_current eof (string_cond eof) (consume eof) (fuel + 1) 0 s with
    | none => none
    | some (_, s1) =>
      let breaking_char := s1.current eof
      if breaking_char = chardefs.quote then
        some (create_token token_type.string (s1.consume eof))
      else if breaking_char = chardefs.back_slash then
        -- consume(); return read_escaped();
        let s2 := s1.consume eof
        let first_char := s2.current eof
        let s3 := if is_escape first_char then s2.consume eof else s2
        read_string eof fuel s3
      else if breaking_char = eof then
        some (create_token token_type.invalid s1)
      else some (create_token token_type.string s1)

/-- `lexer::read_escaped` (lines 164-191): consume the current character when
it is one of the recognised escapes, then resume `read_string`. -/
def read_escaped (eof : Char) (fuel : Nat) (s : lexer) : Option (token × lexer) :=
  let first_char := s.current eof
  let s1 := if is_escape first_char then s.consume eof else s
  read_string eof fuel s1

/-- The `switch` of `next_token` (lines 52-124): the token kind of a
punctuation character, if it is one. -/
def punctuation (c : Char) : Option token_type :=
  if c = chardefs.plus then some token_type.plus
  else if c = chardefs.dash then some token_type.minus
  else if c = chardefs.asterisk then some token_type.asterisk
  else if c = chardefs.forward_slash then some token_type.forward_slash
  else if c = chardefs.open_paren then some token_type.open_paren
  else if c = chardefs.close_paren then some token_type.close_paren
  else if c = chardefs.open_brace then some token_type.open_brace
  else if c = chardefs.close_brace then some token_type.close_brace
  else if c = chardefs.open_angle then some token_type.open_angle
  else if c = chardefs.close_angle then some token_type.close_angle
  else if c = chardefs.open_square then some token_type.open_square
  else if c = chardefs.close_square then some token_type.close_square
  else if c = chardefs.comma then some token_type.comma
  else if c = chardefs.semicolon then some token_type.semicolon
  else none

/-- `lexer::next_token` (lines 17-128). -/
def next_token (eof : Char) : Nat → lexer → Option (token × lexer)
  | 0, _ => none
  | fuel + 1, s0 =>
    let s := { s0 with token_start := s0.index }
    let first_char := s.current eof
    if first_char = eof then some (create_token token_type.eof s)
    else if first_char = chardefs.quote then read_string eof (fuel + 1) (s.consume eof)
    else if isalpha first_char || first_char = chardefs.underscore then
      read_identifier eof (fuel + 1) s
    else if isdigit first_char then read_integer eof (fuel + 1) s
    else if isspace first_char then
      match skip_space eof (fuel + 1) s with
      | none => none
      | some s1 => next_token eof fuel s1
    else
      match punctuation first_char with
      | some ty => some (create_token ty (s.consume eof))
      | none => read_unknown eof (fuel + 1) s

/-- The driver loop of `lex_contents`:
`while (current() != chardefs::eof) tokens.push_back(next_token());`. -/
def lex_loop (eof : Char) : Nat → lexer → List token → Option (List token × lexer)
  | 0, _, _ => none
  | fuel + 1, s, tokens =>
    if s.current eof ≠ eof then
      match next_token eof (fuel + 1) s with
      | none => none
      | some (tok, s1) => lex_loop eof fuel s1 (tokens ++ [tok])
    else some (tokens, s)

/-- Modelled from the spec: a scanner is constructed over one source buffer
with the cursor at offset zero and an empty capture buffer. -/
def init (source : List Char) : lexer := ⟨source, 0, 0, []⟩

/-- `lexer::lex_contents` (lines 5-15), run on a fresh scanner over `source`. -/
def lex_contents (eof : Char) (fuel : Nat) (source : List Char) : Option (List token) :=
  match lex_loop eof fuel (init source) [] with
  | none => none
  | some (tokens, _) => some tokens

end lexer

/-! ## Vocabulary of the statements -/

namespace lexer

/-- The scanner state in which `pre` has been read and `rest` is still unread. -/
def cursor (pre rest : List Char) (ts : Nat) (buf : List Char) : lexer :=
  ⟨pre ++ rest, pre.length, ts, buf⟩

/-- The outcome `r` of a reader started with `pre` read, `rest` unread, token
start `ts` and capture buffer `buf`: it captured a lexeme `lx` of at least `k`
characters from the front of `rest` and built a token that is not end-of-input. -/
def Reads (r : Option (token × lexer)) (k : Nat) (pre rest : List Char) (ts : Nat)
    (buf : List Char) : Prop :=
  ∃ lx rest2 ty, rest = lx ++ rest2 ∧ k ≤ lx.length ∧ ty ≠ token_type.eof ∧
    r = some (⟨ty, ts, (pre ++ lx).length, buf ++ lx⟩, cursor (pre ++ lx) rest2 ts [])

/-- The outcome `r` of one call of `next_token` with `pre` read and `rest` unread:
a whitespace run `w` was skipped, then the lexeme `lx` was captured. -/
def Scans (eof : Char) (r : Option (token × lexer)) (pre rest buf : List Char) : Prop :=
  ∃ w lx rest2 ty, rest = w ++ (lx ++ rest2) ∧ (∀ c ∈ w, isspace c = true) ∧
    r = some (⟨ty, (pre ++ w).length, (pre ++ w ++ lx).length, buf ++ lx⟩,
          cursor (pre ++ w ++ lx) rest2 (pre ++ w).length []) ∧
    (rest.headD eof ≠ eof → w ++ lx ≠ []) ∧
    (ty = token_type.eof → lx = [] ∧ rest2.headD eof = eof) ∧
    (ty ≠ token_type.eof → lx ≠ [])

/-- The part of `read_exponent` after the optional sign (lines 299-319). -/
def exponent_digits (eof : Char) (fuel : Nat) (s1 : lexer) : Option (token × lexer) :=
  match while_current eof isdigit (consume eof) fuel 0 s1 with
  | none => none
  | some (exponent_length, s2) =>
    if exponent_length = 0 then read_unknown eof fuel s2
    else if s2.current eof = 'f' then some (read_float (s2.consume eof))
    else some (create_token token_type.double_precision s2)

/-- An optional sign of an exponent: empty, `+` or `-`. -/
def is_sign_opt (sgn : List Char) : Prop := sgn = [] ∨ sgn = ['+'] ∨ sgn = ['-']

instance (sgn : List Char) : Decidable (is_sign_opt sgn) := by
  unfold is_sign_opt; infer_instance

/-- An optional mantissa part of a numeric literal: empty, or a period followed
by a non-empty run of digits. -/
def is_mantissa_opt (m : List Char) : Prop :=
  m = [] ∨ (m.head? = some '.' ∧ m.tail ≠ [] ∧ ∀ c ∈ m.tail, isdigit c = true)

instance (m : List Char) : Decidable (is_mantissa_opt m) := by
  unfold is_mantissa_opt; infer_instance

/-- A run of `next_token` calls made by the driver loop with `pre` read and
`rest` unread: the loop stops when the current character is the sentinel, and
otherwise skips a whitespace run `w` and captures a lexeme `lx`. -/
inductive Lexed (eof : Char) : List Char → List Char → List token → Prop
  | done (pre rest : List Char) : rest.headD eof = eof → Lexed eof pre rest []
  | step (pre w lx rest2 : List Char) (ty : token_type) (toks : List token) :
      (w ++ (lx ++ rest2)).headD eof ≠ eof →
      (∀ c ∈ w, isspace c = true) →
      (ty = token_type.eof → lx = [] ∧ rest2.headD eof = eof) →
      (ty ≠ token_type.eof → lx ≠ []) →
      Lexed eof (pre ++ w ++ lx) rest2 toks →
      Lexed eof pre (w ++ (lx ++ rest2))
        (⟨ty, (pre ++ w).length, (pre ++ w ++ lx).length, lx⟩ :: toks)

end lexer

/-- The characters of `src` at offsets `a`, ..., `b - 1`. -/
def span_text (src : List Char) (a b : Nat) : List Char := (src.drop a).take (b - a)

/-- The intervals of `src` lying outside the token spans, from offset `p` on:
before the first token, between consecutive tokens, and after the last one. -/
def gaps (src : List Char) : Nat → List token → List (List Char)
  | p, [] => [span_text src p src.length]
  | p, t :: ts => span_text src p t.start :: gaps src t.stop ts

/-- The gaps and the captured token texts from offset `p` on, concatenated in
source order. -/
def glue (src : List Char) : Nat → List token → List Char
  | p, [] => span_text src p src.length
  | p, t :: ts => span_text src p t.start ++ t.text ++ glue src t.stop ts

/-- The cursor invariant across one operation that starts in state `s` and has
outcome `r`: the operation returns, leaves the source buffer alone, does not
move the index backwards, and ends with `token_start <= index <= length`; the
token it built has `start <= stop <= length`. -/
def keeps_cursor_invariant (s : lexer) (r : Option (token × lexer)) : Prop :=
  match r with
  | none => False
  | some (tok, s1) =>
    s1.contents = s.contents ∧ s.index ≤ s1.index ∧
    s1.token_start ≤ s1.index ∧ s1.index ≤ s1.contents.length ∧
    tok.start ≤ tok.stop ∧ tok.stop ≤ s.contents.length

instance (s : lexer) (r : Option (token × lexer)) : Decidable (keeps_cursor_invariant s r) := by
  unfold keeps_cursor_invariant
  split <;> infer_instance

/-- The eighteen keywords, as section 6 of the specification lists them. -/
def spec_keywords : List (List Char) :=
  ["char".toList, "int".toList, "double".toList, "float".toList, "struct".toList,
   "enum".toList, "void".toList, "short".toList, "long".toList, "const".toList,
   "static".toList, "if".toList, "else".toList, "for".toList, "while".toList,
   "break".toList, "continue".toList, "return".toList]

/-- The number of end-of-input tokens in a token sequence. -/
def eof_count (toks : List token) : Nat :=
  (toks.filter (fun t => t.type = token_type.eof)).length

/-- The token sequence contains exactly one end-of-input token, and that token
is its last element. -/
def ends_with_single_eof (toks : List token) : Prop :=
  eof_count toks = 1 ∧ toks.getLast?.map token.type = some token_type.eof

instance (toks : List token) : Decidable (ends_with_single_eof toks) := by
  unfold ends_with_single_eof; infer_instance

/-- The extent of a string literal as `read_string` and `read_escaped` scan it:
`body` is the text after the opening quote; the result is the number of its
characters up to and including the closing quote, or `none` when the end of the
text comes first.  A backslash followed by a recognised escape skips both; any
other character but a quote skips one. -/
def string_scan : List Char → Option Nat
  | [] => none
  | [c] => if c = chardefs.quote then some 1 else none
  | c :: c2 :: rest =>
    if c = chardefs.quote then some 1
    else if c = chardefs.back_slash ∧ lexer.is_escape c2 = true then
      (string_scan rest).map (· + 2)
    else (string_scan (c2 :: rest)).map (· + 1)

/-- The outcome of `read_string` predicted by `string_scan`: a string token
ending after the closing quote, or an invalid token reaching the end. -/
def string_outcome (pre body : List Char) (ts : Nat) (buf : List Char) : token × lexer :=
  match string_scan body with
  | some k => (⟨token_type.string, ts, (pre ++ body.take k).length, buf ++ body.take k⟩,
      lexer.cursor (pre ++ body.take k) (body.drop k) ts [])
  | none => (⟨token_type.invalid, ts, (pre ++ body).length, buf ++ body⟩,
      lexer.cursor (pre ++ body) [] ts [])

/-- The number of consecutive backslashes at the end of `l`. -/
def trailing_backslashes (l : List Char) : Nat :=
  (l.reverse.takeWhile (fun c => c == chardefs.back_slash)).length

/-- The character of `body` at offset `i` is a quote preceded by an even number
(possibly zero) of consecutive backslashes. -/
def closes_at (body : List Char) (i : Nat) : Bool :=
  body[i]? == some chardefs.quote && trailing_backslashes (body.take i) % 2 == 0

/-- The offset in `body` of the first quote that is preceded by an even number
of consecutive backslashes, if there is one. -/
def string_end (body : List Char) : Option Nat :=
  (List.range body.length).find? (closes_at body)

/-- The left-to-right reading of `string_end`: `odd` tells whether the number of
consecutive backslashes just read is odd. -/
def find_close : Bool → List Char → Option Nat
  | _, [] => none
  | odd, c :: rest =>
    if c = chardefs.quote ∧ odd = false then some 0
    else (find_close (if c = chardefs.back_slash then !odd else false) rest).map (· + 1)

/-- The fourteen punctuation characters with their token kinds, as section 6 of
the specification lists them. -/
def punctuation_table : List (Char × token_type) :=
  [('+', token_type.plus), ('-', token_type.minus), ('*', token_type.asterisk),
   ('/', token_type.forward_slash), ('(', token_type.open_paren),
   (')', token_type.close_paren), (Char.ofNat 123, token_type.open_brace),
   (Char.ofNat 125, token_type.close_brace), ('<', token_type.open_angle),
   ('>', token_type.close_angle), ('[', token_type.open_square),
   (']', token_type.close_square), (',', token_type.comma), (';', token_type.semicolon)]

/-- The token kinds built by the literal readers (`read_string`,
`read_identifier`, the numeric readers and `read_unknown`). -/
def is_reader_kind (ty : token_type) : Prop :=
  ty ∈ [token_type.string, token_type.invalid, token_type.identifier, token_type.keyword,
    token_type.integer, token_type.double_precision, token_type.single_precision]

instance (ty : token_type) : Decidable (is_reader_kind ty) := by
  unfold is_reader_kind; infer_instance

/-- A token with its span moved `k` characters to the right. -/
def shift_token (k : Nat) (t : token) : token := ⟨t.type, t.start + k, t.stop + k, t.text⟩

/-- The scanner state `s` seen in a source buffer that has `w` in front of it. -/
def shift_lexer (w : List Char) (s : lexer) : lexer :=
  ⟨w ++ s.contents, s.index + w.length, s.token_start + w.length, s.buffer⟩

/-- The outcome of a reader, moved behind `w`. -/
def shift_result (w : List Char) (r : token × lexer) : token × lexer :=
  (shift_token w.length r.1, shift_lexer w r.2)

/-- The part of `body` that `string_scan` passes over: `body` up to and
including the closing quote, or all of `body` when the scan reaches its end. -/
def string_scanned (body : List Char) : List Char :=
  match string_scan body with
  | some k => body.take k
  | none => body

/-- The text of a string literal after its opening quote, in the words of
`string_end`: `body` up to and including the first quote that is preceded by an
even number of consecutive backslashes, or all of `body` when there is none. -/
def string_extent (body : List Char) : List Char :=
  match string_end body with
  | some i => body.take (i + 1)
  | none => body

/-! ## Scanner states seen as a split of the source -/

namespace lexer

theorem init_eq_cursor (source : List Char) : init source = cursor [] source 0 [] := rfl

theorem current_cursor (eof : Char) (pre rest : List Char) (ts : Nat) (buf : List Char) :
    (cursor pre rest ts buf).current eof = rest.headD eof := by
  have h : (pre ++ rest)[pre.length]? = rest[0]? := by
    rw [List.getElem?_append_right (Nat.le_refl _), Nat.sub_self]
  cases rest with
  | nil => simp [cursor, current, List.getD]
  | cons c r => simp [cursor, current, List.getD, h]

theorem consume_cursor (eof : Char) (pre : List Char) (c : Char) (r : List Char) (ts : Nat)
    (buf : List Char) :
    (cursor pre (c :: r) ts buf).consume eof = cursor (pre ++ [c]) r ts (buf ++ [c]) := by
  have h := current_cursor eof pre (c :: r) ts buf
  simp only [List.headD_cons] at h
  simp only [consume, h]
  simp [cursor]

theorem next_cursor (pre : List Char) (c : Char) (r : List Char) (ts : Nat)
    (buf : List Char) :
    (cursor pre (c :: r) ts buf).next = cursor (pre ++ [c]) r ts buf := by
  simp [cursor, next]

/-- Every state whose index is within the buffer is a `cursor`. -/
theorem eq_cursor (s : lexer) (h : s.index ≤ s.contents.length) :
    s = cursor (s.contents.take s.index) (s.contents.drop s.index) s.token_start s.buffer := by
  cases s with
  | mk contents index token_start buffer =>
    simp only [cursor, List.take_append_drop, List.length_take]
    simp only at h
    rw [Nat.min_eq_left h]

/-- A `while` loop whose body is `consume()` reads exactly the run `d` when every
character of `d` passes the test and the character after it does not. -/
theorem while_consume_run (eof : Char) (cond : Char → Bool) (d : List Char) :
    ∀ (r pre : List Char) (ts : Nat) (buf : List Char) (fuel count : Nat),
      (∀ c ∈ d, cond c = true) → cond (r.headD eof) = false → d.length < fuel →
      while_current eof cond (consume eof) fuel count (cursor pre (d ++ r) ts buf)
        = some (count + d.length, cursor (pre ++ d) r ts (buf ++ d)) := by
  induction d with
  | nil =>
    intro r pre ts buf fuel count _ hr hf
    obtain ⟨f, rfl⟩ : ∃ f, fuel = f + 1 := ⟨fuel - 1, by simp at hf; omega⟩
    simp only [while_current, List.nil_append, current_cursor, hr]
    simp
  | cons c d ih =>
    intro r pre ts buf fuel count hd hr hf
    obtain ⟨f, rfl⟩ : ∃ f, fuel = f + 1 := ⟨fuel - 1, by simp at hf; omega⟩
    have hc : cond c = true := hd c (by simp)
    have hd2 : ∀ x ∈ d, cond x = true := fun x hx => hd x (by simp [hx])
    have hf2 : d.length < f := by simp at hf; omega
    simp only [while_current, List.cons_append, current_cursor, List.headD_cons, hc, if_true,
      consume_cursor]
    rw [ih r (pre ++ [c]) ts (buf ++ [c]) f (count + 1) hd2 hr hf2]
    simp [Nat.add_assoc, Nat.add_comm 1]

/-- The same for a loop whose body is `next()`: the run is skipped, not captured. -/
theorem while_next_run (eof : Char) (cond : Char → Bool) (d : List Char) :
    ∀ (r pre : List Char) (ts : Nat) (buf : List Char) (fuel count : Nat),
      (∀ c ∈ d, cond c = true) → cond (r.headD eof) = false → d.length < fuel →
      while_current eof cond next fuel count (cursor pre (d ++ r) ts buf)
        = some (count + d.length, cursor (pre ++ d) r ts buf) := by
  induction d with
  | nil =>
    intro r pre ts buf fuel count _ hr hf
    obtain ⟨f, rfl⟩ : ∃ f, fuel = f + 1 := ⟨fuel - 1, by simp at hf; omega⟩
    simp only [while_current, List.nil_append, current_cursor, hr]
    simp
  | cons c d ih =>
    intro r pre ts buf fuel count hd hr hf
    obtain ⟨f, rfl⟩ : ∃ f, fuel = f + 1 := ⟨fuel - 1, by simp at hf; omega⟩
    have hc : cond c = true := hd c (by simp)
    have hd2 : ∀ x ∈ d, cond x = true := fun x hx => hd x (by simp [hx])
    have hf2 : d.length < f := by simp at hf; omega
    simp only [while_current, List.cons_append, current_cursor, List.headD_cons, hc, if_true,
      next_cursor]
    rw [ih r (pre ++ [c]) ts buf f (count + 1) hd2 hr hf2]
    simp [Nat.add_assoc, Nat.add_comm 1]

/-- The loop with body `consume()` reads the longest run passing the test,
provided the sentinel itself fails the test. -/
theorem while_consume_max (eof : Char) (cond : Char → Bool) (hE : cond eof = false)
    (pre rest : List Char) (ts : Nat) (buf : List Char) (fuel count : Nat)
    (hf : rest.length < fuel) :
    while_current eof cond (consume eof) fuel count (cursor pre rest ts buf)
      = some (count + (rest.takeWhile cond).length,
          cursor (pre ++ rest.takeWhile cond) (rest.dropWhile cond) ts
            (buf ++ rest.takeWhile cond)) := by
  have h := while_consume_run eof cond (rest.takeWhile cond) (rest.dropWhile cond) pre ts buf
    fuel count (fun c hc => (List.mem_takeWhile_imp hc))
    (by
      cases hdw : rest.dropWhile cond with
      | nil => simpa using hE
      | cons x xs =>
        have := List.head_dropWhile_not cond rest (by simp [hdw])
        simpa [hdw] using this)
    (Nat.lt_of_le_of_lt (List.takeWhile_sublist cond).length_le hf)
  rwa [List.takeWhile_append_dropWhile] at h

/-- The loop with body `next()` skips the longest run passing the test. -/
theorem while_next_max (eof : Char) (cond : Char → Bool) (hE : cond eof = false)
    (pre rest : List Char) (ts : Nat) (buf : List Char) (fuel count : Nat)
    (hf : rest.length < fuel) :
    while_current eof cond next fuel count (cursor pre rest ts buf)
      = some (count + (rest.takeWhile cond).length,
          cursor (pre ++ rest.takeWhile cond) (rest.dropWhile cond) ts buf) := by
  have h := while_next_run eof cond (rest.takeWhile cond) (rest.dropWhile cond) pre ts buf
    fuel count (fun c hc => (List.mem_takeWhile_imp hc))
    (by
      cases hdw : rest.dropWhile cond with
      | nil => simpa using hE
      | cons x xs =>
        have := List.head_dropWhile_not cond rest (by simp [hdw])
        simpa [hdw] using this)
    (Nat.lt_of_le_of_lt (List.takeWhile_sublist cond).length_le hf)
  rwa [List.takeWhile_append_dropWhile] at h

theorem Reads.of_create (ty : token_type) (hty : ty ≠ token_type.eof) (k : Nat)
    (pre lx rest2 : List Char) (ts : Nat) (buf : List Char) (hk : k ≤ lx.length) :
    Reads (some (create_token ty (cursor (pre ++ lx) rest2 ts (buf ++ lx)))) k pre
      (lx ++ rest2) ts buf :=
  ⟨lx, rest2, ty, rfl, hk, hty, rfl⟩

theorem Reads.shift {r : Option (token × lexer)} {k : Nat} {pre rest : List Char} {ts : Nat}
    {buf : List Char} (d : List Char) (h : Reads r k (pre ++ d) rest ts (buf ++ d)) :
    Reads r (k + d.length) pre (d ++ rest) ts buf := by
  obtain ⟨lx, rest2, ty, h1, h2, h3, h4⟩ := h
  refine ⟨d ++ lx, rest2, ty, ?_, ?_, h3, ?_⟩
  · simp [h1]
  · simp; omega
  · simp only [h4, List.append_assoc]

theorem Reads.mono {r : Option (token × lexer)} {k j : Nat} {pre rest : List Char} {ts : Nat}
    {buf : List Char} (h : Reads r k pre rest ts buf) (hj : j ≤ k) :
    Reads r j pre rest ts buf := by
  obtain ⟨lx, rest2, ty, h1, h2, h3, h4⟩ := h
  exact ⟨lx, rest2, ty, h1, Nat.le_trans hj h2, h3, h4⟩

/-- With the zero character as sentinel, the test of `read_unknown` is
"neither whitespace nor the sentinel". -/
theorem unknown_cond_zero (c : Char) :
    unknown_cond (Char.ofNat 0) c = (!isspace c && c != Char.ofNat 0) := by
  have h0 : (Char.ofNat 0).toNat = 0 := by decide
  have hc : (c.toNat = 0) ↔ c = Char.ofNat 0 := by
    constructor
    · intro h
      apply Char.ext
      apply UInt32.ext
      exact h
    · intro h; rw [h]; exact h0
  unfold unknown_cond
  rw [h0]
  by_cases h : c = Char.ofNat 0
  · subst h; decide
  · have : ¬ c.toNat = 0 := fun hh => h (hc.mp hh)
    simp [this, h]

/-- The test of `read_unknown` fails on the sentinel, whatever its value. -/
theorem unknown_cond_eof (eof : Char) : unknown_cond eof eof = false := by
  unfold unknown_cond
  by_cases h : eof.toNat = 0
  · simp [h]
  · simp [h]; intro _; omega

theorem read_unknown_reads (eof : Char) (pre rest : List Char) (ts : Nat) (buf : List Char)
    (fuel : Nat) (hf : rest.length < fuel) :
    Reads (read_unknown eof fuel (cursor pre rest ts buf))
      (rest.takeWhile (unknown_cond eof)).length pre rest ts buf := by
  unfold read_unknown
  rw [while_consume_max eof _ (unknown_cond_eof eof) pre rest ts buf fuel 0 hf]
  have := Reads.of_create token_type.invalid (by decide)
    (rest.takeWhile (unknown_cond eof)).length pre (rest.takeWhile (unknown_cond eof))
    (rest.dropWhile (unknown_cond eof)) ts buf (Nat.le_refl _)
  rwa [List.takeWhile_append_dropWhile] at this

theorem Reads.of_create_eq (ty : token_type) (hty : ty ≠ token_type.eof) (k : Nat)
    {pre lx rest rest2 p b : List Char} (ts : Nat) {buf : List Char} (hk : k ≤ lx.length)
    (hp : p = pre ++ lx) (hb : b = buf ++ lx) (hr : rest = lx ++ rest2) :
    Reads (some (create_token ty (cursor p rest2 ts b))) k pre rest ts buf := by
  subst hp hb hr
  exact Reads.of_create ty hty k pre lx rest2 ts buf hk

theorem Reads.shift_eq {r : Option (token × lexer)} {k : Nat} {pre rest rest0 p b : List Char}
    {ts : Nat} {buf : List Char} (d : List Char) (h : Reads r k p rest ts b)
    (hp : p = pre ++ d) (hb : b = buf ++ d) (hr : rest0 = d ++ rest) :
    Reads r 0 pre rest0 ts buf := by
  subst hp hb hr
  exact (Reads.shift d h).mono (Nat.zero_le _)

theorem headD_eq_cons {r : List Char} {eof c : Char} (h : r.headD eof = c) (hc : c ≠ eof) :
    ∃ r0, r = c :: r0 := by
  cases r with
  | nil => exact absurd h.symm hc
  | cons x xs => exact ⟨xs, by simp at h; rw [h]⟩

theorem read_exponent_reads (eof : Char) (heof : eof = Char.ofNat 0) (pre rest : List Char)
    (ts : Nat) (buf : List Char) (fuel : Nat) (hf : rest.length < fuel) :
    Reads (read_exponent eof fuel (cursor pre rest ts buf)) 0 pre rest ts buf := by
  have hE : isdigit eof = false := by subst heof; decide
  have key : ∀ (pre rest buf : List Char), rest.length < fuel →
      Reads (match while_current eof isdigit (consume eof) fuel 0 (cursor pre rest ts buf) with
        | none => none
        | some (exponent_length, s2) =>
          if exponent_length = 0 then read_unknown eof fuel s2
          else if s2.current eof = 'f' then some (read_float (s2.consume eof))
          else some (create_token token_type.double_precision s2)) 0 pre rest ts buf := by
    intro pre rest buf hf
    rw [while_consume_max eof isdigit hE pre rest ts buf fuel 0 hf]
    have hsplit := List.takeWhile_append_dropWhile isdigit rest
    have hlen : (rest.dropWhile isdigit).length < fuel :=
      Nat.lt_of_le_of_lt (List.dropWhile_sublist isdigit).length_le hf
    simp only [current_cursor]
    split
    · exact Reads.shift_eq _ (read_unknown_reads eof _ _ ts _ fuel hlen) rfl rfl hsplit.symm
    · split
      · rename_i hfch
        obtain ⟨r0, hr0⟩ := headD_eq_cons hfch (by subst heof; decide)
        rw [hr0, consume_cursor]
        exact Reads.of_create_eq token_type.single_precision (by decide) 0 ts (Nat.zero_le _)
          (List.append_assoc _ _ _) (List.append_assoc _ _ _)
          (by rw [List.append_assoc, List.singleton_append, ← hr0, hsplit])
      · exact Reads.of_create_eq token_type.double_precision (by decide) 0 ts (Nat.zero_le _)
          rfl rfl hsplit.symm
  unfold read_exponent
  simp only [current_cursor]
  by_cases hsign : (decide (rest.headD eof = chardefs.plus) ||
      decide (rest.headD eof = chardefs.dash)) = true
  · rw [if_pos hsign]
    have : ∃ c r0, rest = c :: r0 := by
      cases rest with
      | nil =>
        subst heof
        exact absurd hsign (by decide)
      | cons c r0 => exact ⟨c, r0, rfl⟩
    obtain ⟨c, r0, rfl⟩ := this
    rw [consume_cursor]
    exact Reads.shift_eq [c] (key _ r0 _ (by simp at hf; omega)) rfl rfl rfl
  · rw [if_neg hsign]
    exact key pre rest buf hf

theorem Reads.shift_le {r : Option (token × lexer)} {k : Nat} {pre rest rest0 p b : List Char}
    {ts : Nat} {buf : List Char} (d : List Char) (j : Nat) (h : Reads r k p rest ts b)
    (hp : p = pre ++ d) (hb : b = buf ++ d) (hr : rest0 = d ++ rest) (hj : j ≤ d.length) :
    Reads r j pre rest0 ts buf := by
  subst hp hb hr
  exact (Reads.shift d h).mono (by omega)

theorem read_double_reads (eof : Char) (heof : eof = Char.ofNat 0) (pre rest : List Char)
    (ts : Nat) (buf : List Char) (fuel : Nat) (hf : rest.length < fuel) :
    Reads (read_double eof fuel (cursor pre rest ts buf)) 0 pre rest ts buf := by
  have hE : isdigit eof = false := by subst heof; decide
  unfold read_double
  rw [while_consume_max eof isdigit hE pre rest ts buf fuel 0 hf]
  have hsplit := List.takeWhile_append_dropWhile isdigit rest
  have hlen : (rest.dropWhile isdigit).length < fuel :=
    Nat.lt_of_le_of_lt (List.dropWhile_sublist isdigit).length_le hf
  simp only [current_cursor]
  split
  · exact Reads.shift_eq _ (read_unknown_reads eof _ _ ts _ fuel hlen) rfl rfl hsplit.symm
  · split
    · exact Reads.shift_eq _ (read_unknown_reads eof _ _ ts _ fuel hlen) rfl rfl hsplit.symm
    · split
      · rename_i hch
        obtain ⟨r0, hr0⟩ := headD_eq_cons hch (by subst heof; decide)
        rw [hr0, consume_cursor]
        have hlen0 : r0.length < fuel := by rw [hr0] at hlen; simp at hlen; omega
        exact Reads.shift_eq (rest.takeWhile isdigit ++ ['e'])
          (read_exponent_reads eof heof _ r0 ts _ fuel hlen0)
          (List.append_assoc _ _ _) (List.append_assoc _ _ _)
          (by rw [List.append_assoc, List.singleton_append, ← hr0, hsplit])
      · split
        · rename_i hch
          obtain ⟨r0, hr0⟩ := headD_eq_cons hch (by subst heof; decide)
          rw [hr0, consume_cursor]
          exact Reads.of_create_eq token_type.single_precision (by decide) 0 ts
            (Nat.zero_le _) (List.append_assoc _ _ _) (List.append_assoc _ _ _)
            (by rw [List.append_assoc, List.singleton_append, ← hr0, hsplit])
        · exact Reads.of_create_eq token_type.double_precision (by decide) 0 ts
            (Nat.zero_le _) rfl rfl hsplit.symm

theorem read_integer_reads (eof : Char) (heof : eof = Char.ofNat 0) (pre rest : List Char)
    (ts : Nat) (buf : List Char) (fuel : Nat) (hf : rest.length < fuel) :
    Reads (read_integer eof fuel (cursor pre rest ts buf)) (rest.takeWhile isdigit).length
      pre rest ts buf := by
  have hE : isdigit eof = false := by subst heof; decide
  unfold read_integer
  rw [while_consume_max eof isdigit hE pre rest ts buf fuel 0 hf]
  have hsplit := List.takeWhile_append_dropWhile isdigit rest
  have hlen : (rest.dropWhile isdigit).length < fuel :=
    Nat.lt_of_le_of_lt (List.dropWhile_sublist isdigit).length_le hf
  simp only [current_cursor]
  split
  · rename_i hch
    obtain ⟨r0, hr0⟩ := headD_eq_cons hch (by subst heof; decide)
    rw [hr0, consume_cursor]
    have hlen0 : r0.length < fuel := by rw [hr0] at hlen; simp at hlen; omega
    exact Reads.shift_le (rest.takeWhile isdigit ++ [chardefs.period]) _
      (read_double_reads eof heof _ r0 ts _ fuel hlen0)
      (List.append_assoc _ _ _) (List.append_assoc _ _ _)
      (by rw [List.append_assoc, List.singleton_append, ← hr0, hsplit]) (by simp)
  · split
    · rename_i hch
      obtain ⟨r0, hr0⟩ := headD_eq_cons hch (by subst heof; decide)
      rw [hr0, consume_cursor]
      have hlen0 : r0.length < fuel := by rw [hr0] at hlen; simp at hlen; omega
      exact Reads.shift_le (rest.takeWhile isdigit ++ ['e']) _
        (read_exponent_reads eof heof _ r0 ts _ fuel hlen0)
        (List.append_assoc _ _ _) (List.append_assoc _ _ _)
        (by rw [List.append_assoc, List.singleton_append, ← hr0, hsplit]) (by simp)
    · exact Reads.of_create_eq token_type.integer (by decide) _ ts
        (Nat.le_refl _) rfl rfl hsplit.symm

theorem read_identifier_reads (eof : Char) (heof : eof = Char.ofNat 0) (pre rest : List Char)
    (ts : Nat) (buf : List Char) (fuel : Nat) (hf : rest.length < fuel) :
    Reads (read_identifier eof fuel (cursor pre rest ts buf))
      (rest.takeWhile (fun c => isalnum c || c == chardefs.underscore)).length
      pre rest ts buf := by
  have hE : (fun c => isalnum c || c == chardefs.underscore) eof = false := by
    subst heof; decide
  unfold read_identifier
  rw [while_consume_max eof _ hE pre rest ts buf fuel 0 hf]
  have hsplit := List.takeWhile_append_dropWhile
    (fun c => isalnum c || c == chardefs.underscore) rest
  simp only
  split
  · exact Reads.of_create_eq token_type.keyword (by decide) _ ts
      (Nat.le_refl _) rfl rfl hsplit.symm
  · exact Reads.of_create_eq token_type.identifier (by decide) _ ts
      (Nat.le_refl _) rfl rfl hsplit.symm

theorem read_string_reads (eof : Char) (heof : eof = Char.ofNat 0) (ts : Nat) (fuel : Nat) :
    ∀ (pre rest buf : List Char), rest.length < fuel →
      Reads (read_string eof fuel (cursor pre rest ts buf)) 0 pre rest ts buf := by
  induction fuel with
  | zero => intro pre rest buf hf; omega
  | succ fuel ih =>
    intro pre rest buf hf
    have hE : string_cond eof eof = false := by simp [string_cond]
    have hsplit := List.takeWhile_append_dropWhile (string_cond eof) rest
    have hlen : (rest.dropWhile (string_cond eof)).length < fuel + 1 :=
      Nat.lt_of_le_of_lt (List.dropWhile_sublist _).length_le hf
    simp only [read_string]
    rw [while_consume_max eof _ hE pre rest ts buf (fuel + 1) 0 hf]
    simp only [current_cursor]
    split
    · rename_i hch
      obtain ⟨r0, hr0⟩ := headD_eq_cons hch (by subst heof; decide)
      rw [hr0, consume_cursor]
      exact Reads.of_create_eq token_type.string (by decide) 0 ts
        (Nat.zero_le _) (List.append_assoc _ _ _) (List.append_assoc _ _ _)
        (by rw [List.append_assoc, List.singleton_append, ← hr0, hsplit])
    · split
      · rename_i hch
        obtain ⟨r0, hr0⟩ := headD_eq_cons hch (by subst heof; decide)
        rw [hr0, consume_cursor]
        have hlen0 : r0.length < fuel := by rw [hr0] at hlen; simp at hlen; omega
        simp only [current_cursor]
        split
        · rename_i hesc
          have : ∃ c2 r1, r0 = c2 :: r1 := by
            cases r0 with
            | nil =>
              subst heof
              exact absurd hesc (by decide)
            | cons c2 r1 => exact ⟨c2, r1, rfl⟩
          obtain ⟨c2, r1, hr1⟩ := this
          rw [hr1, consume_cursor]
          have hlen1 : r1.length < fuel := by rw [hr1] at hlen0; simp at hlen0; omega
          refine Reads.shift_eq (rest.takeWhile (string_cond eof) ++ [chardefs.back_slash] ++ [c2])
            (ih _ r1 _ hlen1) ?_ ?_ ?_
          · simp only [List.append_assoc]
          · simp only [List.append_assoc]
          · rw [hr1] at hr0
            conv_lhs => rw [← hsplit, hr0]
            simp
        · refine Reads.shift_eq (rest.takeWhile (string_cond eof) ++ [chardefs.back_slash])
            (ih _ r0 _ hlen0) ?_ ?_ ?_
          · simp only [List.append_assoc]
          · simp only [List.append_assoc]
          · simp only [List.append_assoc, List.singleton_append]
            rw [← hr0, hsplit]
      · split
        · exact Reads.of_create_eq token_type.invalid (by decide) 0 ts
            (Nat.zero_le _) rfl rfl hsplit.symm
        · exact Reads.of_create_eq token_type.string (by decide) 0 ts
            (Nat.zero_le _) rfl rfl hsplit.symm

theorem Scans.of_reads {eof : Char} {r : Option (token × lexer)} {pre rest buf : List Char}
    (h : Reads r 1 pre rest pre.length buf) : Scans eof r pre rest buf := by
  obtain ⟨lx, rest2, ty, h1, h2, h3, h4⟩ := h
  have hne : lx ≠ [] := by
    intro h0; rw [h0] at h2; simp at h2
  exact ⟨[], lx, rest2, ty, by simpa using h1, by simp, by simpa using h4,
    fun _ => by simpa using hne, fun h => absurd h h3, fun _ => hne⟩

theorem ite_some_cases {p : Prop} [Decidable p] {a b : token_type} {e : Option token_type}
    (h : (if p then some a else e) = some b) : a = b ∨ e = some b := by
  by_cases hp : p
  · rw [if_pos hp] at h; exact Or.inl (Option.some.inj h)
  · rw [if_neg hp] at h; exact Or.inr h

theorem punctuation_ne_eof (c : Char) (ty : token_type) (h : punctuation c = some ty) :
    ty ≠ token_type.eof := by
  rintro rfl
  unfold punctuation at h
  iterate 14
    rcases ite_some_cases h with h | h
    · exact absurd h (by decide)
  cases h

theorem takeWhile_pos {cond : Char → Bool} {c : Char} {r : List Char} (h : cond c = true) :
    1 ≤ ((c :: r).takeWhile cond).length := by
  simp [List.takeWhile_cons, h]

theorem next_token_scans (eof : Char) (heof : eof = Char.ofNat 0) (fuel : Nat) :
    ∀ (pre rest : List Char) (ts : Nat) (buf : List Char), rest.length < fuel →
      Scans eof (next_token eof fuel (cursor pre rest ts buf)) pre rest buf := by
  induction fuel with
  | zero => intro pre rest ts buf hf; omega
  | succ fuel ih =>
    intro pre rest ts buf hf
    have hts : ({ cursor pre rest ts buf with token_start := (cursor pre rest ts buf).index } :
        lexer) = cursor pre rest pre.length buf := rfl
    simp only [next_token, hts, current_cursor]
    by_cases h1 : rest.headD eof = eof
    · rw [if_pos h1]
      refine ⟨[], [], rest, token_type.eof, by simp, by simp, ?_, fun h => absurd h1 h,
        fun _ => ⟨rfl, h1⟩, fun h => absurd rfl h⟩
      simp [create_token, cursor]
    · rw [if_neg h1]
      obtain ⟨c, r0, rfl⟩ : ∃ c r0, rest = c :: r0 := by
        cases rest with
        | nil => exact absurd rfl h1
        | cons c r0 => exact ⟨c, r0, rfl⟩
      simp only [List.headD_cons] at h1 ⊢
      have hr0 : r0.length < fuel + 1 := by simp at hf; omega
      split
      · -- string literal
        rw [consume_cursor]
        exact Scans.of_reads (Reads.shift_le [c] 1
          (read_string_reads eof heof pre.length (fuel + 1) _ r0 _ hr0) rfl rfl rfl (by simp))
      · split
        · -- identifier or keyword
          rename_i hid
          refine Scans.of_reads ((read_identifier_reads eof heof pre (c :: r0) pre.length buf
            (fuel + 1) hf).mono (takeWhile_pos ?_))
          simp only [Bool.or_eq_true, decide_eq_true_eq] at hid
          rcases hid with hid | hid
          · simp [isalnum, hid]
          · simp [hid]
        · split
          · -- numeric literal
            rename_i hdig
            exact Scans.of_reads ((read_integer_reads eof heof pre (c :: r0) pre.length buf
              (fuel + 1) hf).mono (takeWhile_pos hdig))
          · split
            · -- whitespace
              rename_i hsp
              have hE : isspace eof = false := by subst heof; decide
              unfold skip_space
              rw [while_next_max eof isspace hE pre (c :: r0) pre.length buf (fuel + 1) 0 hf]
              have hsplit := List.takeWhile_append_dropWhile isspace (c :: r0)
              have hpos : 1 ≤ ((c :: r0).takeWhile isspace).length := takeWhile_pos hsp
              have hlen : ((c :: r0).dropWhile isspace).length < fuel := by
                have := congrArg List.length hsplit
                simp only [List.length_append, List.length_cons] at this hf
                omega
              obtain ⟨w, lx, rest2, ty, e1, e2, e3, _, e5, e6⟩ :=
                ih (pre ++ (c :: r0).takeWhile isspace) ((c :: r0).dropWhile isspace)
                  pre.length buf hlen
              refine ⟨(c :: r0).takeWhile isspace ++ w, lx, rest2, ty, ?_, ?_, ?_, ?_, e5, e6⟩
              · rw [List.append_assoc, ← e1, hsplit]
              · intro x hx
                rcases List.mem_append.mp hx with hx | hx
                · exact List.mem_takeWhile_imp hx
                · exact e2 x hx
              · simp only [e3, List.append_assoc]
              · intro _ h0
                have := congrArg List.length h0
                simp only [List.length_append, List.length_nil] at this
                omega
            · rename_i hq hid hdig hsp
              split
              · -- punctuation
                rename_i ty hty
                rw [consume_cursor]
                exact Scans.of_reads (Reads.of_create_eq ty (punctuation_ne_eof c ty hty) 1
                  pre.length (by simp) rfl rfl rfl)
              · -- unknown
                refine Scans.of_reads ((read_unknown_reads eof pre (c :: r0) pre.length buf
                  (fuel + 1) hf).mono (takeWhile_pos ?_))
                subst heof
                rw [unknown_cond_zero]
                simp only [Bool.not_eq_true] at hsp
                simp [hsp, h1]

theorem lex_loop_lexed (eof : Char) (heof : eof = Char.ofNat 0) (fuel : Nat) :
    ∀ (pre rest : List Char) (ts : Nat) (acc : List token), rest.length < fuel →
      ∃ toks s, lex_loop eof fuel (cursor pre rest ts []) acc = some (acc ++ toks, s) ∧
        Lexed eof pre rest toks := by
  induction fuel with
  | zero => intro pre rest ts acc hf; omega
  | succ fuel ih =>
    intro pre rest ts acc hf
    simp only [lex_loop, current_cursor]
    by_cases h1 : rest.headD eof = eof
    · rw [if_neg (not_not.mpr h1)]
      exact ⟨[], cursor pre rest ts [], by simp, Lexed.done pre rest h1⟩
    · rw [if_pos h1]
      obtain ⟨w, lx, rest2, ty, e1, e2, e3, e4, e5, e6⟩ :=
        next_token_scans eof heof (fuel + 1) pre rest ts [] hf
      have hlen : rest2.length < fuel := by
        have hne := e4 h1
        have h2 := congrArg List.length e1
        have h3 : 0 < (w ++ lx).length := List.length_pos.mpr hne
        simp only [List.length_append] at h2 h3
        omega
      rw [e3]
      simp only
      obtain ⟨toks, s, f1, f2⟩ := ih (pre ++ w ++ lx) rest2 (pre ++ w).length
        (acc ++ [⟨ty, (pre ++ w).length, (pre ++ w ++ lx).length, [] ++ lx⟩]) hlen
      refine ⟨⟨ty, (pre ++ w).length, (pre ++ w ++ lx).length, lx⟩ :: toks, s, ?_, ?_⟩
      · rw [f1]; simp
      · subst e1
        exact Lexed.step pre w lx rest2 ty toks h1 e2 e5 e6 f2

theorem lex_contents_lexed (eof : Char) (heof : eof = Char.ofNat 0) (src : List Char)
    (fuel : Nat) (hf : src.length < fuel) :
    ∃ toks, lex_contents eof fuel src = some toks ∧ Lexed eof [] src toks := by
  obtain ⟨toks, s, h1, h2⟩ := lex_loop_lexed eof heof fuel [] src 0 [] hf
  refine ⟨toks, ?_, h2⟩
  unfold lex_contents
  rw [init_eq_cursor, h1]
  simp

theorem Lexed.nil_of_head {eof : Char} {pre rest : List Char} {toks : List token}
    (h : Lexed eof pre rest toks) (hd : rest.headD eof = eof) : toks = [] := by
  cases h with
  | done => rfl
  | step pre w lx rest2 ty toks h1 => exact absurd hd h1

theorem Lexed.progress {eof : Char} {w lx rest2 : List Char} {ty : token_type}
    (h1 : (w ++ (lx ++ rest2)).headD eof ≠ eof)
    (h3 : ty = token_type.eof → lx = [] ∧ rest2.headD eof = eof)
    (h4 : ty ≠ token_type.eof → lx ≠ []) : 0 < (w ++ lx).length := by
  by_cases hty : ty = token_type.eof
  · obtain ⟨hl, hr⟩ := h3 hty
    subst hl
    cases w with
    | nil => simp only [List.nil_append] at h1; exact absurd hr h1
    | cons c w => simp
  · have := List.length_pos.mpr (h4 hty)
    simp only [List.length_append]; omega

theorem Lexed.length_le {eof : Char} {pre rest : List Char} {toks : List token}
    (h : Lexed eof pre rest toks) : toks.length ≤ rest.length := by
  induction h with
  | done => simp
  | step pre w lx rest2 ty toks h1 h2 h3 h4 _ ih =>
    have := Lexed.progress h1 h3 h4
    simp only [List.length_append, List.length_cons] at this ⊢
    omega

theorem span_text_mid (pre mid post : List Char) :
    span_text (pre ++ (mid ++ post)) pre.length (pre ++ mid).length = mid := by
  simp [span_text]

theorem span_text_rest (pre rest : List Char) :
    span_text (pre ++ rest) pre.length (pre ++ rest).length = rest := by
  simp [span_text]

theorem Lexed.coverage {eof : Char} {pre rest : List Char} {toks : List token}
    (h : Lexed eof pre rest toks) :
    ∀ src, src = pre ++ rest →
      toks.Pairwise (fun a b => a.start < b.start ∧ a.stop ≤ b.start) ∧
      (∀ t ∈ toks, pre.length ≤ t.start ∧ t.start ≤ t.stop ∧ t.stop ≤ src.length ∧
        t.text = span_text src t.start t.stop) ∧
      (eof ∉ rest → ∀ g ∈ gaps src pre.length toks, ∀ c ∈ g, isspace c = true) ∧
      glue src pre.length toks = rest := by
  induction h with
  | done pre rest hd =>
    intro src hsrc
    subst hsrc
    refine ⟨List.Pairwise.nil, by simp, ?_, ?_⟩
    · intro hmem g hg c hc
      have hr : rest = [] := by
        cases rest with
        | nil => rfl
        | cons x xs =>
          simp only [List.headD_cons] at hd
          exact absurd (by simp [hd]) hmem
      subst hr
      simp [gaps, span_text] at hg
      subst hg
      simp at hc
    · simp only [glue]; exact span_text_rest pre rest
  | step pre w lx rest2 ty toks h1 h2 h3 h4 hrec ih =>
    intro src hsrc
    have hsrc2 : src = (pre ++ w ++ lx) ++ rest2 := by rw [hsrc]; simp
    have hsrc3 : src = (pre ++ w) ++ (lx ++ rest2) := by rw [hsrc]; simp
    obtain ⟨i1, i2, i3, i4⟩ := ih src hsrc2
    have hgap : span_text src pre.length (pre ++ w).length = w := by
      rw [hsrc]; exact span_text_mid pre w (lx ++ rest2)
    have htxt : span_text src (pre ++ w).length (pre ++ w ++ lx).length = lx := by
      rw [hsrc3]; exact span_text_mid (pre ++ w) lx rest2
    refine ⟨?_, ?_, ?_, ?_⟩
    · refine List.Pairwise.cons ?_ i1
      intro b hb
      obtain ⟨b1, _, _, _⟩ := i2 b hb
      have hty : ty ≠ token_type.eof := by
        intro hty
        have := hrec.nil_of_head (h3 hty).2
        subst this
        simp at hb
      have hpos := List.length_pos.mpr (h4 hty)
      simp only [List.length_append] at b1 hpos ⊢
      omega
    · intro t ht
      rcases List.mem_cons.mp ht with ht | ht
      · subst ht
        refine ⟨by simp, by simp, ?_, htxt.symm⟩
        rw [hsrc2]; simp
      · obtain ⟨b1, b2, b3, b4⟩ := i2 t ht
        refine ⟨?_, b2, b3, b4⟩
        simp only [List.length_append] at b1 ⊢
        omega
    · intro hmem g hg c hc
      have hmem2 : eof ∉ rest2 := fun hh => hmem (by simp [hh])
      simp only [gaps, List.mem_cons] at hg
      rcases hg with hg | hg
      · rw [hg, hgap] at hc
        exact h2 c hc
      · exact i3 hmem2 g hg c hc
    · simp only [glue]
      rw [hgap, i4]
      simp

theorem read_escaped_reads (eof : Char) (heof : eof = Char.ofNat 0) (pre rest : List Char)
    (ts : Nat) (buf : List Char) (fuel : Nat) (hf : rest.length < fuel) :
    Reads (read_escaped eof fuel (cursor pre rest ts buf)) 0 pre rest ts buf := by
  unfold read_escaped
  simp only [current_cursor]
  split
  · rename_i hesc
    have : ∃ c2 r1, rest = c2 :: r1 := by
      cases rest with
      | nil =>
        subst heof
        exact absurd hesc (by decide)
      | cons c2 r1 => exact ⟨c2, r1, rfl⟩
    obtain ⟨c2, r1, rfl⟩ := this
    rw [consume_cursor]
    exact Reads.shift_eq [c2]
      (read_string_reads eof heof ts fuel _ r1 _ (by simp at hf; omega)) rfl rfl rfl
  · exact read_string_reads eof heof ts fuel pre rest buf hf

theorem Reads.reader_keeps {r : Option (token × lexer)} {k : Nat} {pre rest : List Char} {ts : Nat}
    {buf : List Char} (h : Reads r k pre rest ts buf) (hts : ts ≤ pre.length) :
    keeps_cursor_invariant (cursor pre rest ts buf) r := by
  obtain ⟨lx, rest2, ty, h1, _, _, h4⟩ := h
  subst h1 h4
  simp only [keeps_cursor_invariant]
  refine ⟨?_, ?_, ?_, ?_, ?_, ?_⟩ <;>
    simp only [cursor, List.length_append, List.append_assoc] <;> omega

theorem Scans.scan_keeps {eof : Char} {r : Option (token × lexer)} {pre rest buf : List Char}
    (ts : Nat) (h : Scans eof r pre rest buf) :
    keeps_cursor_invariant (cursor pre rest ts buf) r := by
  obtain ⟨w, lx, rest2, ty, h1, _, h3, _, _, _⟩ := h
  subst h1 h3
  simp only [keeps_cursor_invariant]
  refine ⟨?_, ?_, ?_, ?_, ?_, ?_⟩ <;>
    simp only [cursor, List.length_append, List.append_assoc] <;> omega

/-- A state over `src` whose index is within the buffer, as a `cursor`. -/
theorem exists_cursor (s : lexer) (src : List Char) (hs : s.contents = src)
    (hidx : s.index ≤ src.length) (fuel : Nat) (hf : src.length < fuel) :
    ∃ pre rest, s = cursor pre rest s.token_start s.buffer ∧ pre.length = s.index ∧
      rest.length < fuel := by
  subst hs
  refine ⟨s.contents.take s.index, s.contents.drop s.index, eq_cursor s hidx, ?_, ?_⟩
  · simp [hidx]
  · rw [List.length_drop]; omega

/-! ### Dispatch and the readers on inputs of a given shape -/

theorem isdigit_not_alpha {c : Char} (h : isdigit c = true) :
    (isalpha c || decide (c = chardefs.underscore)) = false := by
  have hu : c ≠ chardefs.underscore := by
    intro hc; subst hc; exact absurd h (by decide)
  simp only [isdigit, Bool.and_eq_true, decide_eq_true_eq] at h
  simp only [isalpha, Bool.or_eq_false_iff, Bool.and_eq_false_iff, decide_eq_false_iff_not,
    Bool.or_eq_false_iff]
  refine ⟨⟨?_, ?_⟩, hu⟩ <;> omega

theorem next_token_eq_read_integer (eof : Char) (heof : eof = Char.ofNat 0) (fuel : Nat)
    (pre : List Char) (c : Char) (r : List Char) (ts : Nat) (buf : List Char)
    (hc : isdigit c = true) :
    next_token eof (fuel + 1) (cursor pre (c :: r) ts buf)
      = read_integer eof (fuel + 1) (cursor pre (c :: r) pre.length buf) := by
  have hts : ({ cursor pre (c :: r) ts buf with
      token_start := (cursor pre (c :: r) ts buf).index } : lexer)
        = cursor pre (c :: r) pre.length buf := rfl
  have h1 : c ≠ eof := by
    intro h; subst heof; subst h; exact absurd hc (by decide)
  have h2 : c ≠ chardefs.quote := by
    intro h; subst h; exact absurd hc (by decide)
  have h3 : ¬ ((isalpha c || decide (c = chardefs.underscore)) = true) := by
    rw [isdigit_not_alpha hc]; simp
  simp only [next_token, hts, current_cursor, List.headD_cons]
  rw [if_neg h1, if_neg h2, if_neg h3, if_pos hc]

theorem next_token_eq_read_identifier (eof : Char) (heof : eof = Char.ofNat 0) (fuel : Nat)
    (pre : List Char) (c : Char) (r : List Char) (ts : Nat) (buf : List Char)
    (hc : (isalpha c || decide (c = chardefs.underscore)) = true) :
    next_token eof (fuel + 1) (cursor pre (c :: r) ts buf)
      = read_identifier eof (fuel + 1) (cursor pre (c :: r) pre.length buf) := by
  have hts : ({ cursor pre (c :: r) ts buf with
      token_start := (cursor pre (c :: r) ts buf).index } : lexer)
        = cursor pre (c :: r) pre.length buf := rfl
  have h1 : c ≠ eof := by
    intro h; subst heof; subst h; exact absurd hc (by decide)
  have h2 : c ≠ chardefs.quote := by
    intro h; subst h; exact absurd hc (by decide)
  simp only [next_token, hts, current_cursor, List.headD_cons]
  rw [if_neg h1, if_neg h2, if_pos hc]

theorem next_token_eq_read_string (eof : Char) (heof : eof = Char.ofNat 0) (fuel : Nat)
    (pre : List Char) (r : List Char) (ts : Nat) (buf : List Char) :
    next_token eof (fuel + 1) (cursor pre (chardefs.quote :: r) ts buf)
      = read_string eof (fuel + 1)
          (cursor (pre ++ [chardefs.quote]) r pre.length (buf ++ [chardefs.quote])) := by
  have hts : ({ cursor pre (chardefs.quote :: r) ts buf with
      token_start := (cursor pre (chardefs.quote :: r) ts buf).index } : lexer)
        = cursor pre (chardefs.quote :: r) pre.length buf := rfl
  have h1 : chardefs.quote ≠ eof := by subst heof; decide
  simp only [next_token, hts, current_cursor, List.headD_cons]
  rw [if_neg h1, if_pos True.intro, consume_cursor]

/-- When one call of `next_token` on a fresh scanner reads the whole non-empty
input, `lex_contents` returns that single token. -/
theorem lex_contents_single (eof : Char) (fuel : Nat) (src pre : List Char) (tok : token)
    (ts : Nat) (buf : List Char) (hne : src.headD eof ≠ eof)
    (h : next_token eof (fuel + 2) (init src) = some (tok, cursor pre [] ts buf)) :
    lex_contents eof (fuel + 2) src = some [tok] := by
  unfold lex_contents
  have hcur : (init src).current eof ≠ eof := by
    rw [init_eq_cursor, current_cursor]; exact hne
  simp only [lex_loop]
  rw [if_pos hcur, h]
  simp [current_cursor]

theorem read_unknown_eq (eof : Char) (pre rest : List Char) (ts : Nat) (buf : List Char)
    (fuel : Nat) (hf : rest.length < fuel) :
    read_unknown eof fuel (cursor pre rest ts buf)
      = some (⟨token_type.invalid, ts, (pre ++ rest.takeWhile (unknown_cond eof)).length,
            buf ++ rest.takeWhile (unknown_cond eof)⟩,
          cursor (pre ++ rest.takeWhile (unknown_cond eof))
            (rest.dropWhile (unknown_cond eof)) ts []) := by
  unfold read_unknown
  rw [while_consume_max eof _ (unknown_cond_eof eof) pre rest ts buf fuel 0 hf]
  rfl

theorem read_integer_period (eof : Char) (pre a r : List Char) (ts : Nat) (buf : List Char)
    (fuel : Nat) (ha : ∀ c ∈ a, isdigit c = true) (hf : a.length < fuel) :
    read_integer eof fuel (cursor pre (a ++ chardefs.period :: r) ts buf)
      = read_double eof fuel
          (cursor (pre ++ a ++ [chardefs.period]) r ts (buf ++ a ++ [chardefs.period])) := by
  unfold read_integer
  rw [while_consume_run eof isdigit a (chardefs.period :: r) pre ts buf fuel 0 ha rfl hf]
  simp only [current_cursor, List.headD_cons]
  rw [if_pos True.intro, consume_cursor]

theorem read_integer_e (eof : Char) (pre a r : List Char) (ts : Nat) (buf : List Char)
    (fuel : Nat) (ha : ∀ c ∈ a, isdigit c = true) (hf : a.length < fuel) :
    read_integer eof fuel (cursor pre (a ++ 'e' :: r) ts buf)
      = read_exponent eof fuel (cursor (pre ++ a ++ ['e']) r ts (buf ++ a ++ ['e'])) := by
  unfold read_integer
  rw [while_consume_run eof isdigit a ('e' :: r) pre ts buf fuel 0 ha rfl hf]
  simp only [current_cursor, List.headD_cons]
  rw [if_neg (by decide), if_pos True.intro, consume_cursor]

theorem read_integer_end (eof : Char) (pre a r : List Char) (ts : Nat) (buf : List Char)
    (fuel : Nat) (ha : ∀ c ∈ a, isdigit c = true) (hf : a.length < fuel)
    (h1 : isdigit (r.headD eof) = false) (h2 : r.headD eof ≠ chardefs.period)
    (h3 : r.headD eof ≠ 'e') :
    read_integer eof fuel (cursor pre (a ++ r) ts buf)
      = some (⟨token_type.integer, ts, (pre ++ a).length, buf ++ a⟩,
          cursor (pre ++ a) r ts []) := by
  unfold read_integer
  rw [while_consume_run eof isdigit a _ pre ts buf fuel 0 ha h1 hf]
  simp only [current_cursor]
  rw [if_neg h2, if_neg h3]
  rfl

theorem read_double_empty (eof : Char) (pre r : List Char) (ts : Nat) (buf : List Char)
    (fuel : Nat) (hf : 0 < fuel) (h1 : isdigit (r.headD eof) = false) :
    read_double eof fuel (cursor pre r ts buf) = read_unknown eof fuel (cursor pre r ts buf) := by
  have h := while_consume_run eof isdigit [] r pre ts buf fuel 0 (by simp) h1 hf
  simp only [List.nil_append, List.append_nil, List.length_nil, Nat.add_zero] at h
  unfold read_double
  rw [h]
  simp

theorem read_double_period (eof : Char) (pre b r : List Char) (ts : Nat) (buf : List Char)
    (fuel : Nat) (hb : ∀ c ∈ b, isdigit c = true) (hne : b ≠ []) (hf : b.length < fuel) :
    read_double eof fuel (cursor pre (b ++ chardefs.period :: r) ts buf)
      = read_unknown eof fuel (cursor (pre ++ b) (chardefs.period :: r) ts (buf ++ b)) := by
  have hlen : ¬ (0 + b.length = 0) := by
    have := List.length_pos.mpr hne; omega
  unfold read_double
  rw [while_consume_run eof isdigit b (chardefs.period :: r) pre ts buf fuel 0 hb rfl hf]
  simp only [current_cursor, List.headD_cons]
  rw [if_neg hlen, if_pos True.intro]

theorem read_double_e (eof : Char) (pre b r : List Char) (ts : Nat) (buf : List Char)
    (fuel : Nat) (hb : ∀ c ∈ b, isdigit c = true) (hne : b ≠ []) (hf : b.length < fuel) :
    read_double eof fuel (cursor pre (b ++ 'e' :: r) ts buf)
      = read_exponent eof fuel (cursor (pre ++ b ++ ['e']) r ts (buf ++ b ++ ['e'])) := by
  have hlen : ¬ (0 + b.length = 0) := by
    have := List.length_pos.mpr hne; omega
  unfold read_double
  rw [while_consume_run eof isdigit b ('e' :: r) pre ts buf fuel 0 hb rfl hf]
  simp only [current_cursor, List.headD_cons]
  rw [if_neg hlen, if_neg (by decide), if_pos True.intro, consume_cursor]

theorem read_double_f (eof : Char) (pre b r : List Char) (ts : Nat) (buf : List Char)
    (fuel : Nat) (hb : ∀ c ∈ b, isdigit c = true) (hne : b ≠ []) (hf : b.length < fuel) :
    read_double eof fuel (cursor pre (b ++ 'f' :: r) ts buf)
      = some (⟨token_type.single_precision, ts, (pre ++ b ++ ['f']).length, buf ++ b ++ ['f']⟩,
          cursor (pre ++ b ++ ['f']) r ts []) := by
  have hlen : ¬ (0 + b.length = 0) := by
    have := List.length_pos.mpr hne; omega
  unfold read_double
  rw [while_consume_run eof isdigit b ('f' :: r) pre ts buf fuel 0 hb rfl hf]
  simp only [current_cursor, List.headD_cons]
  rw [if_neg hlen, if_neg (by decide), if_neg (by decide), if_pos True.intro, consume_cursor]
  rfl

theorem read_double_end (eof : Char) (pre b r : List Char) (ts : Nat) (buf : List Char)
    (fuel : Nat) (hb : ∀ c ∈ b, isdigit c = true) (hne : b ≠ []) (hf : b.length < fuel)
    (h1 : isdigit (r.headD eof) = false) (h2 : r.headD eof ≠ chardefs.period)
    (h3 : r.headD eof ≠ 'e') (h4 : r.headD eof ≠ 'f') :
    read_double eof fuel (cursor pre (b ++ r) ts buf)
      = some (⟨token_type.double_precision, ts, (pre ++ b).length, buf ++ b⟩,
          cursor (pre ++ b) r ts []) := by
  have hlen : ¬ (0 + b.length = 0) := by
    have := List.length_pos.mpr hne; omega
  unfold read_double
  rw [while_consume_run eof isdigit b r pre ts buf fuel 0 hb h1 hf]
  simp only [current_cursor]
  rw [if_neg hlen, if_neg h2, if_neg h3, if_neg h4]
  rfl

/-- The optional sign of `read_exponent`: a sign `sgn` is consumed when there is
one; with no sign, the next character must not be `+` or `-`. -/
theorem read_exponent_sign (eof : Char) (pre sgn rest : List Char) (ts : Nat)
    (buf : List Char) (fuel : Nat) (hs : is_sign_opt sgn)
    (hno : sgn = [] → rest.headD eof ≠ chardefs.plus ∧ rest.headD eof ≠ chardefs.dash) :
    read_exponent eof fuel (cursor pre (sgn ++ rest) ts buf)
      = exponent_digits eof fuel (cursor (pre ++ sgn) rest ts (buf ++ sgn)) := by
  unfold read_exponent exponent_digits
  rcases hs with hs | hs | hs
  · obtain ⟨n1, n2⟩ := hno hs
    subst hs
    simp only [List.nil_append, List.append_nil, current_cursor]
    rw [if_neg (by
      simp only [Bool.or_eq_true, decide_eq_true_eq, not_or]
      exact ⟨n1, n2⟩)]
  · subst hs
    simp only [List.singleton_append, current_cursor, List.headD_cons]
    rw [if_pos (by decide), consume_cursor]
  · subst hs
    simp only [List.singleton_append, current_cursor, List.headD_cons]
    rw [if_pos (by decide), consume_cursor]

theorem exponent_digits_empty (eof : Char) (pre r : List Char) (ts : Nat) (buf : List Char)
    (fuel : Nat) (hf : 0 < fuel) (h1 : isdigit (r.headD eof) = false) :
    exponent_digits eof fuel (cursor pre r ts buf)
      = read_unknown eof fuel (cursor pre r ts buf) := by
  have h := while_consume_run eof isdigit [] r pre ts buf fuel 0 (by simp) h1 hf
  simp only [List.nil_append, List.append_nil, List.length_nil, Nat.add_zero] at h
  unfold exponent_digits
  rw [h]
  simp

theorem exponent_digits_f (eof : Char) (pre x r : List Char) (ts : Nat) (buf : List Char)
    (fuel : Nat) (hx : ∀ c ∈ x, isdigit c = true) (hne : x ≠ []) (hf : x.length < fuel) :
    exponent_digits eof fuel (cursor pre (x ++ 'f' :: r) ts buf)
      = some (⟨token_type.single_precision, ts, (pre ++ x ++ ['f']).length, buf ++ x ++ ['f']⟩,
          cursor (pre ++ x ++ ['f']) r ts []) := by
  have hlen : ¬ (0 + x.length = 0) := by
    have := List.length_pos.mpr hne; omega
  unfold exponent_digits
  rw [while_consume_run eof isdigit x ('f' :: r) pre ts buf fuel 0 hx rfl hf]
  simp only [current_cursor, List.headD_cons]
  rw [if_neg hlen, if_pos True.intro, consume_cursor]
  rfl

theorem exponent_digits_end (eof : Char) (pre x r : List Char) (ts : Nat) (buf : List Char)
    (fuel : Nat) (hx : ∀ c ∈ x, isdigit c = true) (hne : x ≠ []) (hf : x.length < fuel)
    (h1 : isdigit (r.headD eof) = false) (h2 : r.headD eof ≠ 'f') :
    exponent_digits eof fuel (cursor pre (x ++ r) ts buf)
      = some (⟨token_type.double_precision, ts, (pre ++ x).length, buf ++ x⟩,
          cursor (pre ++ x) r ts []) := by
  have hlen : ¬ (0 + x.length = 0) := by
    have := List.length_pos.mpr hne; omega
  unfold exponent_digits
  rw [while_consume_run eof isdigit x r pre ts buf fuel 0 hx h1 hf]
  simp only [current_cursor]
  rw [if_neg hlen, if_neg h2]
  rfl

theorem isdigit_ne_eof {eof c : Char} (heof : eof = Char.ofNat 0) (hc : isdigit c = true) :
    c ≠ eof := by
  intro h; subst heof; subst h; exact absurd hc (by decide)

/-- One `next_token` call on a fresh scanner that reads the whole input. -/
theorem lex_contents_of_whole (eof : Char) (n : Nat) (src pre : List Char) (tok : token)
    (ts : Nat) (buf : List Char) (hn : src.length < n) (hne : src.headD eof ≠ eof)
    (h : next_token eof n (cursor [] src 0 []) = some (tok, cursor pre [] ts buf)) :
    lex_contents eof n src = some [tok] := by
  have hsrc : src ≠ [] := by
    intro h0; subst h0; exact hne rfl
  have hpos := List.length_pos.mpr hsrc
  obtain ⟨m, rfl⟩ : ∃ m, n = m + 2 := ⟨n - 2, by omega⟩
  exact lex_contents_single eof m src pre tok ts buf hne h

/-- The integer reader on a digit run followed by the end of the input or by a
character other than a digit, a period and `e`. -/
theorem next_token_integer (eof : Char) (heof : eof = Char.ofNat 0) (pre d r : List Char)
    (ts : Nat) (fuel : Nat) (hne : d ≠ []) (hd : ∀ c ∈ d, isdigit c = true)
    (hr : r = [] ∨ ∃ c r0, r = c :: r0 ∧ isdigit c = false ∧ c ≠ '.' ∧ c ≠ 'e')
    (hf : (d ++ r).length < fuel) :
    next_token eof fuel (cursor pre (d ++ r) ts [])
      = some (⟨token_type.integer, pre.length, pre.length + d.length, d⟩,
          cursor (pre ++ d) r pre.length []) := by
  obtain ⟨n, rfl⟩ : ∃ n, fuel = n + 1 := ⟨fuel - 1, by omega⟩
  have hfa : d.length < n + 1 := by simp only [List.length_append] at hf; omega
  have hhead : isdigit (r.headD eof) = false ∧ r.headD eof ≠ chardefs.period ∧
      r.headD eof ≠ 'e' := by
    rcases hr with hr | ⟨c, r0, hr, h1, h2, h3⟩
    · subst hr; subst heof; decide
    · subst hr; exact ⟨h1, h2, h3⟩
  obtain ⟨c, d0, rfl⟩ : ∃ c d0, d = c :: d0 := by
    cases d with
    | nil => exact absurd rfl hne
    | cons c d0 => exact ⟨c, d0, rfl⟩
  have hc : isdigit c = true := hd c (by simp)
  rw [List.cons_append, next_token_eq_read_integer eof heof n pre c (d0 ++ r) ts [] hc,
    ← List.cons_append,
    read_integer_end eof pre (c :: d0) r pre.length [] (n + 1) hd hfa hhead.1 hhead.2.1
      hhead.2.2]
  simp

theorem next_token_digits (eof : Char) (heof : eof = Char.ofNat 0) (n : Nat)
    (pre a r : List Char) (ts : Nat) (buf : List Char) (hne : a ≠ [])
    (ha : ∀ c ∈ a, isdigit c = true) :
    next_token eof (n + 1) (cursor pre (a ++ r) ts buf)
      = read_integer eof (n + 1) (cursor pre (a ++ r) pre.length buf) := by
  obtain ⟨c, a0, rfl⟩ : ∃ c a0, a = c :: a0 := by
    cases a with
    | nil => exact absurd rfl hne
    | cons c a0 => exact ⟨c, a0, rfl⟩
  exact next_token_eq_read_integer eof heof n pre c (a0 ++ r) ts buf (ha c (by simp))

/-- From the integer state to the exponent state, through an optional mantissa. -/
theorem read_integer_exponent (eof : Char) (pre a m rest : List Char) (ts : Nat)
    (buf : List Char) (fuel : Nat) (ha : ∀ c ∈ a, isdigit c = true) (hm : is_mantissa_opt m)
    (hf : (a ++ m).length < fuel) :
    read_integer eof fuel (cursor pre (a ++ (m ++ 'e' :: rest)) ts buf)
      = read_exponent eof fuel
          (cursor (pre ++ (a ++ (m ++ ['e']))) rest ts (buf ++ (a ++ (m ++ ['e'])))) := by
  have hfa : a.length < fuel := by simp only [List.length_append] at hf; omega
  have hm2 : m = [] ∨ ∃ b, b ≠ [] ∧ (∀ c ∈ b, isdigit c = true) ∧ m = '.' :: b := by
    rcases hm with hm | ⟨h1, h2, h3⟩
    · exact Or.inl hm
    · cases m with
      | nil => exact Or.inl rfl
      | cons c b =>
        simp only [List.head?_cons, Option.some.injEq] at h1
        subst h1
        exact Or.inr ⟨b, h2, h3, rfl⟩
  rcases hm2 with hm | ⟨b, hb1, hb2, hm⟩
  · subst hm
    rw [List.nil_append, read_integer_e eof pre a rest ts buf fuel ha hfa]
    simp
  · subst hm
    have hfb : b.length < fuel := by
      simp only [List.length_append, List.length_cons] at hf; omega
    have e1 : a ++ (('.' :: b) ++ 'e' :: rest) = a ++ chardefs.period :: (b ++ 'e' :: rest) := by
      simp [chardefs.period]
    rw [e1, read_integer_period eof pre a _ ts buf fuel ha hfa,
      read_double_e eof _ b rest ts _ fuel hb2 hb1 hfb]
    simp [chardefs.period]

/-- A literal with a non-empty exponent: double precision, or single precision
when followed by `f`. -/
theorem read_exponent_digits_end (eof : Char) (heof : eof = Char.ofNat 0)
    (pre sgn x : List Char) (ts : Nat) (buf : List Char) (fuel : Nat) (hs : is_sign_opt sgn)
    (hx : ∀ c ∈ x, isdigit c = true) (hne : x ≠ []) (hf : x.length < fuel) :
    read_exponent eof fuel (cursor pre (sgn ++ x) ts buf)
      = some (⟨token_type.double_precision, ts, (pre ++ (sgn ++ x)).length,
            buf ++ (sgn ++ x)⟩, cursor (pre ++ (sgn ++ x)) [] ts []) := by
  have hno : sgn = [] → x.headD eof ≠ chardefs.plus ∧ x.headD eof ≠ chardefs.dash := by
    intro _
    obtain ⟨c, x0, rfl⟩ : ∃ c x0, x = c :: x0 := by
      cases x with
      | nil => exact absurd rfl hne
      | cons c x0 => exact ⟨c, x0, rfl⟩
    have hc : isdigit c = true := hx c (by simp)
    simp only [List.headD_cons]
    constructor <;> (intro h; subst h; exact absurd hc (by decide))
  have h := exponent_digits_end eof (pre ++ sgn) x [] ts (buf ++ sgn) fuel hx hne hf
    (by subst heof; decide) (by subst heof; decide)
  rw [read_exponent_sign eof pre sgn x ts buf fuel hs hno]
  simp only [List.append_nil] at h
  rw [h]
  simp

theorem read_exponent_digits_f (eof : Char) (pre sgn x : List Char) (ts : Nat)
    (buf : List Char) (fuel : Nat) (hs : is_sign_opt sgn)
    (hx : ∀ c ∈ x, isdigit c = true) (hne : x ≠ []) (hf : x.length < fuel) :
    read_exponent eof fuel (cursor pre (sgn ++ (x ++ ['f'])) ts buf)
      = some (⟨token_type.single_precision, ts, (pre ++ (sgn ++ (x ++ ['f']))).length,
            buf ++ (sgn ++ (x ++ ['f']))⟩, cursor (pre ++ (sgn ++ (x ++ ['f']))) [] ts []) := by
  have hno : sgn = [] → (x ++ ['f']).headD eof ≠ chardefs.plus ∧
      (x ++ ['f']).headD eof ≠ chardefs.dash := by
    intro _
    obtain ⟨c, x0, rfl⟩ : ∃ c x0, x = c :: x0 := by
      cases x with
      | nil => exact absurd rfl hne
      | cons c x0 => exact ⟨c, x0, rfl⟩
    have hc : isdigit c = true := hx c (by simp)
    simp only [List.cons_append, List.headD_cons]
    constructor <;> (intro h; subst h; exact absurd hc (by decide))
  rw [read_exponent_sign eof pre sgn (x ++ ['f']) ts buf fuel hs hno,
    exponent_digits_f eof (pre ++ sgn) x [] ts (buf ++ sgn) fuel hx hne hf]
  simp

theorem next_token_decimal (eof : Char) (heof : eof = Char.ofNat 0) (pre a b : List Char)
    (ts : Nat) (n : Nat) (hane : a ≠ []) (ha : ∀ c ∈ a, isdigit c = true) (hbne : b ≠ [])
    (hb : ∀ c ∈ b, isdigit c = true) (hf : (a ++ b).length < n) :
    next_token eof n (cursor pre (a ++ '.' :: b) ts [])
      = some (⟨token_type.double_precision, pre.length, (pre ++ (a ++ '.' :: b)).length,
            a ++ '.' :: b⟩, cursor (pre ++ (a ++ '.' :: b)) [] pre.length []) := by
  obtain ⟨m, rfl⟩ : ∃ m, n = m + 1 := ⟨n - 1, by omega⟩
  have hfa : a.length < m + 1 := by simp only [List.length_append] at hf; omega
  have hfb : b.length < m + 1 := by simp only [List.length_append] at hf; omega
  have h := read_double_end eof (pre ++ a ++ [chardefs.period]) b [] pre.length
    ([] ++ a ++ [chardefs.period]) (m + 1) hb hbne hfb (by subst heof; decide)
    (by subst heof; decide) (by subst heof; decide) (by subst heof; decide)
  simp only [List.append_nil] at h
  rw [next_token_digits eof heof m pre a _ ts [] hane ha]
  have e1 : a ++ '.' :: b = a ++ chardefs.period :: b := rfl
  rw [e1, read_integer_period eof pre a b pre.length [] (m + 1) ha hfa, h]
  simp

theorem next_token_decimal_f (eof : Char) (heof : eof = Char.ofNat 0) (pre a b r : List Char)
    (ts : Nat) (n : Nat) (hane : a ≠ []) (ha : ∀ c ∈ a, isdigit c = true) (hbne : b ≠ [])
    (hb : ∀ c ∈ b, isdigit c = true) (hf : (a ++ b).length < n) :
    next_token eof n (cursor pre (a ++ '.' :: (b ++ 'f' :: r)) ts [])
      = some (⟨token_type.single_precision, pre.length,
            (pre ++ (a ++ '.' :: (b ++ ['f']))).length, a ++ '.' :: (b ++ ['f'])⟩,
          cursor (pre ++ (a ++ '.' :: (b ++ ['f']))) r pre.length []) := by
  obtain ⟨m, rfl⟩ : ∃ m, n = m + 1 := ⟨n - 1, by omega⟩
  have hfa : a.length < m + 1 := by simp only [List.length_append] at hf; omega
  have hfb : b.length < m + 1 := by simp only [List.length_append] at hf; omega
  rw [next_token_digits eof heof m pre a _ ts [] hane ha]
  have e1 : a ++ '.' :: (b ++ 'f' :: r) = a ++ chardefs.period :: (b ++ 'f' :: r) := rfl
  rw [e1, read_integer_period eof pre a _ pre.length [] (m + 1) ha hfa,
    read_double_f eof _ b r pre.length _ (m + 1) hb hbne hfb]
  simp [chardefs.period]

theorem digits_head_ne_eof {eof : Char} (heof : eof = Char.ofNat 0) {a : List Char}
    (r : List Char) (hane : a ≠ []) (ha : ∀ c ∈ a, isdigit c = true) :
    (a ++ r).headD eof ≠ eof := by
  obtain ⟨c, a0, rfl⟩ : ∃ c a0, a = c :: a0 := by
    cases a with
    | nil => exact absurd rfl hane
    | cons c a0 => exact ⟨c, a0, rfl⟩
  simp only [List.cons_append, List.headD_cons]
  exact isdigit_ne_eof heof (ha c (by simp))

theorem next_token_exponent (eof : Char) (heof : eof = Char.ofNat 0)
    (pre a m sgn x : List Char) (ts : Nat) (n : Nat) (hane : a ≠ [])
    (ha : ∀ c ∈ a, isdigit c = true) (hm : is_mantissa_opt m) (hs : is_sign_opt sgn)
    (hxne : x ≠ []) (hx : ∀ c ∈ x, isdigit c = true)
    (hf : (a ++ (m ++ 'e' :: (sgn ++ x))).length < n) :
    next_token eof n (cursor pre (a ++ (m ++ 'e' :: (sgn ++ x))) ts [])
      = some (⟨token_type.double_precision, pre.length,
            (pre ++ (a ++ (m ++ 'e' :: (sgn ++ x)))).length, a ++ (m ++ 'e' :: (sgn ++ x))⟩,
          cursor (pre ++ (a ++ (m ++ 'e' :: (sgn ++ x)))) [] pre.length []) := by
  obtain ⟨k, rfl⟩ : ∃ k, n = k + 1 := ⟨n - 1, by omega⟩
  simp only [List.length_append, List.length_cons] at hf
  rw [next_token_digits eof heof k pre a _ ts [] hane ha,
    read_integer_exponent eof pre a m (sgn ++ x) pre.length [] (k + 1) ha hm
      (by simp only [List.length_append]; omega),
    read_exponent_digits_end eof heof _ sgn x pre.length _ (k + 1) hs hx hxne (by omega)]
  simp

theorem next_token_exponent_f (eof : Char) (heof : eof = Char.ofNat 0)
    (pre a m sgn x : List Char) (ts : Nat) (n : Nat) (hane : a ≠ [])
    (ha : ∀ c ∈ a, isdigit c = true) (hm : is_mantissa_opt m) (hs : is_sign_opt sgn)
    (hxne : x ≠ []) (hx : ∀ c ∈ x, isdigit c = true)
    (hf : (a ++ (m ++ 'e' :: (sgn ++ (x ++ ['f'])))).length < n) :
    next_token eof n (cursor pre (a ++ (m ++ 'e' :: (sgn ++ (x ++ ['f'])))) ts [])
      = some (⟨token_type.single_precision, pre.length,
            (pre ++ (a ++ (m ++ 'e' :: (sgn ++ (x ++ ['f']))))).length,
            a ++ (m ++ 'e' :: (sgn ++ (x ++ ['f'])))⟩,
          cursor (pre ++ (a ++ (m ++ 'e' :: (sgn ++ (x ++ ['f']))))) [] pre.length []) := by
  obtain ⟨k, rfl⟩ : ∃ k, n = k + 1 := ⟨n - 1, by omega⟩
  simp only [List.length_append, List.length_cons] at hf
  rw [next_token_digits eof heof k pre a _ ts [] hane ha,
    read_integer_exponent eof pre a m (sgn ++ (x ++ ['f'])) pre.length [] (k + 1) ha hm
      (by simp only [List.length_append]; omega),
    read_exponent_digits_f eof _ sgn x pre.length _ (k + 1) hs hx hxne (by omega)]
  simp

theorem headD_not_digit {eof : Char} (heof : eof = Char.ofNat 0) {r : List Char}
    (h : ∀ c, r.head? = some c → isdigit c = false) : isdigit (r.headD eof) = false := by
  cases r with
  | nil => subst heof; decide
  | cons c r0 => exact h c rfl

/-- The outcome of `read_unknown` is a token of kind invalid that keeps the token start. -/
theorem read_unknown_invalid (eof : Char) (pre rest : List Char) (ts : Nat) (buf : List Char)
    (fuel : Nat) (hf : rest.length < fuel) :
    ∃ tok s1, read_unknown eof fuel (cursor pre rest ts buf) = some (tok, s1) ∧
      tok.type = token_type.invalid ∧ tok.start = ts :=
  ⟨_, _, read_unknown_eq eof pre rest ts buf fuel hf, rfl, rfl⟩

theorem next_token_no_mantissa (eof : Char) (heof : eof = Char.ofNat 0) (pre a r : List Char)
    (ts : Nat) (n : Nat) (hane : a ≠ []) (ha : ∀ c ∈ a, isdigit c = true)
    (hr : ∀ c, r.head? = some c → isdigit c = false) (hf : (a ++ '.' :: r).length < n) :
    ∃ tok s1, next_token eof n (cursor pre (a ++ '.' :: r) ts []) = some (tok, s1) ∧
      tok.type = token_type.invalid ∧ tok.start = pre.length := by
  obtain ⟨k, rfl⟩ : ∃ k, n = k + 1 := ⟨n - 1, by omega⟩
  simp only [List.length_append, List.length_cons] at hf
  have e1 : a ++ '.' :: r = a ++ chardefs.period :: r := rfl
  rw [next_token_digits eof heof k pre a _ ts [] hane ha, e1,
    read_integer_period eof pre a r pre.length [] (k + 1) ha (by omega),
    read_double_empty eof _ r pre.length _ (k + 1) (by omega) (headD_not_digit heof hr)]
  exact read_unknown_invalid eof _ r pre.length _ (k + 1) (by omega)

theorem next_token_second_period (eof : Char) (heof : eof = Char.ofNat 0)
    (pre a b r : List Char) (ts : Nat) (n : Nat) (hane : a ≠ [])
    (ha : ∀ c ∈ a, isdigit c = true) (hbne : b ≠ []) (hb : ∀ c ∈ b, isdigit c = true)
    (hf : (a ++ '.' :: (b ++ '.' :: r)).length < n) :
    ∃ tok s1, next_token eof n (cursor pre (a ++ '.' :: (b ++ '.' :: r)) ts [])
        = some (tok, s1) ∧
      tok.type = token_type.invalid ∧ tok.start = pre.length := by
  obtain ⟨k, rfl⟩ : ∃ k, n = k + 1 := ⟨n - 1, by omega⟩
  simp only [List.length_append, List.length_cons] at hf
  have e1 : a ++ '.' :: (b ++ '.' :: r) = a ++ chardefs.period :: (b ++ chardefs.period :: r) :=
    rfl
  rw [next_token_digits eof heof k pre a _ ts [] hane ha, e1,
    read_integer_period eof pre a _ pre.length [] (k + 1) ha (by omega),
    read_double_period eof _ b r pre.length _ (k + 1) hb hbne (by omega)]
  exact read_unknown_invalid eof _ _ pre.length _ (k + 1)
    (by simp only [List.length_cons]; omega)

theorem next_token_no_exponent (eof : Char) (heof : eof = Char.ofNat 0)
    (pre a m sgn r : List Char) (ts : Nat) (n : Nat) (hane : a ≠ [])
    (ha : ∀ c ∈ a, isdigit c = true) (hm : is_mantissa_opt m) (hs : is_sign_opt sgn)
    (hr : ∀ c, r.head? = some c → isdigit c = false ∧ (sgn = [] → c ≠ '+' ∧ c ≠ '-'))
    (hf : (a ++ (m ++ 'e' :: (sgn ++ r))).length < n) :
    ∃ tok s1, next_token eof n (cursor pre (a ++ (m ++ 'e' :: (sgn ++ r))) ts [])
        = some (tok, s1) ∧
      tok.type = token_type.invalid ∧ tok.start = pre.length := by
  obtain ⟨k, rfl⟩ : ∃ k, n = k + 1 := ⟨n - 1, by omega⟩
  simp only [List.length_append, List.length_cons] at hf
  have hno : sgn = [] → r.headD eof ≠ chardefs.plus ∧ r.headD eof ≠ chardefs.dash := by
    intro h0
    cases r with
    | nil => subst heof; decide
    | cons c r0 => exact (hr c rfl).2 h0
  rw [next_token_digits eof heof k pre a _ ts [] hane ha,
    read_integer_exponent eof pre a m (sgn ++ r) pre.length [] (k + 1) ha hm
      (by simp only [List.length_append]; omega),
    read_exponent_sign eof _ sgn r pre.length _ (k + 1) hs hno,
    exponent_digits_empty eof _ r pre.length _ (k + 1) (by omega)
      (headD_not_digit heof (fun c hc => (hr c hc).1))]
  exact read_unknown_invalid eof _ r pre.length _ (k + 1) (by omega)

theorem spec_keywords_eq :
    spec_keywords = [keyworddefs.char_kw, keyworddefs.int_kw, keyworddefs.double_kw,
      keyworddefs.float_kw, keyworddefs.struct_kw, keyworddefs.enum_kw, keyworddefs.void_kw,
      keyworddefs.short_kw, keyworddefs.long_kw, keyworddefs.const_kw, keyworddefs.static_kw,
      keyworddefs.if_kw, keyworddefs.else_kw, keyworddefs.for_kw, keyworddefs.while_kw,
      keyworddefs.break_kw, keyworddefs.continue_kw, keyworddefs.return_kw] := by
  decide

theorem is_keyword_iff (s : lexer) : s.is_keyword = true ↔ s.buffer ∈ spec_keywords := by
  rw [spec_keywords_eq]
  simp only [is_keyword, Bool.or_eq_true, beq_iff_eq, List.mem_cons, List.mem_singleton,
    List.not_mem_nil, or_false, or_assoc]

theorem next_token_identifier (eof : Char) (heof : eof = Char.ofNat 0) (pre w : List Char)
    (ts : Nat) (n : Nat) (hne : w ≠ [])
    (hall : ∀ c ∈ w, isalnum c = true ∨ c = '_')
    (hfirst : ∀ c, w.head? = some c → isalpha c = true ∨ c = '_')
    (hf : w.length < n) :
    next_token eof n (cursor pre w ts [])
      = some (⟨if w ∈ spec_keywords then token_type.keyword else token_type.identifier,
            pre.length, (pre ++ w).length, w⟩, cursor (pre ++ w) [] pre.length []) := by
  obtain ⟨k, rfl⟩ : ∃ k, n = k + 1 := ⟨n - 1, by omega⟩
  obtain ⟨c, w0, rfl⟩ : ∃ c w0, w = c :: w0 := by
    cases w with
    | nil => exact absurd rfl hne
    | cons c w0 => exact ⟨c, w0, rfl⟩
  have hc : (isalpha c || decide (c = chardefs.underscore)) = true := by
    rcases hfirst c rfl with h | h
    · simp [h]
    · simp [h, chardefs.underscore]
  have hrun : ∀ x ∈ c :: w0, (fun c => isalnum c || c == chardefs.underscore) x = true := by
    intro x hx
    rcases hall x hx with h | h
    · simp [h]
    · simp [h, chardefs.underscore]
  have hloop := while_consume_run eof (fun c => isalnum c || c == chardefs.underscore)
    (c :: w0) [] pre pre.length [] (k + 1) 0 hrun (by subst heof; decide) hf
  simp only [List.append_nil, List.nil_append] at hloop
  rw [next_token_eq_read_identifier eof heof k pre c w0 ts [] hc]
  unfold read_identifier
  rw [hloop]
  simp only
  by_cases hk : c :: w0 ∈ spec_keywords
  · have : (cursor (pre ++ c :: w0) [] pre.length (c :: w0)).is_keyword = true :=
      (is_keyword_iff _).mpr hk
    rw [if_pos this, if_pos hk]
    rfl
  · have : ¬ (cursor (pre ++ c :: w0) [] pre.length (c :: w0)).is_keyword = true :=
      fun h => hk ((is_keyword_iff _).mp h)
    rw [if_neg this, if_neg hk]
    rfl

theorem next_token_string (eof : Char) (heof : eof = Char.ofNat 0) (pre b r : List Char)
    (ts : Nat) (n : Nat)
    (hb : ∀ c ∈ b, c ≠ chardefs.quote ∧ c ≠ chardefs.back_slash ∧ c ≠ eof)
    (hf : (chardefs.quote :: (b ++ [chardefs.quote])).length < n) :
    next_token eof n (cursor pre (chardefs.quote :: (b ++ chardefs.quote :: r)) ts [])
      = some (⟨token_type.string, pre.length,
            (pre ++ chardefs.quote :: (b ++ [chardefs.quote])).length,
            chardefs.quote :: (b ++ [chardefs.quote])⟩,
          cursor (pre ++ chardefs.quote :: (b ++ [chardefs.quote])) r pre.length []) := by
  obtain ⟨k, rfl⟩ : ∃ k, n = k + 1 := ⟨n - 1, by omega⟩
  simp only [List.length_append, List.length_cons, List.length_nil] at hf
  have hrun : ∀ x ∈ b, string_cond eof x = true := by
    intro x hx
    obtain ⟨h1, h2, h3⟩ := hb x hx
    simp [string_cond, h1, h2, h3]
  have hloop := while_consume_run eof (string_cond eof) b (chardefs.quote :: r)
    (pre ++ [chardefs.quote]) pre.length ([] ++ [chardefs.quote]) (k + 1) 0 hrun
    (by simp [string_cond]) (by omega)
  rw [next_token_eq_read_string eof heof k pre _ ts []]
  simp only [read_string]
  rw [hloop]
  simp only [current_cursor, List.headD_cons]
  rw [if_pos True.intro, consume_cursor]
  simp [create_token, cursor]

/-! ### The value of the sentinel -/

/-- The backslash branch of `read_string` is `consume(); return read_escaped();`. -/
theorem read_string_succ (eof : Char) (fuel : Nat) (s : lexer) :
    read_string eof (fuel + 1) s
      = match while_current eof (string_cond eof) (consume eof) (fuel + 1) 0 s with
        | none => none
        | some (_, s1) =>
          if s1.current eof = chardefs.quote then
            some (create_token token_type.string (s1.consume eof))
          else if s1.current eof = chardefs.back_slash then
            read_escaped eof fuel (s1.consume eof)
          else if s1.current eof = eof then some (create_token token_type.invalid s1)
          else some (create_token token_type.string s1) := rfl

theorem toNat_ne_zero {eof : Char} (h : eof ≠ Char.ofNat 0) : eof.toNat ≠ 0 := by
  intro h0
  apply h
  apply Char.ext
  apply UInt32.ext
  exact h0

/-- When the sentinel is not the zero character, `read_unknown` consumes nothing
at a character `c` that no dispatch rule matches, and `next_token` returns an
empty invalid token without moving. -/
theorem next_token_stuck (eof c : Char) (h0 : eof ≠ Char.ofNat 0) (hc0 : c.toNat ≠ 0)
    (h1 : c ≠ eof) (h2 : c ≠ chardefs.quote)
    (h3 : (isalpha c || decide (c = chardefs.underscore)) = false) (h4 : isdigit c = false)
    (h5 : isspace c = false) (h6 : punctuation c = none) (fuel ts : Nat) :
    next_token eof (fuel + 1) (cursor [] [c] ts [])
      = some (⟨token_type.invalid, 0, 0, []⟩, cursor [] [c] 0 []) := by
  have hts : ({ cursor [] [c] ts [] with token_start := (cursor [] [c] ts []).index } : lexer)
      = cursor [] [c] 0 [] := rfl
  have hcond : unknown_cond eof c = false := by
    have := toNat_ne_zero h0
    simp only [unknown_cond, hc0, if_false]
    simp only [Bool.and_eq_false_iff, beq_eq_false_iff_ne]
    right
    omega
  simp only [next_token, hts, current_cursor, List.headD_cons]
  rw [if_neg h1, if_neg h2, if_neg (by simp [h3]), if_neg (by simp [h4]),
    if_neg (by simp [h5]), h6]
  simp only [read_unknown, while_current, current_cursor, List.headD_cons, hcond]
  rfl

theorem lex_loop_stuck (eof c : Char) (h0 : eof ≠ Char.ofNat 0) (hc0 : c.toNat ≠ 0)
    (h1 : c ≠ eof) (h2 : c ≠ chardefs.quote)
    (h3 : (isalpha c || decide (c = chardefs.underscore)) = false) (h4 : isdigit c = false)
    (h5 : isspace c = false) (h6 : punctuation c = none) (fuel : Nat) :
    ∀ (ts : Nat) (acc : List token), lex_loop eof fuel (cursor [] [c] ts []) acc = none := by
  induction fuel with
  | zero => intro ts acc; rfl
  | succ fuel ih =>
    intro ts acc
    simp only [lex_loop, current_cursor, List.headD_cons]
    rw [if_pos h1, next_token_stuck eof c h0 hc0 h1 h2 h3 h4 h5 h6 fuel ts]
    exact ih 0 _

/-- The scanner terminates on every input only if the sentinel is the zero
character: with any other sentinel, lexing the one-character input `@` (or `#`
when the sentinel is `@`) never returns, whatever the fuel. -/
theorem nonzero_sentinel_diverges (eof : Char) (h0 : eof ≠ Char.ofNat 0) :
    ∃ src : List Char, ∀ fuel, lex_contents eof fuel src = none := by
  by_cases hat : eof = '@'
  · refine ⟨['#'], fun fuel => ?_⟩
    have h1 : '#' ≠ eof := by rw [hat]; decide
    unfold lex_contents
    rw [init_eq_cursor, lex_loop_stuck eof '#' h0 (by decide) h1 (by decide) (by decide)
      (by decide) (by decide) (by decide) fuel 0 []]
  · refine ⟨['@'], fun fuel => ?_⟩
    have h1 : '@' ≠ eof := fun h => hat h.symm
    unfold lex_contents
    rw [init_eq_cursor, lex_loop_stuck eof '@' h0 (by decide) h1 (by decide) (by decide)
      (by decide) (by decide) (by decide) fuel 0 []]

/-! ### String literals: the code against `string_scan` -/

theorem string_scan_quote (l : List Char) : string_scan (chardefs.quote :: l) = some 1 := by
  cases l with
  | nil => simp [string_scan]
  | cons c2 rest => simp [string_scan]

theorem string_scan_plain (c : Char) (l : List Char) (h1 : c ≠ chardefs.quote)
    (h2 : c ≠ chardefs.back_slash) : string_scan (c :: l) = (string_scan l).map (· + 1) := by
  cases l with
  | nil => simp [string_scan, h1]
  | cons c2 rest => simp [string_scan, h1, h2]

theorem string_scan_escape (c2 : Char) (l : List Char) (h : is_escape c2 = true) :
    string_scan (chardefs.back_slash :: c2 :: l) = (string_scan l).map (· + 2) := by
  have hq : chardefs.back_slash ≠ chardefs.quote := by decide
  simp [string_scan, hq, h]

theorem string_scan_no_escape (c2 : Char) (l : List Char) (h : is_escape c2 = false) :
    string_scan (chardefs.back_slash :: c2 :: l) = (string_scan (c2 :: l)).map (· + 1) := by
  have hq : chardefs.back_slash ≠ chardefs.quote := by decide
  simp [string_scan, hq, h]

theorem string_scan_back_slash_end : string_scan [chardefs.back_slash] = none := by
  decide

theorem string_scan_run (d l : List Char)
    (hd : ∀ c ∈ d, c ≠ chardefs.quote ∧ c ≠ chardefs.back_slash) :
    string_scan (d ++ l) = (string_scan l).map (· + d.length) := by
  induction d with
  | nil => simp
  | cons c d ih =>
    have hc := hd c (by simp)
    rw [List.cons_append, string_scan_plain c _ hc.1 hc.2,
      ih (fun x hx => hd x (by simp [hx]))]
    cases string_scan l with
    | none => rfl
    | some k => simp [Nat.add_assoc]

theorem string_outcome_shift (p body pre : List Char) (ts : Nat) (buf : List Char)
    (h : string_scan (p ++ body) = (string_scan body).map (· + p.length)) :
    string_outcome pre (p ++ body) ts buf = string_outcome (pre ++ p) body ts (buf ++ p) := by
  unfold string_outcome
  rw [h]
  cases string_scan body with
  | none => simp
  | some k =>
    have h1 : (p ++ body).take (k + p.length) = p ++ body.take k := by
      rw [List.take_append_eq_append_take]
      simp
    have h2 : (p ++ body).drop (k + p.length) = body.drop k := by
      rw [List.drop_append_eq_append_drop]
      simp
    simp only [Option.map_some', h1, h2, List.append_assoc]

theorem string_cond_false {eof c : Char} (h : string_cond eof c = false) :
    c = chardefs.quote ∨ c = chardefs.back_slash ∨ c = eof := by
  by_cases h1 : c = chardefs.quote
  · exact Or.inl h1
  · by_cases h2 : c = chardefs.back_slash
    · exact Or.inr (Or.inl h2)
    · by_cases h3 : c = eof
      · exact Or.inr (Or.inr h3)
      · simp [string_cond, h1, h2, h3] at h

theorem string_cond_true {eof c : Char} (h : string_cond eof c = true) :
    c ≠ chardefs.quote ∧ c ≠ chardefs.back_slash ∧ c ≠ eof := by
  simp only [string_cond, Bool.and_eq_true, bne_iff_ne, ne_eq] at h
  exact ⟨h.1.1, h.1.2, h.2⟩

theorem string_scanned_shift (p body : List Char)
    (h : string_scan (p ++ body) = (string_scan body).map (· + p.length)) :
    string_scanned (p ++ body) = p ++ string_scanned body := by
  unfold string_scanned
  rw [h]
  cases string_scan body with
  | none => rfl
  | some k =>
    simp only [Option.map_some']
    rw [List.take_append_eq_append_take]
    simp

theorem string_scanned_subset (body : List Char) : string_scanned body ⊆ body := by
  unfold string_scanned
  cases string_scan body with
  | none => exact fun _ h => h
  | some k => exact List.take_subset k body

/-- `read_string` ends where `string_scan` says, when the sentinel does not occur
in the part of the text that the scan passes over. -/
theorem read_string_scanned (eof : Char) (heof : eof = Char.ofNat 0) (ts : Nat) (fuel : Nat) :
    ∀ (pre body buf : List Char), eof ∉ string_scanned body → body.length < fuel →
      read_string eof fuel (cursor pre body ts buf) = some (string_outcome pre body ts buf) := by
  induction fuel with
  | zero => intro pre body buf _ hf; omega
  | succ fuel ih =>
    intro pre body buf hmem hf
    have hE : string_cond eof eof = false := by simp [string_cond]
    have hq0 : eof ≠ chardefs.quote := by subst heof; decide
    have hb0 : eof ≠ chardefs.back_slash := by subst heof; decide
    have hsplit := List.takeWhile_append_dropWhile (string_cond eof) body
    have hplain : ∀ c ∈ body.takeWhile (string_cond eof),
        c ≠ chardefs.quote ∧ c ≠ chardefs.back_slash := fun c hc =>
      ⟨(string_cond_true (List.mem_takeWhile_imp hc)).1,
        (string_cond_true (List.mem_takeWhile_imp hc)).2.1⟩
    have hlen : (body.dropWhile (string_cond eof)).length < fuel + 1 :=
      Nat.lt_of_le_of_lt (List.dropWhile_sublist _).length_le hf
    have hmemr : eof ∉ string_scanned (body.dropWhile (string_cond eof)) := by
      have hsc : string_scanned body = body.takeWhile (string_cond eof)
          ++ string_scanned (body.dropWhile (string_cond eof)) := by
        conv_lhs => rw [← hsplit]
        exact string_scanned_shift _ _ (string_scan_run _ _ hplain)
      intro h
      exact hmem (by rw [hsc]; exact List.mem_append_right _ h)
    have hout : string_outcome pre body ts buf
        = string_outcome (pre ++ body.takeWhile (string_cond eof))
            (body.dropWhile (string_cond eof)) ts (buf ++ body.takeWhile (string_cond eof)) := by
      conv_lhs => rw [← hsplit]
      exact string_outcome_shift _ _ pre ts buf (string_scan_run _ _ hplain)
    simp only [read_string]
    rw [while_consume_max eof _ hE pre body ts buf (fuel + 1) 0 hf, hout]
    simp only [current_cursor]
    generalize pre ++ body.takeWhile (string_cond eof) = p at *
    generalize buf ++ body.takeWhile (string_cond eof) = b at *
    have hhead : ∀ c r0, body.dropWhile (string_cond eof) = c :: r0 →
        string_cond eof c = false := by
      intro c r0 hr
      have := List.head_dropWhile_not (string_cond eof) body (by simp [hr])
      simpa [hr] using this
    cases hr : body.dropWhile (string_cond eof) with
    | nil =>
      have h1 : ¬ eof = chardefs.quote := by subst heof; decide
      have h2 : ¬ eof = chardefs.back_slash := by subst heof; decide
      simp only [List.headD_nil]
      rw [if_neg h1, if_neg h2, if_pos True.intro]
      simp [string_outcome, string_scan, create_token, cursor]
    | cons c r0 =>
      rw [hr] at hlen hmemr
      have hce : c ≠ eof := by
        intro h
        subst h
        apply hmemr
        have := string_scanned_shift [c] r0 (by simpa using string_scan_plain c r0 hq0 hb0)
        simp only [List.cons_append, List.nil_append] at this
        rw [this]
        simp
      simp only [List.headD_cons]
      by_cases hq : c = chardefs.quote
      · subst hq
        rw [if_pos rfl, consume_cursor]
        simp [string_outcome, string_scan_quote, create_token, cursor]
      · rw [if_neg hq]
        by_cases hb : c = chardefs.back_slash
        · subst hb
          rw [if_pos rfl, consume_cursor]
          simp only [current_cursor]
          cases r0 with
          | nil =>
            have hesc : ¬ is_escape eof = true := by subst heof; decide
            simp only [List.headD_nil]
            rw [if_neg hesc, ih _ [] _ (by simp [string_scanned, string_scan])
              (by simp at hlen ⊢; omega)]
            simp [string_outcome, string_scan, hq]
          | cons c2 r1 =>
            simp only [List.headD_cons]
            by_cases hesc : is_escape c2 = true
            · have hr1 : eof ∉ string_scanned r1 := by
                intro h
                apply hmemr
                have := string_scanned_shift [chardefs.back_slash, c2] r1
                  (by simpa using string_scan_escape c2 r1 hesc)
                simp only [List.cons_append, List.nil_append] at this
                rw [this]
                simp [h]
              rw [if_pos hesc, consume_cursor,
                ih _ r1 _ hr1 (by simp at hlen; omega)]
              have := string_outcome_shift [chardefs.back_slash, c2] r1 p ts b
                (by simpa using string_scan_escape c2 r1 hesc)
              simp only [List.cons_append, List.nil_append] at this
              rw [this]
              simp
            · have hr0 : eof ∉ string_scanned (c2 :: r1) := by
                intro h
                apply hmemr
                have := string_scanned_shift [chardefs.back_slash] (c2 :: r1)
                  (by simpa using string_scan_no_escape c2 r1 (by simpa using hesc))
                simp only [List.cons_append, List.nil_append] at this
                rw [this]
                simp [h]
              rw [if_neg hesc, ih _ (c2 :: r1) _ hr0 (by simp at hlen ⊢; omega)]
              have := string_outcome_shift [chardefs.back_slash] (c2 :: r1) p ts b
                (by simpa using string_scan_no_escape c2 r1 (by simpa using hesc))
              simp only [List.cons_append, List.nil_append] at this
              rw [this]
        · rcases string_cond_false (hhead c r0 hr) with h | h | h
          · exact absurd h hq
          · exact absurd h hb
          · exact absurd h hce

/-- `read_string` ends where `string_scan` says, on a text without the sentinel. -/
theorem read_string_scan (eof : Char) (heof : eof = Char.ofNat 0) (ts : Nat) (fuel : Nat)
    (pre body buf : List Char) (hmem : eof ∉ body) (hf : body.length < fuel) :
    read_string eof fuel (cursor pre body ts buf) = some (string_outcome pre body ts buf) :=
  read_string_scanned eof heof ts fuel pre body buf
    (fun h => hmem (string_scanned_subset body h)) hf

theorem next_token_string_scanned (eof : Char) (heof : eof = Char.ofNat 0)
    (pre body : List Char) (ts : Nat) (n : Nat) (hmem : eof ∉ string_scanned body)
    (hf : (chardefs.quote :: body).length < n) :
    next_token eof n (cursor pre (chardefs.quote :: body) ts [])
      = some (string_outcome (pre ++ [chardefs.quote]) body pre.length [chardefs.quote]) := by
  obtain ⟨k, rfl⟩ : ∃ k, n = k + 1 := ⟨n - 1, by omega⟩
  simp only [List.length_cons] at hf
  rw [next_token_eq_read_string eof heof k pre body ts [],
    read_string_scanned eof heof pre.length (k + 1) _ body _ hmem (by omega)]
  rfl

theorem next_token_string_scan (eof : Char) (heof : eof = Char.ofNat 0) (pre body : List Char)
    (ts : Nat) (n : Nat) (hmem : eof ∉ body) (hf : (chardefs.quote :: body).length < n) :
    next_token eof n (cursor pre (chardefs.quote :: body) ts [])
      = some (string_outcome (pre ++ [chardefs.quote]) body pre.length [chardefs.quote]) := by
  obtain ⟨k, rfl⟩ : ∃ k, n = k + 1 := ⟨n - 1, by omega⟩
  simp only [List.length_cons] at hf
  rw [next_token_eq_read_string eof heof k pre body ts [],
    read_string_scan eof heof pre.length (k + 1) _ body _ hmem (by omega)]
  rfl

/-! ### `string_scan` against the words of the specification -/

theorem find_close_odd (c : Char) (l : List Char) :
    find_close true (c :: l) = (find_close false l).map (· + 1) := by
  by_cases h : c = chardefs.back_slash <;> simp [find_close, h]

theorem find_close_plain (c : Char) (l : List Char) (odd : Bool) (h1 : c ≠ chardefs.quote)
    (h2 : c ≠ chardefs.back_slash) :
    find_close odd (c :: l) = (find_close false l).map (· + 1) := by
  simp [find_close, h1, h2]

theorem string_scan_eq_find_close :
    ∀ (n : Nat) (l : List Char), l.length ≤ n →
      string_scan l = (find_close false l).map (· + 1) := by
  intro n
  induction n with
  | zero =>
    intro l hl
    have : l = [] := List.length_eq_zero.mp (by omega)
    subst this
    simp [string_scan, find_close]
  | succ n ih =>
    intro l hl
    cases l with
    | nil => simp [string_scan, find_close]
    | cons c l1 =>
      simp only [List.length_cons] at hl
      by_cases hq : c = chardefs.quote
      · subst hq
        rw [string_scan_quote]
        simp [find_close]
      · by_cases hb : c = chardefs.back_slash
        · subst hb
          cases l1 with
          | nil => simp [string_scan, find_close, hq]
          | cons c2 rest =>
            simp only [List.length_cons] at hl
            have hfc : find_close false (chardefs.back_slash :: c2 :: rest)
                = ((find_close false rest).map (· + 1)).map (· + 1) := by
              rw [← find_close_odd c2 rest]
              simp [find_close, hq]
            by_cases hesc : is_escape c2 = true
            · rw [string_scan_escape c2 rest hesc, ih rest (by omega), hfc]
              cases find_close false rest <;> simp
            · have h1 : c2 ≠ chardefs.quote := by
                intro h; subst h; exact hesc (by decide)
              have h2 : c2 ≠ chardefs.back_slash := by
                intro h; subst h; exact hesc (by decide)
              rw [string_scan_no_escape c2 rest (by simpa using hesc),
                ih (c2 :: rest) (by simp only [List.length_cons]; omega), hfc,
                find_close_plain c2 rest false h1 h2]
        · rw [string_scan_plain c l1 hq hb, ih l1 (by omega), find_close_plain c l1 false hq hb]

theorem trailing_backslashes_append (pre : List Char) (c : Char) :
    trailing_backslashes (pre ++ [c])
      = if c = chardefs.back_slash then trailing_backslashes pre + 1 else 0 := by
  unfold trailing_backslashes
  by_cases h : c = chardefs.back_slash <;> simp [List.takeWhile_cons, h]

theorem closes_at_zero (pre : List Char) (c : Char) (rest : List Char) :
    closes_at (pre ++ c :: rest) pre.length
      = (decide (c = chardefs.quote) && decide (trailing_backslashes pre % 2 = 0)) := by
  unfold closes_at
  have h : (pre ++ c :: rest)[pre.length]? = some c := by
    rw [List.getElem?_append_right (Nat.le_refl _), Nat.sub_self]
    simp
  rw [h]
  by_cases hc : c = chardefs.quote <;> by_cases hm : trailing_backslashes pre % 2 = 0 <;>
    simp [hc, hm]

theorem find_range_eq_find_close (body : List Char) :
    ∀ pre : List Char,
      (List.range body.length).find? (fun i => closes_at (pre ++ body) (pre.length + i))
        = find_close (decide (trailing_backslashes pre % 2 = 1)) body := by
  induction body with
  | nil => intro pre; simp [find_close]
  | cons c rest ih =>
    intro pre
    have hstep : ∀ i, closes_at (pre ++ c :: rest) (pre.length + (i + 1))
        = closes_at ((pre ++ [c]) ++ rest) ((pre ++ [c]).length + i) := by
      intro i
      simp only [List.append_assoc, List.singleton_append, List.length_append,
        List.length_singleton, Nat.add_assoc, Nat.add_comm 1]
    rw [List.length_cons, List.range_succ_eq_map, List.find?_cons, Nat.add_zero,
      closes_at_zero, List.find?_map]
    have hfun : ((fun i => closes_at (pre ++ c :: rest) (pre.length + i)) ∘ Nat.succ)
        = fun i => closes_at ((pre ++ [c]) ++ rest) ((pre ++ [c]).length + i) := by
      funext i
      exact hstep i
    rw [hfun, ih (pre ++ [c]), trailing_backslashes_append]
    have hmod : trailing_backslashes pre % 2 = 0 ∨ trailing_backslashes pre % 2 = 1 := by
      omega
    by_cases hq : c = chardefs.quote
    · have hb : c ≠ chardefs.back_slash := by subst hq; decide
      rcases hmod with hm | hm
      · simp [find_close, hq, hm]
      · simp [find_close, hq, hb, hm]
        rfl
    · by_cases hb : c = chardefs.back_slash
      · rcases hmod with hm | hm
        · have : (trailing_backslashes pre + 1) % 2 = 1 := by omega
          simp [find_close, hq, hb, hm, this]
          rfl
        · have : (trailing_backslashes pre + 1) % 2 = 0 := by omega
          simp [find_close, hq, hb, hm, this]
      · simp [find_close, hq, hb]

/-- The scan of the code finds the quote the specification describes. -/
theorem string_scan_eq_string_end (body : List Char) :
    string_scan body = (string_end body).map (· + 1) := by
  have h := find_range_eq_find_close body []
  simp only [List.nil_append, List.length_nil, Nat.zero_add] at h
  have h0 : decide (trailing_backslashes [] % 2 = 1) = false := by decide
  rw [h0] at h
  rw [string_scan_eq_find_close body.length body (Nat.le_refl _), ← h]
  rfl

theorem string_extent_eq_scanned (body : List Char) :
    string_extent body = string_scanned body := by
  unfold string_extent string_scanned
  rw [string_scan_eq_string_end]
  cases string_end body <;> rfl

theorem find_close_no_quote (l : List Char) (h : ∀ c ∈ l, c ≠ chardefs.quote) :
    ∀ odd : Bool, find_close odd l = none := by
  induction l with
  | nil => intro odd; rfl
  | cons c rest ih =>
    intro odd
    have hc : c ≠ chardefs.quote := h c (by simp)
    simp [find_close, hc, ih (fun x hx => h x (by simp [hx]))]

theorem string_scan_no_quote (l : List Char) (h : ∀ c ∈ l, c ≠ chardefs.quote) :
    string_scan l = none := by
  rw [string_scan_eq_find_close l.length l (Nat.le_refl _), find_close_no_quote l h false]
  rfl

theorem string_scan_closed (y : List Char)
    (hy : ∀ c ∈ y, c ≠ chardefs.quote ∧ c ≠ chardefs.back_slash) :
    string_scan (y ++ [chardefs.quote]) = some (y.length + 1) := by
  rw [string_scan_run y _ hy, string_scan_quote]
  simp [Nat.add_comm]

theorem string_scan_one_escape (x y : List Char) (c : Char)
    (hx : ∀ c ∈ x, c ≠ chardefs.quote ∧ c ≠ chardefs.back_slash)
    (hy : ∀ c ∈ y, c ≠ chardefs.quote ∧ c ≠ chardefs.back_slash) :
    string_scan (x ++ chardefs.back_slash :: c :: (y ++ [chardefs.quote]))
      = some (x ++ chardefs.back_slash :: c :: (y ++ [chardefs.quote])).length := by
  rw [string_scan_run x _ hx]
  by_cases hesc : is_escape c = true
  · rw [string_scan_escape c _ hesc, string_scan_closed y hy]
    simp only [Option.map_some', List.length_append, List.length_cons, List.length_nil]
    congr 1
    omega
  · have h1 : c ≠ chardefs.quote := by
      intro h; subst h; exact hesc (by decide)
    have h2 : c ≠ chardefs.back_slash := by
      intro h; subst h; exact hesc (by decide)
    rw [string_scan_no_escape c _ (by simpa using hesc), string_scan_plain c _ h1 h2,
      string_scan_closed y hy]
    simp only [Option.map_some', List.length_append, List.length_cons, List.length_nil]
    congr 1
    omega

/-! ### Unknown characters, whitespace and punctuation -/

theorem next_token_eq_read_unknown (eof : Char) (fuel : Nat) (pre : List Char) (c : Char)
    (r : List Char) (ts : Nat) (buf : List Char) (h1 : c ≠ eof) (h2 : c ≠ chardefs.quote)
    (h3 : (isalpha c || decide (c = chardefs.underscore)) = false) (h4 : isdigit c = false)
    (h5 : isspace c = false) (h6 : punctuation c = none) :
    next_token eof (fuel + 1) (cursor pre (c :: r) ts buf)
      = read_unknown eof (fuel + 1) (cursor pre (c :: r) pre.length buf) := by
  have hts : ({ cursor pre (c :: r) ts buf with
      token_start := (cursor pre (c :: r) ts buf).index } : lexer)
        = cursor pre (c :: r) pre.length buf := rfl
  simp only [next_token, hts, current_cursor, List.headD_cons]
  rw [if_neg h1, if_neg h2, if_neg (by simp [h3]), if_neg (by simp [h4]),
    if_neg (by simp [h5]), h6]

theorem unknown_cond_zero_fun :
    unknown_cond (Char.ofNat 0) = fun c => !isspace c && c != Char.ofNat 0 := by
  funext c
  exact unknown_cond_zero c

/-- `read_unknown` swallows a run of characters that are neither whitespace nor
the sentinel, up to the end of the input. -/
theorem read_unknown_all (eof : Char) (heof : eof = Char.ofNat 0) (pre r : List Char)
    (ts : Nat) (buf : List Char) (fuel : Nat) (hf : r.length < fuel)
    (hr : ∀ c ∈ r, isspace c = false ∧ c ≠ eof) :
    read_unknown eof fuel (cursor pre r ts buf)
      = some (⟨token_type.invalid, ts, (pre ++ r).length, buf ++ r⟩,
          cursor (pre ++ r) [] ts []) := by
  have hrun : ∀ c ∈ r, unknown_cond eof c = true := by
    intro c hc
    obtain ⟨h1, h2⟩ := hr c hc
    subst heof
    rw [unknown_cond_zero]
    simp [h1, h2]
  have h := while_consume_run eof (unknown_cond eof) r [] pre ts buf fuel 0 hrun
    (unknown_cond_eof eof) hf
  simp only [List.append_nil] at h
  unfold read_unknown
  rw [h]
  rfl

theorem isspace_not_alpha {c : Char} (h : isspace c = true) :
    (isalpha c || decide (c = chardefs.underscore)) = false ∧ isdigit c = false := by
  have hu : c ≠ chardefs.underscore := by
    intro hc; subst hc; exact absurd h (by decide)
  simp only [isspace, Bool.or_eq_true, Bool.and_eq_true, decide_eq_true_eq] at h
  simp only [isalpha, isdigit, Bool.or_eq_false_iff, Bool.and_eq_false_iff,
    decide_eq_false_iff_not]
  refine ⟨⟨⟨?_, ?_⟩, hu⟩, ?_⟩ <;> omega

/-- A leading whitespace run is skipped and `next_token` starts over behind it. -/
theorem next_token_skip (eof : Char) (heof : eof = Char.ofNat 0) (fuel : Nat)
    (pre w r : List Char) (ts : Nat) (buf : List Char) (hne : w ≠ [])
    (hw : ∀ c ∈ w, isspace c = true) (hr : isspace (r.headD eof) = false)
    (hf : w.length < fuel + 1) :
    next_token eof (fuel + 1) (cursor pre (w ++ r) ts buf)
      = next_token eof fuel (cursor (pre ++ w) r pre.length buf) := by
  obtain ⟨c, w0, rfl⟩ : ∃ c w0, w = c :: w0 := by
    cases w with
    | nil => exact absurd rfl hne
    | cons c w0 => exact ⟨c, w0, rfl⟩
  have hc : isspace c = true := hw c (by simp)
  have hts : ({ cursor pre (c :: (w0 ++ r)) ts buf with
      token_start := (cursor pre (c :: (w0 ++ r)) ts buf).index } : lexer)
        = cursor pre (c :: (w0 ++ r)) pre.length buf := rfl
  have h1 : c ≠ eof := by
    intro h; subst heof; subst h; exact absurd hc (by decide)
  have h2 : c ≠ chardefs.quote := by
    intro h; subst h; exact absurd hc (by decide)
  have h3 := (isspace_not_alpha hc).1
  have h4 := (isspace_not_alpha hc).2
  have hskip := while_next_run eof isspace (c :: w0) r pre pre.length buf (fuel + 1) 0 hw hr hf
  rw [List.cons_append] at hskip ⊢
  simp only [next_token, hts, current_cursor, List.headD_cons]
  rw [if_neg h1, if_neg h2, if_neg (by simp [h3]), if_neg (by simp [h4]), if_pos hc]
  unfold skip_space
  rw [hskip]

/-- At the end of the input `next_token` builds the end-of-input token. -/
theorem next_token_at_end (eof : Char) (fuel : Nat) (pre : List Char) (ts : Nat)
    (buf : List Char) :
    next_token eof (fuel + 1) (cursor pre [] ts buf)
      = some (⟨token_type.eof, pre.length, pre.length, buf⟩, cursor pre [] pre.length []) := by
  have hts : ({ cursor pre [] ts buf with token_start := (cursor pre [] ts buf).index } : lexer)
      = cursor pre [] pre.length buf := rfl
  simp only [next_token, hts, current_cursor, List.headD_nil]
  rw [if_pos True.intro]
  rfl

theorem read_unknown_kind (eof : Char) (fuel : Nat) (s : lexer) (tok : token) (s1 : lexer)
    (h : read_unknown eof fuel s = some (tok, s1)) : is_reader_kind tok.type := by
  unfold read_unknown at h
  split at h
  · cases h
  · cases h
    simp [create_token, is_reader_kind]

theorem read_float_kind (s : lexer) : is_reader_kind (read_float s).1.type := by
  simp [read_float, create_token, is_reader_kind]

theorem create_token_kind (ty : token_type) (s : lexer) (tok : token) (s1 : lexer)
    (hty : is_reader_kind ty) (h : some (create_token ty s) = some (tok, s1)) :
    is_reader_kind tok.type := by
  cases h
  exact hty

theorem some_read_float_kind (s : lexer) (tok : token) (s1 : lexer)
    (h : some (read_float s) = some (tok, s1)) : is_reader_kind tok.type := by
  cases h
  exact read_float_kind s

theorem read_exponent_kind (eof : Char) (fuel : Nat) (s : lexer) (tok : token) (s1 : lexer)
    (h : read_exponent eof fuel s = some (tok, s1)) : is_reader_kind tok.type := by
  unfold read_exponent at h
  simp only at h
  split at h
  · cases h
  · split at h
    · exact read_unknown_kind _ _ _ _ _ h
    · split at h
      · exact some_read_float_kind _ _ _ h
      · exact create_token_kind _ _ _ _ (by decide) h

theorem read_double_kind (eof : Char) (fuel : Nat) (s : lexer) (tok : token) (s1 : lexer)
    (h : read_double eof fuel s = some (tok, s1)) : is_reader_kind tok.type := by
  unfold read_double at h
  split at h
  · cases h
  · simp only at h
    split at h
    · exact read_unknown_kind _ _ _ _ _ h
    · split at h
      · exact read_unknown_kind _ _ _ _ _ h
      · split at h
        · exact read_exponent_kind _ _ _ _ _ h
        · split at h
          · exact some_read_float_kind _ _ _ h
          · exact create_token_kind _ _ _ _ (by decide) h

theorem read_integer_kind (eof : Char) (fuel : Nat) (s : lexer) (tok : token) (s1 : lexer)
    (h : read_integer eof fuel s = some (tok, s1)) : is_reader_kind tok.type := by
  unfold read_integer at h
  split at h
  · cases h
  · simp only at h
    split at h
    · exact read_double_kind _ _ _ _ _ h
    · split at h
      · exact read_exponent_kind _ _ _ _ _ h
      · exact create_token_kind _ _ _ _ (by decide) h

theorem read_identifier_kind (eof : Char) (fuel : Nat) (s : lexer) (tok : token) (s1 : lexer)
    (h : read_identifier eof fuel s = some (tok, s1)) : is_reader_kind tok.type := by
  unfold read_identifier at h
  split at h
  · cases h
  · split at h
    · exact create_token_kind _ _ _ _ (by decide) h
    · exact create_token_kind _ _ _ _ (by decide) h

theorem read_string_kind (eof : Char) (fuel : Nat) :
    ∀ (s : lexer) (tok : token) (s1 : lexer),
      read_string eof fuel s = some (tok, s1) → is_reader_kind tok.type := by
  induction fuel with
  | zero => intro s tok s1 h; cases h
  | succ fuel ih =>
    intro s tok s1 h
    simp only [read_string] at h
    split at h
    · cases h
    · split at h
      · exact create_token_kind _ _ _ _ (by decide) h
      · split at h
        · exact ih _ _ _ h
        · split at h
          · exact create_token_kind _ _ _ _ (by decide) h
          · exact create_token_kind _ _ _ _ (by decide) h

theorem reader_kind_not_punctuation (ty : token_type) (h : is_reader_kind ty) :
    ty ∉ punctuation_table.map Prod.snd := by
  revert h
  cases ty <;> decide

/-- A token of a punctuation kind is one character wide, from any state. -/
theorem next_token_punctuation_width (eof : Char) (fuel : Nat) :
    ∀ (s : lexer) (tok : token) (s1 : lexer),
      next_token eof fuel s = some (tok, s1) →
      tok.type ∈ punctuation_table.map Prod.snd → tok.stop = tok.start + 1 := by
  induction fuel with
  | zero => intro s tok s1 h; cases h
  | succ fuel ih =>
    intro s tok s1 h hty
    simp only [next_token] at h
    split at h
    · cases h
      have hno : token_type.eof ∉ punctuation_table.map Prod.snd := by decide
      exact absurd hty hno
    · split at h
      · exact absurd hty (reader_kind_not_punctuation _ (read_string_kind _ _ _ _ _ h))
      · split at h
        · exact absurd hty (reader_kind_not_punctuation _ (read_identifier_kind _ _ _ _ _ h))
        · split at h
          · exact absurd hty (reader_kind_not_punctuation _ (read_integer_kind _ _ _ _ _ h))
          · split at h
            · split at h
              · cases h
              · exact ih _ _ _ h hty
            · split at h
              · cases h
                simp [create_token, consume]
              · exact absurd hty (reader_kind_not_punctuation _ (read_unknown_kind _ _ _ _ _ h))

theorem punctuation_table_dispatch :
    ∀ p ∈ punctuation_table, p.1 ≠ Char.ofNat 0 ∧ p.1 ≠ chardefs.quote ∧
      (isalpha p.1 || decide (p.1 = chardefs.underscore)) = false ∧ isdigit p.1 = false ∧
      isspace p.1 = false ∧ punctuation p.1 = some p.2 := by
  decide

theorem next_token_punctuation (eof : Char) (heof : eof = Char.ofNat 0) (fuel : Nat)
    (pre : List Char) (c : Char) (ty : token_type) (r : List Char) (ts : Nat)
    (buf : List Char) (hp : (c, ty) ∈ punctuation_table) :
    next_token eof (fuel + 1) (cursor pre (c :: r) ts buf)
      = some (⟨ty, pre.length, pre.length + 1, buf ++ [c]⟩,
          cursor (pre ++ [c]) r pre.length []) := by
  obtain ⟨h1, h2, h3, h4, h5, h6⟩ := punctuation_table_dispatch (c, ty) hp
  simp only at h1 h2 h3 h4 h5 h6
  have hts : ({ cursor pre (c :: r) ts buf with
      token_start := (cursor pre (c :: r) ts buf).index } : lexer)
        = cursor pre (c :: r) pre.length buf := rfl
  subst heof
  simp only [next_token, hts, current_cursor, List.headD_cons]
  rw [if_neg h1, if_neg h2, if_neg (by simp [h3]), if_neg (by simp [h4]),
    if_neg (by simp [h5]), h6, consume_cursor]
  simp [create_token, cursor]

theorem next_token_exponent_f_rest (eof : Char) (heof : eof = Char.ofNat 0)
    (pre a m sgn x r : List Char) (ts : Nat) (n : Nat) (hane : a ≠ [])
    (ha : ∀ c ∈ a, isdigit c = true) (hm : is_mantissa_opt m) (hs : is_sign_opt sgn)
    (hxne : x ≠ []) (hx : ∀ c ∈ x, isdigit c = true)
    (hf : (a ++ (m ++ 'e' :: (sgn ++ (x ++ ['f'])))).length < n) :
    next_token eof n (cursor pre (a ++ (m ++ 'e' :: (sgn ++ (x ++ 'f' :: r)))) ts [])
      = some (⟨token_type.single_precision, pre.length,
            (pre ++ (a ++ (m ++ 'e' :: (sgn ++ (x ++ ['f']))))).length,
            a ++ (m ++ 'e' :: (sgn ++ (x ++ ['f'])))⟩,
          cursor (pre ++ (a ++ (m ++ 'e' :: (sgn ++ (x ++ ['f']))))) r pre.length []) := by
  obtain ⟨k, rfl⟩ : ∃ k, n = k + 1 := ⟨n - 1, by omega⟩
  simp only [List.length_append, List.length_cons, List.length_nil] at hf
  have hno : sgn = [] → (x ++ 'f' :: r).headD eof ≠ chardefs.plus ∧
      (x ++ 'f' :: r).headD eof ≠ chardefs.dash := by
    intro _
    obtain ⟨c, x0, rfl⟩ : ∃ c x0, x = c :: x0 := by
      cases x with
      | nil => exact absurd rfl hxne
      | cons c x0 => exact ⟨c, x0, rfl⟩
    have hc : isdigit c = true := hx c (by simp)
    simp only [List.cons_append, List.headD_cons]
    constructor <;> (intro h; subst h; exact absurd hc (by decide))
  rw [next_token_digits eof heof k pre a _ ts [] hane ha,
    read_integer_exponent eof pre a m (sgn ++ (x ++ 'f' :: r)) pre.length [] (k + 1) ha hm
      (by simp only [List.length_append]; omega),
    read_exponent_sign eof _ sgn (x ++ 'f' :: r) pre.length _ (k + 1) hs hno,
    exponent_digits_f eof _ x r pre.length _ (k + 1) hx hxne (by omega)]
  simp

theorem next_token_no_mantissa_all (eof : Char) (heof : eof = Char.ofNat 0)
    (pre a r : List Char) (ts : Nat) (n : Nat) (hane : a ≠ [])
    (ha : ∀ c ∈ a, isdigit c = true) (hr : ∀ c, r.head? = some c → isdigit c = false)
    (hall : ∀ c ∈ r, isspace c = false ∧ c ≠ eof) (hf : (a ++ '.' :: r).length < n) :
    next_token eof n (cursor pre (a ++ '.' :: r) ts [])
      = some (⟨token_type.invalid, pre.length, (pre ++ (a ++ '.' :: r)).length,
            a ++ '.' :: r⟩, cursor (pre ++ (a ++ '.' :: r)) [] pre.length []) := by
  obtain ⟨k, rfl⟩ : ∃ k, n = k + 1 := ⟨n - 1, by omega⟩
  simp only [List.length_append, List.length_cons] at hf
  have e1 : a ++ '.' :: r = a ++ chardefs.period :: r := rfl
  rw [next_token_digits eof heof k pre a _ ts [] hane ha, e1,
    read_integer_period eof pre a r pre.length [] (k + 1) ha (by omega),
    read_double_empty eof _ r pre.length _ (k + 1) (by omega) (headD_not_digit heof hr),
    read_unknown_all eof heof _ r pre.length _ (k + 1) (by omega) hall]
  simp [chardefs.period]

theorem next_token_second_period_all (eof : Char) (heof : eof = Char.ofNat 0)
    (pre a b r : List Char) (ts : Nat) (n : Nat) (hane : a ≠ [])
    (ha : ∀ c ∈ a, isdigit c = true) (hbne : b ≠ []) (hb : ∀ c ∈ b, isdigit c = true)
    (hall : ∀ c ∈ r, isspace c = false ∧ c ≠ eof)
    (hf : (a ++ '.' :: (b ++ '.' :: r)).length < n) :
    next_token eof n (cursor pre (a ++ '.' :: (b ++ '.' :: r)) ts [])
      = some (⟨token_type.invalid, pre.length, (pre ++ (a ++ '.' :: (b ++ '.' :: r))).length,
            a ++ '.' :: (b ++ '.' :: r)⟩,
          cursor (pre ++ (a ++ '.' :: (b ++ '.' :: r))) [] pre.length []) := by
  obtain ⟨k, rfl⟩ : ∃ k, n = k + 1 := ⟨n - 1, by omega⟩
  simp only [List.length_append, List.length_cons] at hf
  have e1 : a ++ '.' :: (b ++ '.' :: r) = a ++ chardefs.period :: (b ++ chardefs.period :: r) :=
    rfl
  have hall2 : ∀ c ∈ chardefs.period :: r, isspace c = false ∧ c ≠ eof := by
    intro c hc
    rcases List.mem_cons.mp hc with h | h
    · subst h; subst heof; decide
    · exact hall c h
  rw [next_token_digits eof heof k pre a _ ts [] hane ha, e1,
    read_integer_period eof pre a _ pre.length [] (k + 1) ha (by omega),
    read_double_period eof _ b r pre.length _ (k + 1) hb hbne (by omega),
    read_unknown_all eof heof _ _ pre.length _ (k + 1)
      (by simp only [List.length_cons]; omega) hall2]
  simp [chardefs.period]

theorem next_token_no_exponent_all (eof : Char) (heof : eof = Char.ofNat 0)
    (pre a m sgn r : List Char) (ts : Nat) (n : Nat) (hane : a ≠ [])
    (ha : ∀ c ∈ a, isdigit c = true) (hm : is_mantissa_opt m) (hs : is_sign_opt sgn)
    (hr : ∀ c, r.head? = some c → isdigit c = false ∧ (sgn = [] → c ≠ '+' ∧ c ≠ '-'))
    (hall : ∀ c ∈ r, isspace c = false ∧ c ≠ eof)
    (hf : (a ++ (m ++ 'e' :: (sgn ++ r))).length < n) :
    next_token eof n (cursor pre (a ++ (m ++ 'e' :: (sgn ++ r))) ts [])
      = some (⟨token_type.invalid, pre.length, (pre ++ (a ++ (m ++ 'e' :: (sgn ++ r)))).length,
            a ++ (m ++ 'e' :: (sgn ++ r))⟩,
          cursor (pre ++ (a ++ (m ++ 'e' :: (sgn ++ r)))) [] pre.length []) := by
  obtain ⟨k, rfl⟩ : ∃ k, n = k + 1 := ⟨n - 1, by omega⟩
  simp only [List.length_append, List.length_cons] at hf
  have hno : sgn = [] → r.headD eof ≠ chardefs.plus ∧ r.headD eof ≠ chardefs.dash := by
    intro h0
    cases r with
    | nil => subst heof; decide
    | cons c r0 => exact (hr c rfl).2 h0
  rw [next_token_digits eof heof k pre a _ ts [] hane ha,
    read_integer_exponent eof pre a m (sgn ++ r) pre.length [] (k + 1) ha hm
      (by simp only [List.length_append]; omega),
    read_exponent_sign eof _ sgn r pre.length _ (k + 1) hs hno,
    exponent_digits_empty eof _ r pre.length _ (k + 1) (by omega)
      (headD_not_digit heof (fun c hc => (hr c hc).1)),
    read_unknown_all eof heof _ r pre.length _ (k + 1) (by omega) hall]
  simp

theorem string_end_lt {body : List Char} {i : Nat} (h : string_end body = some i) :
    i < body.length ∧ closes_at body i = true := by
  unfold string_end at h
  exact ⟨List.mem_range.mp (List.mem_of_find?_eq_some h), List.find?_some h⟩

/-! ### Text in front of the scanned part only shifts offsets -/

theorem current_shift (eof : Char) (w : List Char) (s : lexer) :
    (shift_lexer w s).current eof = s.current eof := by
  simp only [current, shift_lexer, List.getD_eq_getElem?_getD]
  rw [List.getElem?_append_right (Nat.le_add_left _ _), Nat.add_sub_cancel]

theorem consume_shift (eof : Char) (w : List Char) (s : lexer) :
    (shift_lexer w s).consume eof = shift_lexer w (s.consume eof) := by
  have h := current_shift eof w s
  simp only [consume, h]
  simp [shift_lexer, Nat.add_right_comm]

theorem next_shift (w : List Char) (s : lexer) :
    (shift_lexer w s).next = shift_lexer w s.next := by
  simp [next, shift_lexer, Nat.add_right_comm]

theorem create_token_shift (ty : token_type) (w : List Char) (s : lexer) :
    create_token ty (shift_lexer w s) = shift_result w (create_token ty s) := rfl

theorem while_current_shift (eof : Char) (cond : Char → Bool) (body : lexer → lexer)
    (w : List Char) (hbody : ∀ s, body (shift_lexer w s) = shift_lexer w (body s))
    (fuel : Nat) :
    ∀ (count : Nat) (s : lexer),
      while_current eof cond body fuel count (shift_lexer w s)
        = (while_current eof cond body fuel count s).map
            (fun p => (p.1, shift_lexer w p.2)) := by
  induction fuel with
  | zero => intro count s; rfl
  | succ fuel ih =>
    intro count s
    simp only [while_current, current_shift]
    split
    · rw [hbody, ih]
    · rfl

theorem read_unknown_shift (eof : Char) (w : List Char) (fuel : Nat) (s : lexer) :
    read_unknown eof fuel (shift_lexer w s)
      = (read_unknown eof fuel s).map (shift_result w) := by
  unfold read_unknown
  rw [while_current_shift eof _ _ w (consume_shift eof w)]
  cases while_current eof (unknown_cond eof) (consume eof) fuel 0 s with
  | none => rfl
  | some p => rfl

theorem read_float_shift (w : List Char) (s : lexer) :
    read_float (shift_lexer w s) = shift_result w (read_float s) := rfl

theorem read_exponent_shift (eof : Char) (w : List Char) (fuel : Nat) (s : lexer) :
    read_exponent eof fuel (shift_lexer w s)
      = (read_exponent eof fuel s).map (shift_result w) := by
  unfold read_exponent
  simp only [current_shift]
  have hs1 : (if (decide (s.current eof = chardefs.plus) ||
        decide (s.current eof = chardefs.dash)) = true
      then (shift_lexer w s).consume eof else shift_lexer w s)
      = shift_lexer w (if (decide (s.current eof = chardefs.plus) ||
        decide (s.current eof = chardefs.dash)) = true then s.consume eof else s) := by
    split
    · exact consume_shift eof w s
    · rfl
  rw [hs1, while_current_shift eof _ _ w (consume_shift eof w)]
  cases while_current eof isdigit (consume eof) fuel 0
      (if (decide (s.current eof = chardefs.plus) ||
        decide (s.current eof = chardefs.dash)) = true then s.consume eof else s) with
  | none => rfl
  | some p =>
    simp only [Option.map_some', current_shift, consume_shift, read_unknown_shift,
      read_float_shift, create_token_shift]
    split
    · rfl
    · split <;> rfl

theorem read_double_shift (eof : Char) (w : List Char) (fuel : Nat) (s : lexer) :
    read_double eof fuel (shift_lexer w s)
      = (read_double eof fuel s).map (shift_result w) := by
  unfold read_double
  rw [while_current_shift eof _ _ w (consume_shift eof w)]
  cases while_current eof isdigit (consume eof) fuel 0 s with
  | none => rfl
  | some p =>
    simp only [Option.map_some', current_shift, consume_shift, read_unknown_shift,
      read_float_shift, create_token_shift, read_exponent_shift]
    split
    · rfl
    · split
      · rfl
      · split
        · rfl
        · split <;> rfl

theorem read_integer_shift (eof : Char) (w : List Char) (fuel : Nat) (s : lexer) :
    read_integer eof fuel (shift_lexer w s)
      = (read_integer eof fuel s).map (shift_result w) := by
  unfold read_integer
  rw [while_current_shift eof _ _ w (consume_shift eof w)]
  cases while_current eof isdigit (consume eof) fuel 0 s with
  | none => rfl
  | some p =>
    simp only [Option.map_some', current_shift, consume_shift, read_double_shift,
      create_token_shift, read_exponent_shift]
    split
    · rfl
    · split <;> rfl

theorem is_keyword_shift (w : List Char) (s : lexer) :
    (shift_lexer w s).is_keyword = s.is_keyword := rfl

theorem read_identifier_shift (eof : Char) (w : List Char) (fuel : Nat) (s : lexer) :
    read_identifier eof fuel (shift_lexer w s)
      = (read_identifier eof fuel s).map (shift_result w) := by
  unfold read_identifier
  rw [while_current_shift eof _ _ w (consume_shift eof w)]
  cases while_current eof (fun c => isalnum c || c == chardefs.underscore) (consume eof)
      fuel 0 s with
  | none => rfl
  | some p =>
    simp only [Option.map_some', is_keyword_shift, create_token_shift]
    split <;> rfl

theorem read_string_shift (eof : Char) (w : List Char) (fuel : Nat) :
    ∀ s : lexer, read_string eof fuel (shift_lexer w s)
      = (read_string eof fuel s).map (shift_result w) := by
  induction fuel with
  | zero => intro s; rfl
  | succ fuel ih =>
    intro s
    simp only [read_string]
    rw [while_current_shift eof _ _ w (consume_shift eof w)]
    cases while_current eof (string_cond eof) (consume eof) (fuel + 1) 0 s with
    | none => rfl
    | some p =>
      simp only [Option.map_some', current_shift, consume_shift, create_token_shift]
      split
      · rfl
      · split
        · split
          · exact ih _
          · exact ih _
        · split <;> rfl

theorem skip_space_shift (eof : Char) (w : List Char) (fuel : Nat) (s : lexer) :
    skip_space eof fuel (shift_lexer w s) = (skip_space eof fuel s).map (shift_lexer w) := by
  unfold skip_space
  rw [while_current_shift eof _ _ w (next_shift w)]
  cases while_current eof isspace next fuel 0 s with
  | none => rfl
  | some p => rfl

theorem next_token_shift (eof : Char) (w : List Char) (fuel : Nat) :
    ∀ s : lexer, next_token eof fuel (shift_lexer w s)
      = (next_token eof fuel s).map (shift_result w) := by
  induction fuel with
  | zero => intro s; rfl
  | succ fuel ih =>
    intro s
    have hts : ({ shift_lexer w s with token_start := (shift_lexer w s).index } : lexer)
        = shift_lexer w { s with token_start := s.index } := rfl
    simp only [next_token, hts, current_shift, consume_shift, read_string_shift,
      read_identifier_shift, read_integer_shift, skip_space_shift, read_unknown_shift,
      create_token_shift]
    split
    · rfl
    · split
      · rfl
      · split
        · rfl
        · split
          · rfl
          · split
            · cases skip_space eof (fuel + 1) { s with token_start := s.index } with
              | none => rfl
              | some s1 => exact ih s1
            · split <;> rfl

/-- `next_token` overwrites `token_start` before anything else. -/
theorem next_token_token_start (eof : Char) (fuel : Nat) (s : lexer) (x : Nat) :
    next_token eof fuel { s with token_start := x } = next_token eof fuel s := by
  cases fuel with
  | zero => rfl
  | succ fuel => rfl

theorem lex_loop_shift (eof : Char) (w : List Char) (fuel : Nat) :
    ∀ (s : lexer) (acc : List token),
      lex_loop eof fuel (shift_lexer w s) (acc.map (shift_token w.length))
        = (lex_loop eof fuel s acc).map
            (fun p => (p.1.map (shift_token w.length), shift_lexer w p.2)) := by
  induction fuel with
  | zero => intro s acc; rfl
  | succ fuel ih =>
    intro s acc
    simp only [lex_loop, current_shift, next_token_shift]
    split
    · cases next_token eof (fuel + 1) s with
      | none => rfl
      | some p =>
        obtain ⟨tok, s1⟩ := p
        have := ih s1 (acc ++ [tok])
        simp only [List.map_append, List.map_cons, List.map_nil] at this
        exact this
    · rfl

/-! ### More fuel does not change a result -/

theorem while_current_mono (eof : Char) (cond : Char → Bool) (body : lexer → lexer)
    (fuel : Nat) :
    ∀ (count : Nat) (s : lexer) (r : Nat × lexer),
      while_current eof cond body fuel count s = some r →
      while_current eof cond body (fuel + 1) count s = some r := by
  induction fuel with
  | zero => intro count s r h; cases h
  | succ fuel ih =>
    intro count s r h
    rw [while_current] at h ⊢
    split
    · rename_i hc
      rw [if_pos hc] at h
      exact ih _ _ _ h
    · rename_i hc
      rw [if_neg hc] at h
      exact h

theorem read_unknown_mono (eof : Char) (fuel : Nat) (s : lexer) (r : token × lexer)
    (h : read_unknown eof fuel s = some r) : read_unknown eof (fuel + 1) s = some r := by
  unfold read_unknown at h ⊢
  split at h
  · cases h
  · rename_i hw
    rw [while_current_mono _ _ _ _ _ _ _ hw]
    exact h

theorem read_exponent_mono (eof : Char) (fuel : Nat) (s : lexer) (r : token × lexer)
    (h : read_exponent eof fuel s = some r) : read_exponent eof (fuel + 1) s = some r := by
  unfold read_exponent at h ⊢
  simp only at h ⊢
  split at h
  · cases h
  · rename_i hw
    rw [while_current_mono _ _ _ _ _ _ _ hw]
    simp only
    split at h
    · rename_i hc
      rw [if_pos hc]
      exact read_unknown_mono _ _ _ _ h
    · rename_i hc
      rw [if_neg hc]
      exact h

theorem read_double_mono (eof : Char) (fuel : Nat) (s : lexer) (r : token × lexer)
    (h : read_double eof fuel s = some r) : read_double eof (fuel + 1) s = some r := by
  unfold read_double at h ⊢
  split at h
  · cases h
  · rename_i hw
    rw [while_current_mono _ _ _ _ _ _ _ hw]
    simp only at h ⊢
    split at h
    · rename_i hc
      rw [if_pos hc]
      exact read_unknown_mono _ _ _ _ h
    · rename_i hc
      rw [if_neg hc]
      split at h
      · rename_i hc2
        rw [if_pos hc2]
        exact read_unknown_mono _ _ _ _ h
      · rename_i hc2
        rw [if_neg hc2]
        split at h
        · rename_i hc3
          rw [if_pos hc3]
          exact read_exponent_mono _ _ _ _ h
        · rename_i hc3
          rw [if_neg hc3]
          exact h

theorem read_integer_mono (eof : Char) (fuel : Nat) (s : lexer) (r : token × lexer)
    (h : read_integer eof fuel s = some r) : read_integer eof (fuel + 1) s = some r := by
  unfold read_integer at h ⊢
  split at h
  · cases h
  · rename_i hw
    rw [while_current_mono _ _ _ _ _ _ _ hw]
    simp only at h ⊢
    split at h
    · rename_i hc
      rw [if_pos hc]
      exact read_double_mono _ _ _ _ h
    · rename_i hc
      rw [if_neg hc]
      split at h
      · rename_i hc2
        rw [if_pos hc2]
        exact read_exponent_mono _ _ _ _ h
      · rename_i hc2
        rw [if_neg hc2]
        exact h

theorem read_identifier_mono (eof : Char) (fuel : Nat) (s : lexer) (r : token × lexer)
    (h : read_identifier eof fuel s = some r) : read_identifier eof (fuel + 1) s = some r := by
  unfold read_identifier at h ⊢
  split at h
  · cases h
  · rename_i hw
    rw [while_current_mono _ _ _ _ _ _ _ hw]
    exact h

theorem skip_space_mono (eof : Char) (fuel : Nat) (s s1 : lexer)
    (h : skip_space eof fuel s = some s1) : skip_space eof (fuel + 1) s = some s1 := by
  unfold skip_space at h ⊢
  split at h
  · cases h
  · rename_i hw
    rw [while_current_mono _ _ _ _ _ _ _ hw]
    exact h

theorem read_string_mono (eof : Char) (fuel : Nat) :
    ∀ (s : lexer) (r : token × lexer),
      read_string eof fuel s = some r → read_string eof (fuel + 1) s = some r := by
  induction fuel with
  | zero => intro s r h; cases h
  | succ fuel ih =>
    intro s r h
    rw [read_string] at h ⊢
    split at h
    · cases h
    · rename_i hw
      rw [while_current_mono _ _ _ _ _ _ _ hw]
      simp only at h ⊢
      split at h
      · rename_i hc
        rw [if_pos hc]
        exact h
      · rename_i hc
        rw [if_neg hc]
        split at h
        · rename_i hc2
          rw [if_pos hc2]
          exact ih _ _ h
        · rename_i hc2
          rw [if_neg hc2]
          exact h

theorem next_token_mono (eof : Char) (fuel : Nat) :
    ∀ (s : lexer) (r : token × lexer),
      next_token eof fuel s = some r → next_token eof (fuel + 1) s = some r := by
  induction fuel with
  | zero => intro s r h; cases h
  | succ fuel ih =>
    intro s r h
    rw [next_token] at h ⊢
    split at h
    · rename_i hc
      rw [if_pos hc]
      exact h
    · rename_i hc
      rw [if_neg hc]
      split at h
      · rename_i hc2
        rw [if_pos hc2]
        exact read_string_mono _ _ _ _ h
      · rename_i hc2
        rw [if_neg hc2]
        split at h
        · rename_i hc3
          rw [if_pos hc3]
          exact read_identifier_mono _ _ _ _ h
        · rename_i hc3
          rw [if_neg hc3]
          split at h
          · rename_i hc4
            rw [if_pos hc4]
            exact read_integer_mono _ _ _ _ h
          · rename_i hc4
            rw [if_neg hc4]
            split at h
            · rename_i hc5
              rw [if_pos hc5]
              split at h
              · cases h
              · rename_i hsk
                rw [skip_space_mono _ _ _ _ hsk]
                exact ih _ _ h
            · rename_i hc5
              rw [if_neg hc5]
              split at h
              · exact h
              · exact read_unknown_mono _ _ _ _ h

theorem lex_loop_succ (eof : Char) (fuel : Nat) (s : lexer) (acc : List token) :
    lex_loop eof (fuel + 1) s acc
      = if s.current eof ≠ eof then
          match next_token eof (fuel + 1) s with
          | none => none
          | some (tok, s1) => lex_loop eof fuel s1 (acc ++ [tok])
        else some (acc, s) := rfl

theorem shift_token_zero : shift_token 0 = id := by
  funext t
  rfl

theorem space_head_ne_eof {eof : Char} (heof : eof = Char.ofNat 0) {w : List Char}
    (r : List Char) (hne : w ≠ []) (hw : ∀ c ∈ w, isspace c = true) :
    (w ++ r).headD eof ≠ eof := by
  obtain ⟨c, w0, rfl⟩ : ∃ c w0, w = c :: w0 := by
    cases w with
    | nil => exact absurd rfl hne
    | cons c w0 => exact ⟨c, w0, rfl⟩
  simp only [List.cons_append, List.headD_cons]
  intro hc
  have := hw c (by simp)
  subst heof
  rw [hc] at this
  exact absurd this (by decide)

/-- Whitespace in front of a non-empty input that does not start with the
sentinel only shifts the spans. -/
theorem lex_contents_leading_space (eof : Char) (heof : eof = Char.ofNat 0) (w s : List Char)
    (hwne : w ≠ []) (hw : ∀ c ∈ w, isspace c = true) (hs : s ≠ [])
    (hhead : s.headD eof ≠ eof) (n : Nat) (hn : (w ++ s).length < n) :
    lex_contents eof n (w ++ s)
      = (lex_contents eof n s).map (List.map (shift_token w.length)) := by
  have hwpos := List.length_pos.mpr hwne
  have hspos := List.length_pos.mpr hs
  simp only [List.length_append] at hn
  obtain ⟨k, rfl⟩ : ∃ k, n = k + 2 := ⟨n - 2, by omega⟩
  have hsplit := List.takeWhile_append_dropWhile isspace s
  have hu : ∀ c ∈ s.takeWhile isspace, isspace c = true := fun c hc =>
    List.mem_takeWhile_imp hc
  have hulen : (s.takeWhile isspace).length ≤ s.length :=
    (List.takeWhile_sublist isspace).length_le
  have hs'len : (s.dropWhile isspace).length ≤ s.length :=
    (List.dropWhile_sublist isspace).length_le
  have hs' : isspace ((s.dropWhile isspace).headD eof) = false := by
    cases hdw : s.dropWhile isspace with
    | nil => subst heof; decide
    | cons x xs =>
      have := List.head_dropWhile_not isspace s (by simp [hdw])
      simpa [hdw] using this
  -- the first call on `w ++ s`
  have hA : next_token eof (k + 2) (cursor [] (w ++ s) 0 [])
      = next_token eof (k + 1) (cursor (w ++ s.takeWhile isspace) (s.dropWhile isspace) 0 []) := by
    have h := next_token_skip eof heof (k + 1) [] (w ++ s.takeWhile isspace)
      (s.dropWhile isspace) 0 [] (by simp [hwne])
      (fun c hc => by
        rcases List.mem_append.mp hc with h | h
        · exact hw c h
        · exact hu c h) hs' (by simp only [List.length_append]; omega)
    rw [List.append_assoc, hsplit] at h
    exact h
  -- the first call on `s`
  have hB : next_token eof (k + 2) (cursor [] s 0 [])
      = next_token eof (k + 1) (cursor (s.takeWhile isspace) (s.dropWhile isspace) 0 []) := by
    by_cases hu0 : s.takeWhile isspace = []
    · have hd : s.dropWhile isspace = s := by
        have := hsplit; rw [hu0] at this; simpa using this
      rw [hu0, hd]
      obtain ⟨_, _, _, _, _, _, e3, _⟩ := next_token_scans eof heof (k + 1) [] s 0 [] (by omega)
      rw [e3]
      exact next_token_mono eof (k + 1) _ _ e3
    · have h := next_token_skip eof heof (k + 1) [] (s.takeWhile isspace)
        (s.dropWhile isspace) 0 [] hu0 hu hs' (by omega)
      rw [hsplit] at h
      exact h
  have hC : cursor (w ++ s.takeWhile isspace) (s.dropWhile isspace) 0 []
      = { shift_lexer w (cursor (s.takeWhile isspace) (s.dropWhile isspace) 0 []) with
          token_start := 0 } := by
    simp [cursor, shift_lexer, Nat.add_comm]
  have hD : next_token eof (k + 1)
        (cursor (w ++ s.takeWhile isspace) (s.dropWhile isspace) 0 [])
      = (next_token eof (k + 1)
          (cursor (s.takeWhile isspace) (s.dropWhile isspace) 0 [])).map (shift_result w) := by
    rw [hC]
    exact (next_token_token_start eof (k + 1)
      (shift_lexer w (cursor (s.takeWhile isspace) (s.dropWhile isspace) 0 [])) 0).trans
      (next_token_shift eof w (k + 1) _)
  rw [hD] at hA
  cases hR : next_token eof (k + 1)
      (cursor (s.takeWhile isspace) (s.dropWhile isspace) 0 []) with
  | none =>
    rw [hR] at hA hB
    unfold lex_contents
    rw [init_eq_cursor, init_eq_cursor, lex_loop_succ eof (k + 1) (cursor [] (w ++ s) 0 []) [],
      lex_loop_succ eof (k + 1) (cursor [] s 0 []) []]
    simp only [current_cursor]
    rw [if_pos (space_head_ne_eof heof s hwne hw), if_pos hhead, hA, hB]
    rfl
  | some p =>
    obtain ⟨tok, s1⟩ := p
    rw [hR] at hA hB
    have hL := lex_loop_shift eof w (k + 1) s1 [tok]
    unfold lex_contents
    rw [init_eq_cursor, init_eq_cursor, lex_loop_succ eof (k + 1) (cursor [] (w ++ s) 0 []) [],
      lex_loop_succ eof (k + 1) (cursor [] s 0 []) []]
    simp only [current_cursor]
    rw [if_pos (space_head_ne_eof heof s hwne hw), if_pos hhead, hA, hB]
    simp only [Option.map_some', shift_result, List.nil_append]
    simp only [List.map_cons, List.map_nil] at hL
    rw [hL]
    cases lex_loop eof (k + 1) s1 [tok] with
    | none => rfl
    | some q => rfl

/-- The test of `read_unknown`, as C++ parses it, is the intended rule "not
whitespace and not the sentinel" exactly when the sentinel is the zero
character. -/
theorem unknown_cond_intended_iff (eof : Char) :
    (∀ c, unknown_cond eof c = (!isspace c && c != eof)) ↔ eof = Char.ofNat 0 := by
  constructor
  · intro h
    by_contra h0
    have hz := toNat_ne_zero h0
    have hcond : ∀ c : Char, c.toNat ≠ 0 → unknown_cond eof c = false := by
      intro c hc
      simp only [unknown_cond, hc, if_false]
      simp only [Bool.and_eq_false_iff, beq_eq_false_iff_ne]
      right
      omega
    by_cases hat : eof = '@'
    · have h1 := h '#'
      rw [hcond '#' (by decide), hat] at h1
      exact absurd h1 (by decide)
    · have h1 := h '@'
      rw [hcond '@' (by decide)] at h1
      have h2 : ('@' != eof) = true := by
        simp only [bne_iff_ne, ne_eq]
        exact fun hh => hat hh.symm
      rw [h2] at h1
      exact absurd h1 (by decide)
  · intro h
    subst h
    exact unknown_cond_zero

/-- Two readings of `string_end`: in `\"b" c` the first quote follows one
backslash and the literal closes at offset 3; in `\\"b` the quote follows two
backslashes and closes the literal at offset 2. -/
theorem string_end_examples :
    string_end [chardefs.back_slash, chardefs.quote, 'b', chardefs.quote, ' ', 'c'] = some 3 ∧
    string_end [chardefs.back_slash, chardefs.back_slash, chardefs.quote, 'b'] = some 2 ∧
    string_end ['a', chardefs.back_slash] = none := by
  decide

end lexer

/-! ## The claims -/

/-- C1, evaluated on the code.  The claim says that every result of
`lex_contents` ends with exactly one end-of-input token, also for the empty
input and for inputs whose last character is not whitespace.  On the empty
input `lex_contents` returns the empty sequence and on the input `"x"` the
single identifier token; neither ends with an end-of-input token.  The driver
loop stops as soon as `current() == chardefs::eof` and never makes the call of
`next_token` that builds the token: made in the two states the driver stops
in, that call returns the end-of-input token, and on the input `"x "`, where
the call happens after the blank, the result does end with exactly one
end-of-input token.  The sentinel is the zero character. -/
theorem C1_driver_omits_eof_token :
    lexer.lex_contents (Char.ofNat 0) 1 [] = some [] ∧
    ¬ ends_with_single_eof ([] : List token) ∧
    lexer.lex_contents (Char.ofNat 0) 2 ['x'] = some [⟨token_type.identifier, 0, 1, ['x']⟩] ∧
    ¬ ends_with_single_eof [⟨token_type.identifier, 0, 1, ['x']⟩] ∧
    (lexer.next_token (Char.ofNat 0) 1 (lexer.init [])).map Prod.fst
      = some ⟨token_type.eof, 0, 0, []⟩ ∧
    (lexer.next_token (Char.ofNat 0) 2 (lexer.cursor ['x'] [] 0 [])).map Prod.fst
      = some ⟨token_type.eof, 1, 1, []⟩ ∧
    lexer.lex_contents (Char.ofNat 0) 3 ['x', ' ']
      = some [⟨token_type.identifier, 0, 1, ['x']⟩, ⟨token_type.eof, 2, 2, []⟩] ∧
    ends_with_single_eof [⟨token_type.identifier, 0, 1, ['x']⟩, ⟨token_type.eof, 2, 2, []⟩] := by
  refine ⟨?_, ?_, ?_, ?_, ?_, ?_, ?_, ?_⟩ <;> decide

/-- C2.  For every finite input `lex_contents` terminates: it returns a token
sequence for every amount of fuel exceeding the input length, after at most
`length(source) + 1` token-production steps (one token is pushed per step; in
fact at most `length(source)` are); and every call of `next_token` made while
the cursor is not at end-of-input returns with a strictly larger index.  The
sentinel is the zero character. -/
theorem C2_lexing_terminates (eof : Char) (heof : eof = Char.ofNat 0) (src : List Char)
    (fuel : Nat) (hf : src.length < fuel) :
    (∃ toks, lexer.lex_contents eof fuel src = some toks ∧
      toks.length ≤ src.length ∧ toks.length ≤ src.length + 1) ∧
    (∀ s : lexer, s.contents = src → s.current eof ≠ eof →
      ∃ tok s1, lexer.next_token eof fuel s = some (tok, s1) ∧ s.index < s1.index) := by
  constructor
  · obtain ⟨toks, h1, h2⟩ := lexer.lex_contents_lexed eof heof src fuel hf
    have := h2.length_le
    exact ⟨toks, h1, this, by omega⟩
  · intro s hs hcur
    have hidx : s.index ≤ s.contents.length := by
      by_contra hlt
      apply hcur
      unfold lexer.current
      rw [List.getD_eq_getElem?_getD, List.getElem?_eq_none (by omega)]
      rfl
    rw [lexer.eq_cursor s hidx] at hcur ⊢
    rw [lexer.current_cursor] at hcur
    have hlen : (s.contents.drop s.index).length < fuel := by
      rw [List.length_drop, hs]; omega
    obtain ⟨w, lx, rest2, ty, e1, e2, e3, e4, e5, e6⟩ :=
      lexer.next_token_scans eof heof fuel _ _ s.token_start s.buffer hlen
    refine ⟨_, _, e3, ?_⟩
    have hpos := List.length_pos.mpr (e4 hcur)
    simp only [lexer.cursor, List.length_append] at hpos ⊢
    omega

/-- Witness of C2 on the input `"a 1"`, with a scanner standing on the blank. -/
theorem C2_lexing_terminates_witness :
    (∃ toks, lexer.lex_contents (Char.ofNat 0) 4 ['a', ' ', '1'] = some toks ∧
      toks.length ≤ ['a', ' ', '1'].length ∧ toks.length ≤ ['a', ' ', '1'].length + 1) ∧
    (∃ tok s1, lexer.next_token (Char.ofNat 0) 4 ⟨['a', ' ', '1'], 1, 0, []⟩ = some (tok, s1) ∧
      1 < s1.index) :=
  ⟨(C2_lexing_terminates (Char.ofNat 0) rfl ['a', ' ', '1'] 4 (by decide)).1,
   (C2_lexing_terminates (Char.ofNat 0) rfl ['a', ' ', '1'] 4 (by decide)).2
     ⟨['a', ' ', '1'], 1, 0, []⟩ rfl (by decide)⟩

/-- C3, as amended.  For every input the spans of the tokens returned by
`lex_contents` are in increasing order and pairwise non-overlapping, every token
text is the source text of its span, and the gaps (before the first span,
between consecutive spans, after the last span) and token texts concatenated in
order give back the input; when the input does not contain the zero character,
every gap consists of whitespace only.  The sentinel is the zero character. -/
theorem C3_spans_cover_input (eof : Char) (heof : eof = Char.ofNat 0) (src : List Char)
    (fuel : Nat) (hf : src.length < fuel) :
    ∃ toks, lexer.lex_contents eof fuel src = some toks ∧
      toks.Pairwise (fun a b => a.start < b.start ∧ a.stop ≤ b.start) ∧
      (∀ t ∈ toks, t.start ≤ t.stop ∧ t.stop ≤ src.length ∧
        t.text = span_text src t.start t.stop) ∧
      (eof ∉ src → ∀ g ∈ gaps src 0 toks, ∀ c ∈ g, isspace c = true) ∧
      glue src 0 toks = src := by
  obtain ⟨toks, h1, h2⟩ := lexer.lex_contents_lexed eof heof src fuel hf
  obtain ⟨c1, c2, c3, c4⟩ := h2.coverage src rfl
  exact ⟨toks, h1, c1, fun t ht => (c2 t ht).2, c3, c4⟩

/-- Witness of C3 on the input `" a  1.5 "`, which contains no sentinel. -/
theorem C3_spans_cover_input_witness :
    ∃ toks, lexer.lex_contents (Char.ofNat 0) 9 [' ', 'a', ' ', ' ', '1', '.', '5', ' ']
        = some toks ∧
      toks.Pairwise (fun a b => a.start < b.start ∧ a.stop ≤ b.start) ∧
      (∀ t ∈ toks, t.start ≤ t.stop ∧
        t.stop ≤ [' ', 'a', ' ', ' ', '1', '.', '5', ' '].length ∧
        t.text = span_text [' ', 'a', ' ', ' ', '1', '.', '5', ' '] t.start t.stop) ∧
      (∀ g ∈ gaps [' ', 'a', ' ', ' ', '1', '.', '5', ' '] 0 toks, ∀ c ∈ g,
        isspace c = true) ∧
      glue [' ', 'a', ' ', ' ', '1', '.', '5', ' '] 0 toks
        = [' ', 'a', ' ', ' ', '1', '.', '5', ' '] := by
  obtain ⟨toks, h1, h2, h3, h4, h5⟩ :=
    C3_spans_cover_input (Char.ofNat 0) rfl [' ', 'a', ' ', ' ', '1', '.', '5', ' ']
      9 (by decide)
  exact ⟨toks, h1, h2, h3, h4 (by decide), h5⟩

/-- Counterexample to C3 as stated.  On the three-character input `a`, zero
character, `b` the result of `lex_contents` is the single identifier token `a`:
the driver loop takes the zero character for the end of the input.  The gap
after the last span is the zero character followed by `b`, which is not
whitespace. -/
theorem C3_counterexample :
    lexer.lex_contents (Char.ofNat 0) 4 ['a', Char.ofNat 0, 'b']
      = some [⟨token_type.identifier, 0, 1, ['a']⟩] ∧
    gaps ['a', Char.ofNat 0, 'b'] 0 [⟨token_type.identifier, 0, 1, ['a']⟩]
      = [[], [Char.ofNat 0, 'b']] ∧
    ¬ (∀ g ∈ gaps ['a', Char.ofNat 0, 'b'] 0 [⟨token_type.identifier, 0, 1, ['a']⟩],
        ∀ c ∈ g, isspace c = true) := by
  refine ⟨?_, ?_, ?_⟩ <;> decide

/-- C4.  Cursor invariant.  Let `src` be any input and `s` any scanner state
over `src` with `index <= length(src)`.  Then `next_token` returns with the
buffer unchanged, the index not decreased, and
`token_start <= index <= length(src)`; its token has
`start <= stop <= length(src)`.  The same holds after each reader
(`read_string`, `read_escaped`, `read_identifier`, `read_integer`,
`read_double`, `read_exponent`, `read_unknown`) entered with
`token_start <= index`.  As `consume()` and `next()` move the index by exactly
one, an index within bounds at the end means that none of them ran at or past
the end of the buffer.  Consequently every token emitted by `lex_contents`
satisfies `0 <= start <= stop <= length(src)`.  The sentinel is the zero
character. -/
theorem C4_cursor_invariant (eof : Char) (heof : eof = Char.ofNat 0) (src : List Char)
    (fuel : Nat) (hf : src.length < fuel) :
    (∀ s : lexer, s.contents = src → s.index ≤ src.length →
      keeps_cursor_invariant s (lexer.next_token eof fuel s) ∧
      (s.token_start ≤ s.index →
        keeps_cursor_invariant s (lexer.read_string eof fuel s) ∧
        keeps_cursor_invariant s (lexer.read_escaped eof fuel s) ∧
        keeps_cursor_invariant s (lexer.read_identifier eof fuel s) ∧
        keeps_cursor_invariant s (lexer.read_integer eof fuel s) ∧
        keeps_cursor_invariant s (lexer.read_double eof fuel s) ∧
        keeps_cursor_invariant s (lexer.read_exponent eof fuel s) ∧
        keeps_cursor_invariant s (lexer.read_unknown eof fuel s))) ∧
    (∃ toks, lexer.lex_contents eof fuel src = some toks ∧
      ∀ t ∈ toks, 0 ≤ t.start ∧ t.start ≤ t.stop ∧ t.stop ≤ src.length) := by
  constructor
  · intro s hs hidx
    obtain ⟨pre, rest, hcur, hpre, hlen⟩ := lexer.exists_cursor s src hs hidx fuel hf
    constructor
    · rw [hcur]
      exact (lexer.next_token_scans eof heof fuel pre rest _ _ hlen).scan_keeps _
    · intro hts
      rw [← hpre] at hts
      rw [hcur]
      exact ⟨(lexer.read_string_reads eof heof _ fuel pre rest _ hlen).reader_keeps hts,
        (lexer.read_escaped_reads eof heof pre rest _ _ fuel hlen).reader_keeps hts,
        (lexer.read_identifier_reads eof heof pre rest _ _ fuel hlen).reader_keeps hts,
        (lexer.read_integer_reads eof heof pre rest _ _ fuel hlen).reader_keeps hts,
        (lexer.read_double_reads eof heof pre rest _ _ fuel hlen).reader_keeps hts,
        (lexer.read_exponent_reads eof heof pre rest _ _ fuel hlen).reader_keeps hts,
        (lexer.read_unknown_reads eof pre rest _ _ fuel hlen).reader_keeps hts⟩
  · obtain ⟨toks, h1, h2⟩ := lexer.lex_contents_lexed eof heof src fuel hf
    obtain ⟨_, c2, _, _⟩ := h2.coverage src rfl
    exact ⟨toks, h1, fun t ht => ⟨Nat.zero_le _, (c2 t ht).2.1, (c2 t ht).2.2.1⟩⟩

/-- Witness of C4 on the input `"x+1"`, with a scanner standing on the `+`. -/
theorem C4_cursor_invariant_witness :
    (keeps_cursor_invariant ⟨['x', '+', '1'], 1, 0, []⟩
        (lexer.next_token (Char.ofNat 0) 4 ⟨['x', '+', '1'], 1, 0, []⟩) ∧
      keeps_cursor_invariant ⟨['x', '+', '1'], 1, 0, []⟩
        (lexer.read_unknown (Char.ofNat 0) 4 ⟨['x', '+', '1'], 1, 0, []⟩)) ∧
    (∃ toks, lexer.lex_contents (Char.ofNat 0) 4 ['x', '+', '1'] = some toks ∧
      ∀ t ∈ toks, 0 ≤ t.start ∧ t.start ≤ t.stop ∧ t.stop ≤ ['x', '+', '1'].length) :=
  ⟨⟨((C4_cursor_invariant (Char.ofNat 0) rfl ['x', '+', '1'] 4 (by decide)).1
        ⟨['x', '+', '1'], 1, 0, []⟩ rfl (by decide)).1,
     (((C4_cursor_invariant (Char.ofNat 0) rfl ['x', '+', '1'] 4 (by decide)).1
        ⟨['x', '+', '1'], 1, 0, []⟩ rfl (by decide)).2 (by decide)).2.2.2.2.2.2⟩,
   (C4_cursor_invariant (Char.ofNat 0) rfl ['x', '+', '1'] 4 (by decide)).2⟩

/-- C5.  A non-empty run of decimal digits `d` that is followed by the end of
the input or by a character other than a digit, `.` and lowercase `e` is read by
`next_token`, started at the beginning of `d`, as one token of kind integer
whose span is exactly `d` and whose text is `d`.  In particular the input
`"123"` lexes to the single integer token with text `123`.  The sentinel is the
zero character. -/
theorem C5_integer_literal (eof : Char) (heof : eof = Char.ofNat 0) (pre d r : List Char)
    (ts : Nat) (fuel : Nat) (hne : d ≠ []) (hd : ∀ c ∈ d, isdigit c = true)
    (hr : r = [] ∨ ∃ c r0, r = c :: r0 ∧ isdigit c = false ∧ c ≠ '.' ∧ c ≠ 'e')
    (hf : (d ++ r).length < fuel) :
    lexer.next_token eof fuel (lexer.cursor pre (d ++ r) ts [])
      = some (⟨token_type.integer, pre.length, pre.length + d.length, d⟩,
          lexer.cursor (pre ++ d) r pre.length []) ∧
    (∀ n, 3 < n → lexer.lex_contents eof n ['1', '2', '3']
      = some [⟨token_type.integer, 0, 3, ['1', '2', '3']⟩]) := by
  refine ⟨lexer.next_token_integer eof heof pre d r ts fuel hne hd hr hf, ?_⟩
  intro n hn
  have h := lexer.next_token_integer eof heof [] ['1', '2', '3'] [] 0 n (by simp)
    (by decide) (Or.inl rfl) (by simpa using hn)
  exact lexer.lex_contents_of_whole eof n ['1', '2', '3'] _ _ _ _ (by simpa using hn)
    (by subst heof; decide) h

/-- Witness of C5: the digits `42` followed by `E1` inside `x=42E1`. -/
theorem C5_integer_literal_witness :
    lexer.next_token (Char.ofNat 0) 5 (lexer.cursor ['x', '='] (['4', '2'] ++ ['E', '1']) 0 [])
      = some (⟨token_type.integer, ['x', '='].length, ['x', '='].length + ['4', '2'].length,
            ['4', '2']⟩,
          lexer.cursor (['x', '='] ++ ['4', '2']) ['E', '1'] ['x', '='].length []) ∧
    (∀ n, 3 < n → lexer.lex_contents (Char.ofNat 0) n ['1', '2', '3']
      = some [⟨token_type.integer, 0, 3, ['1', '2', '3']⟩]) :=
  C5_integer_literal (Char.ofNat 0) rfl ['x', '='] ['4', '2'] ['E', '1'] 0 5 (by decide)
    (by decide) (Or.inr ⟨'E', ['1'], rfl, by decide, by decide, by decide⟩) (by decide)

/-- C6.  For all non-empty digit runs `a` and `b`, the input `a.b` lexes to
exactly one token, of kind double precision, spanning the whole input, and the
input `a.bf` lexes to exactly one token, of kind single precision, spanning
the whole input; no end-of-input token follows.  The sentinel is the zero
character. -/
theorem C6_decimal_literal (eof : Char) (heof : eof = Char.ofNat 0) (a b : List Char)
    (hane : a ≠ []) (ha : ∀ c ∈ a, isdigit c = true) (hbne : b ≠ [])
    (hb : ∀ c ∈ b, isdigit c = true) (n : Nat) (hn : (a ++ ['.'] ++ b ++ ['f']).length < n) :
    lexer.lex_contents eof n (a ++ ['.'] ++ b)
      = some [⟨token_type.double_precision, 0, (a ++ ['.'] ++ b).length, a ++ ['.'] ++ b⟩] ∧
    lexer.lex_contents eof n (a ++ ['.'] ++ b ++ ['f'])
      = some [⟨token_type.single_precision, 0, (a ++ ['.'] ++ b ++ ['f']).length,
          a ++ ['.'] ++ b ++ ['f']⟩] := by
  simp only [List.length_append, List.length_cons, List.length_nil] at hn
  have e1 : a ++ ['.'] ++ b = a ++ '.' :: b := by simp
  have e2 : a ++ ['.'] ++ b ++ ['f'] = a ++ '.' :: (b ++ 'f' :: []) := by simp
  have e3 : a ++ '.' :: (b ++ ['f']) = a ++ '.' :: (b ++ 'f' :: []) := rfl
  constructor
  · have h := lexer.next_token_decimal eof heof [] a b 0 n hane ha hbne hb
      (by simp only [List.length_append]; omega)
    rw [e1]
    exact lexer.lex_contents_of_whole eof n _ _ _ _ _
      (by simp only [List.length_append, List.length_cons]; omega)
      (lexer.digits_head_ne_eof heof _ hane ha) h
  · have h := lexer.next_token_decimal_f eof heof [] a b [] 0 n hane ha hbne hb
      (by simp only [List.length_append]; omega)
    rw [e2]
    rw [e3] at h
    exact lexer.lex_contents_of_whole eof n _ _ _ _ _
      (by simp only [List.length_append, List.length_cons, List.length_nil]; omega)
      (lexer.digits_head_ne_eof heof _ hane ha) h

/-- Witness of C6 on the inputs `"123.45"` and `"123.45f"`. -/
theorem C6_decimal_literal_witness :
    lexer.lex_contents (Char.ofNat 0) 8 (['1', '2', '3'] ++ ['.'] ++ ['4', '5'])
      = some [⟨token_type.double_precision, 0, (['1', '2', '3'] ++ ['.'] ++ ['4', '5']).length,
          ['1', '2', '3'] ++ ['.'] ++ ['4', '5']⟩] ∧
    lexer.lex_contents (Char.ofNat 0) 8 (['1', '2', '3'] ++ ['.'] ++ ['4', '5'] ++ ['f'])
      = some [⟨token_type.single_precision, 0,
          (['1', '2', '3'] ++ ['.'] ++ ['4', '5'] ++ ['f']).length,
          ['1', '2', '3'] ++ ['.'] ++ ['4', '5'] ++ ['f']⟩] :=
  C6_decimal_literal (Char.ofNat 0) rfl ['1', '2', '3'] ['4', '5'] (by decide) (by decide)
    (by decide) (by decide) 8 (by decide)

/-- C7.  For all non-empty digit runs `a` and `x`, every optional mantissa
part `m` (empty, or a period followed by a non-empty digit run) and every
optional sign `sgn` (empty, `+` or `-`), the input `a m e sgn x` lexes to
exactly one token, of kind double precision, spanning the whole input, and the
same input followed by `f` lexes to exactly one token, of kind single
precision, spanning the whole input.  The sentinel is the zero character. -/
theorem C7_exponent_literal (eof : Char) (heof : eof = Char.ofNat 0) (a m sgn x : List Char)
    (hane : a ≠ []) (ha : ∀ c ∈ a, isdigit c = true) (hm : lexer.is_mantissa_opt m)
    (hs : lexer.is_sign_opt sgn) (hxne : x ≠ []) (hx : ∀ c ∈ x, isdigit c = true)
    (n : Nat) (hn : (a ++ m ++ ['e'] ++ sgn ++ x ++ ['f']).length < n) :
    lexer.lex_contents eof n (a ++ m ++ ['e'] ++ sgn ++ x)
      = some [⟨token_type.double_precision, 0, (a ++ m ++ ['e'] ++ sgn ++ x).length,
          a ++ m ++ ['e'] ++ sgn ++ x⟩] ∧
    lexer.lex_contents eof n (a ++ m ++ ['e'] ++ sgn ++ x ++ ['f'])
      = some [⟨token_type.single_precision, 0, (a ++ m ++ ['e'] ++ sgn ++ x ++ ['f']).length,
          a ++ m ++ ['e'] ++ sgn ++ x ++ ['f']⟩] := by
  simp only [List.length_append, List.length_cons, List.length_nil] at hn
  have e1 : a ++ m ++ ['e'] ++ sgn ++ x = a ++ (m ++ 'e' :: (sgn ++ x)) := by simp
  have e2 : a ++ m ++ ['e'] ++ sgn ++ x ++ ['f'] = a ++ (m ++ 'e' :: (sgn ++ (x ++ ['f']))) := by
    simp
  constructor
  · have hlen : (a ++ (m ++ 'e' :: (sgn ++ x))).length < n := by
      simp only [List.length_append, List.length_cons]; omega
    have h := lexer.next_token_exponent eof heof [] a m sgn x 0 n hane ha hm hs hxne hx hlen
    rw [e1]
    exact lexer.lex_contents_of_whole eof n _ _ _ _ _ hlen
      (lexer.digits_head_ne_eof heof _ hane ha) h
  · have hlen : (a ++ (m ++ 'e' :: (sgn ++ (x ++ ['f'])))).length < n := by
      simp only [List.length_append, List.length_cons, List.length_nil]; omega
    have h := lexer.next_token_exponent_f eof heof [] a m sgn x 0 n hane ha hm hs hxne hx hlen
    rw [e2]
    exact lexer.lex_contents_of_whole eof n _ _ _ _ _ hlen
      (lexer.digits_head_ne_eof heof _ hane ha) h

/-- Witness of C7 on the inputs `"1e+10"` and `"1e+10f"`. -/
theorem C7_exponent_literal_witness :
    lexer.lex_contents (Char.ofNat 0) 7 (['1'] ++ [] ++ ['e'] ++ ['+'] ++ ['1', '0'])
      = some [⟨token_type.double_precision, 0,
          (['1'] ++ [] ++ ['e'] ++ ['+'] ++ ['1', '0']).length,
          ['1'] ++ [] ++ ['e'] ++ ['+'] ++ ['1', '0']⟩] ∧
    lexer.lex_contents (Char.ofNat 0) 7 (['1'] ++ [] ++ ['e'] ++ ['+'] ++ ['1', '0'] ++ ['f'])
      = some [⟨token_type.single_precision, 0,
          (['1'] ++ [] ++ ['e'] ++ ['+'] ++ ['1', '0'] ++ ['f']).length,
          ['1'] ++ [] ++ ['e'] ++ ['+'] ++ ['1', '0'] ++ ['f']⟩] :=
  C7_exponent_literal (Char.ofNat 0) rfl ['1'] [] ['+'] ['1', '0'] (by decide) (by decide)
    (Or.inl rfl) (by decide) (by decide) (by decide) 7 (by decide)

/-- C8.  A malformed numeric literal is surfaced as a token of kind invalid
(hence never as integer, double precision or single precision).  For every
non-empty digit run `a`, the token that `next_token` produces at the start of
`a` is invalid when (i) the period after `a` is followed by no mantissa digit,
(ii) a non-empty mantissa `b` is followed by a second period, or (iii) the
`e`, reached through an optional mantissa `m` and followed by an optional sign
`sgn`, is followed by no exponent digit.  The listed examples `1.`, `1..`,
`1.2.3`, `1e`, `1e+`, `1.5e-` each lex to a single invalid token.  The sentinel
is the zero character. -/
theorem C8_malformed_numeric_invalid (eof : Char) (heof : eof = Char.ofNat 0)
    (pre a : List Char) (ts : Nat) (n : Nat) (hane : a ≠ [])
    (ha : ∀ c ∈ a, isdigit c = true) :
    (∀ r, (∀ c, r.head? = some c → isdigit c = false) → (a ++ '.' :: r).length < n →
      ∃ tok s1, lexer.next_token eof n (lexer.cursor pre (a ++ '.' :: r) ts [])
          = some (tok, s1) ∧
        tok.type = token_type.invalid ∧ tok.start = pre.length) ∧
    (∀ b r, b ≠ [] → (∀ c ∈ b, isdigit c = true) → (a ++ '.' :: (b ++ '.' :: r)).length < n →
      ∃ tok s1, lexer.next_token eof n (lexer.cursor pre (a ++ '.' :: (b ++ '.' :: r)) ts [])
          = some (tok, s1) ∧
        tok.type = token_type.invalid ∧ tok.start = pre.length) ∧
    (∀ m sgn r, lexer.is_mantissa_opt m → lexer.is_sign_opt sgn →
      (∀ c, r.head? = some c → isdigit c = false ∧ (sgn = [] → c ≠ '+' ∧ c ≠ '-')) →
      (a ++ (m ++ 'e' :: (sgn ++ r))).length < n →
      ∃ tok s1, lexer.next_token eof n (lexer.cursor pre (a ++ (m ++ 'e' :: (sgn ++ r))) ts [])
          = some (tok, s1) ∧
        tok.type = token_type.invalid ∧ tok.start = pre.length) ∧
    (∀ ex ∈ [['1', '.'], ['1', '.', '.'], ['1', '.', '2', '.', '3'], ['1', 'e'],
        ['1', 'e', '+'], ['1', '.', '5', 'e', '-']],
      (lexer.lex_contents eof 7 ex).map (List.map token.type) = some [token_type.invalid]) := by
  refine ⟨?_, ?_, ?_, ?_⟩
  · intro r hr hf
    exact lexer.next_token_no_mantissa eof heof pre a r ts n hane ha hr hf
  · intro b r hbne hb hf
    exact lexer.next_token_second_period eof heof pre a b r ts n hane ha hbne hb hf
  · intro m sgn r hm hs hr hf
    exact lexer.next_token_no_exponent eof heof pre a m sgn r ts n hane ha hm hs hr hf
  · subst heof
    decide

/-- Witness of C8 at the digit run `12` after `x=`, for the inputs `x=12.`,
`x=12.3.4` and `x=12.5e-`. -/
theorem C8_malformed_numeric_invalid_witness :
    (∃ tok s1, lexer.next_token (Char.ofNat 0) 9
        (lexer.cursor ['x', '='] (['1', '2'] ++ '.' :: []) 0 []) = some (tok, s1) ∧
      tok.type = token_type.invalid ∧ tok.start = ['x', '='].length) ∧
    (∃ tok s1, lexer.next_token (Char.ofNat 0) 9
        (lexer.cursor ['x', '='] (['1', '2'] ++ '.' :: (['3'] ++ '.' :: ['4'])) 0 [])
        = some (tok, s1) ∧
      tok.type = token_type.invalid ∧ tok.start = ['x', '='].length) ∧
    (∃ tok s1, lexer.next_token (Char.ofNat 0) 9
        (lexer.cursor ['x', '='] (['1', '2'] ++ (['.', '5'] ++ 'e' :: (['-'] ++ []))) 0 [])
        = some (tok, s1) ∧
      tok.type = token_type.invalid ∧ tok.start = ['x', '='].length) :=
  ⟨(C8_malformed_numeric_invalid (Char.ofNat 0) rfl ['x', '='] ['1', '2'] 0 9 (by decide)
      (by decide)).1 [] (by simp) (by decide),
   (C8_malformed_numeric_invalid (Char.ofNat 0) rfl ['x', '='] ['1', '2'] 0 9 (by decide)
      (by decide)).2.1 ['3'] ['4'] (by decide) (by decide) (by decide),
   (C8_malformed_numeric_invalid (Char.ofNat 0) rfl ['x', '='] ['1', '2'] 0 9 (by decide)
      (by decide)).2.2.1 ['.', '5'] ['-'] [] (by decide)
      (by decide) (by simp) (by decide)⟩

/-- C9.  For every non-empty input `w` made only of ASCII letters, digits and
underscores whose first character is a letter or an underscore, lexing `w`
yields exactly one token, spanning all of `w`; its kind is keyword when `w` is
(case-sensitively) one of the eighteen keywords and identifier otherwise.  So
`return` is a keyword while `Return`, `foo_bar2` and `intx` are identifiers.
The sentinel is the zero character. -/
theorem C9_identifier_or_keyword (eof : Char) (heof : eof = Char.ofNat 0) (w : List Char)
    (hne : w ≠ []) (hall : ∀ c ∈ w, isalnum c = true ∨ c = '_')
    (hfirst : ∀ c, w.head? = some c → isalpha c = true ∨ c = '_')
    (n : Nat) (hn : w.length < n) :
    lexer.lex_contents eof n w
      = some [⟨if w ∈ spec_keywords then token_type.keyword else token_type.identifier,
          0, w.length, w⟩] ∧
    (lexer.lex_contents eof 9 "return".toList).map (List.map token.type)
      = some [token_type.keyword] ∧
    (∀ ex ∈ ["Return".toList, "foo_bar2".toList, "intx".toList],
      (lexer.lex_contents eof 9 ex).map (List.map token.type) = some [token_type.identifier]) := by
  refine ⟨?_, ?_, ?_⟩
  · have h := lexer.next_token_identifier eof heof [] w 0 n hne hall hfirst hn
    have hhead : w.headD eof ≠ eof := by
      cases w with
      | nil => exact absurd rfl hne
      | cons c w0 =>
        simp only [List.headD_cons]
        intro hc
        subst heof
        rcases hfirst c rfl with h1 | h1
        · rw [hc] at h1; exact absurd h1 (by decide)
        · rw [hc] at h1; exact absurd h1 (by decide)
    exact lexer.lex_contents_of_whole eof n w _ _ _ _ hn hhead h
  · subst heof; decide
  · subst heof; decide

/-- Witness of C9 on the input `while`. -/
theorem C9_identifier_or_keyword_witness :
    lexer.lex_contents (Char.ofNat 0) 6 ['w', 'h', 'i', 'l', 'e']
      = some [⟨if ['w', 'h', 'i', 'l', 'e'] ∈ spec_keywords then token_type.keyword
          else token_type.identifier, 0, ['w', 'h', 'i', 'l', 'e'].length,
          ['w', 'h', 'i', 'l', 'e']⟩] ∧
    (lexer.lex_contents (Char.ofNat 0) 9 "return".toList).map (List.map token.type)
      = some [token_type.keyword] ∧
    (∀ ex ∈ ["Return".toList, "foo_bar2".toList, "intx".toList],
      (lexer.lex_contents (Char.ofNat 0) 9 ex).map (List.map token.type)
        = some [token_type.identifier]) :=
  C9_identifier_or_keyword (Char.ofNat 0) rfl ['w', 'h', 'i', 'l', 'e'] (by decide)
    (by decide) (by decide) 6 (by decide)

/-- C10, as amended.  For every body `b` containing no quote character, no
backslash and no zero character, the input made of a quote, `b` and a closing
quote lexes to exactly one token, of kind string, whose span covers the whole
input including both quote characters.  The sentinel is the zero character. -/
theorem C10_string_literal (eof : Char) (heof : eof = Char.ofNat 0) (b : List Char)
    (hb : ∀ c ∈ b, c ≠ chardefs.quote ∧ c ≠ chardefs.back_slash ∧ c ≠ eof)
    (n : Nat) (hn : (chardefs.quote :: (b ++ [chardefs.quote])).length < n) :
    lexer.lex_contents eof n (chardefs.quote :: (b ++ [chardefs.quote]))
      = some [⟨token_type.string, 0, (chardefs.quote :: (b ++ [chardefs.quote])).length,
          chardefs.quote :: (b ++ [chardefs.quote])⟩] := by
  have h := lexer.next_token_string eof heof [] b [] 0 n hb hn
  exact lexer.lex_contents_of_whole eof n _ _ _ _ _ hn
    (by subst heof; simp only [List.headD_cons]; decide) h

/-- Witness of C10 on the five-character input made of `abc` between quotes. -/
theorem C10_string_literal_witness :
    lexer.lex_contents (Char.ofNat 0) 6 (chardefs.quote :: (['a', 'b', 'c'] ++ [chardefs.quote]))
      = some [⟨token_type.string, 0,
          (chardefs.quote :: (['a', 'b', 'c'] ++ [chardefs.quote])).length,
          chardefs.quote :: (['a', 'b', 'c'] ++ [chardefs.quote])⟩] :=
  C10_string_literal (Char.ofNat 0) rfl ['a', 'b', 'c'] (by decide) 6 (by decide)

/-- Counterexample to C10 as stated.  The body `a`, zero character, `b` contains
no quote and no backslash, yet the input made of a quote, this body and a
closing quote lexes to one token of kind invalid with span 0..2: `read_string`
takes the zero character for the end of the input. -/
theorem C10_counterexample :
    (∀ c ∈ ['a', Char.ofNat 0, 'b'], c ≠ chardefs.quote ∧ c ≠ chardefs.back_slash) ∧
    lexer.lex_contents (Char.ofNat 0) 6
        (chardefs.quote :: (['a', Char.ofNat 0, 'b'] ++ [chardefs.quote]))
      = some [⟨token_type.invalid, 0, 2, [chardefs.quote, 'a']⟩] ∧
    lexer.lex_contents (Char.ofNat 0) 6
        (chardefs.quote :: (['a', Char.ofNat 0, 'b'] ++ [chardefs.quote]))
      ≠ some [⟨token_type.string, 0,
          (chardefs.quote :: (['a', Char.ofNat 0, 'b'] ++ [chardefs.quote])).length,
          chardefs.quote :: (['a', Char.ofNat 0, 'b'] ++ [chardefs.quote])⟩] := by
  refine ⟨?_, ?_, ?_⟩ <;> decide

/-- C11, as amended.  For every body `b` containing no quote character and no
zero character, the input made of an opening quote followed by `b` lexes to
exactly one token, of kind invalid, whose span runs from the opening quote to
the end of the input; no string token is produced.  The sentinel is the zero
character. -/
theorem C11_unterminated_string (eof : Char) (heof : eof = Char.ofNat 0) (b : List Char)
    (hq : ∀ c ∈ b, c ≠ chardefs.quote) (hs : eof ∉ b) (n : Nat)
    (hn : (chardefs.quote :: b).length < n) :
    lexer.lex_contents eof n (chardefs.quote :: b)
      = some [⟨token_type.invalid, 0, (chardefs.quote :: b).length, chardefs.quote :: b⟩] := by
  have h := lexer.next_token_string_scan eof heof [] b 0 n hs hn
  have hout : string_outcome ([] ++ [chardefs.quote]) b ([] : List Char).length [chardefs.quote]
      = (⟨token_type.invalid, 0, (chardefs.quote :: b).length, chardefs.quote :: b⟩,
          lexer.cursor (chardefs.quote :: b) [] 0 []) := by
    simp [string_outcome, lexer.string_scan_no_quote b hq]
  rw [hout] at h
  exact lexer.lex_contents_of_whole eof n _ _ _ _ _ hn
    (by subst heof; simp only [List.headD_cons]; decide) h

/-- Witness of C11 on the input made of a quote followed by `un\t d`. -/
theorem C11_unterminated_string_witness :
    lexer.lex_contents (Char.ofNat 0) 8
        (chardefs.quote :: ['u', 'n', chardefs.back_slash, 't', ' ', 'd'])
      = some [⟨token_type.invalid, 0,
          (chardefs.quote :: ['u', 'n', chardefs.back_slash, 't', ' ', 'd']).length,
          chardefs.quote :: ['u', 'n', chardefs.back_slash, 't', ' ', 'd']⟩] :=
  C11_unterminated_string (Char.ofNat 0) rfl ['u', 'n', chardefs.back_slash, 't', ' ', 'd']
    (by decide) (by decide) 8 (by decide)

/-- Counterexample to C11 as stated.  The body `a`, zero character, `b` contains
no quote, yet on the four-character input made of a quote and this body the
one token, of kind invalid, has span 0..2 and does not run to the end of the
input: `read_string` takes the zero character for the end of the input. -/
theorem C11_counterexample :
    (∀ c ∈ ['a', Char.ofNat 0, 'b'], c ≠ chardefs.quote) ∧
    lexer.lex_contents (Char.ofNat 0) 5 (chardefs.quote :: ['a', Char.ofNat 0, 'b'])
      = some [⟨token_type.invalid, 0, 2, [chardefs.quote, 'a']⟩] ∧
    (chardefs.quote :: ['a', Char.ofNat 0, 'b']).length = 4 ∧
    lexer.lex_contents (Char.ofNat 0) 5 (chardefs.quote :: ['a', Char.ofNat 0, 'b'])
      ≠ some [⟨token_type.invalid, 0, (chardefs.quote :: ['a', Char.ofNat 0, 'b']).length,
          chardefs.quote :: ['a', Char.ofNat 0, 'b']⟩] := by
  refine ⟨?_, ?_, ?_, ?_⟩ <;> decide

/-- C12, as amended.  For all `x` and `y` containing no quote, no backslash and
no zero character, and for every character `c` other than the zero character,
recognised escape or not, the input `quote x backslash c y quote` lexes to
exactly one token, of kind string, spanning the whole input.  The sentinel is
the zero character. -/
theorem C12_string_with_escape (eof : Char) (heof : eof = Char.ofNat 0) (x y : List Char)
    (c : Char)
    (hx : ∀ d ∈ x, d ≠ chardefs.quote ∧ d ≠ chardefs.back_slash ∧ d ≠ eof)
    (hy : ∀ d ∈ y, d ≠ chardefs.quote ∧ d ≠ chardefs.back_slash ∧ d ≠ eof)
    (hc : c ≠ eof) (n : Nat)
    (hn : (chardefs.quote :: (x ++ chardefs.back_slash :: c :: (y ++ [chardefs.quote]))).length
      < n) :
    lexer.lex_contents eof n
        (chardefs.quote :: (x ++ chardefs.back_slash :: c :: (y ++ [chardefs.quote])))
      = some [⟨token_type.string, 0,
          (chardefs.quote :: (x ++ chardefs.back_slash :: c :: (y ++ [chardefs.quote]))).length,
          chardefs.quote :: (x ++ chardefs.back_slash :: c :: (y ++ [chardefs.quote]))⟩] := by
  have hmem : eof ∉ x ++ chardefs.back_slash :: c :: (y ++ [chardefs.quote]) := by
    have h1 : chardefs.back_slash ≠ eof := by subst heof; decide
    have h2 : chardefs.quote ≠ eof := by subst heof; decide
    intro h
    simp only [List.mem_append, List.mem_cons, List.mem_singleton, List.not_mem_nil,
      or_false] at h
    rcases h with h | h | h | h | h
    · exact (hx eof h).2.2 rfl
    · exact h1 h.symm
    · exact hc h.symm
    · exact (hy eof h).2.2 rfl
    · exact h2 h.symm
  have h := lexer.next_token_string_scan eof heof [] _ 0 n hmem hn
  have hscan := lexer.string_scan_one_escape x y c (fun d hd => ⟨(hx d hd).1, (hx d hd).2.1⟩)
    (fun d hd => ⟨(hy d hd).1, (hy d hd).2.1⟩)
  have hout : string_outcome ([] ++ [chardefs.quote])
        (x ++ chardefs.back_slash :: c :: (y ++ [chardefs.quote]))
        ([] : List Char).length [chardefs.quote]
      = (⟨token_type.string, 0,
          (chardefs.quote :: (x ++ chardefs.back_slash :: c :: (y ++ [chardefs.quote]))).length,
          chardefs.quote :: (x ++ chardefs.back_slash :: c :: (y ++ [chardefs.quote]))⟩,
          lexer.cursor
            (chardefs.quote :: (x ++ chardefs.back_slash :: c :: (y ++ [chardefs.quote])))
            [] 0 []) := by
    unfold string_outcome
    rw [hscan]
    simp only [List.take_length, List.drop_length]
    simp
  rw [hout] at h
  exact lexer.lex_contents_of_whole eof n _ _ _ _ _ hn
    (by subst heof; simp only [List.headD_cons]; decide) h

/-- Witness of C12 on the input `"a\nb"`: a backslash followed by the letter `n`. -/
theorem C12_string_with_escape_witness :
    lexer.lex_contents (Char.ofNat 0) 7
        (chardefs.quote :: (['a'] ++ chardefs.back_slash :: 'n' :: (['b'] ++ [chardefs.quote])))
      = some [⟨token_type.string, 0,
          (chardefs.quote ::
            (['a'] ++ chardefs.back_slash :: 'n' :: (['b'] ++ [chardefs.quote]))).length,
          chardefs.quote ::
            (['a'] ++ chardefs.back_slash :: 'n' :: (['b'] ++ [chardefs.quote]))⟩] :=
  C12_string_with_escape (Char.ofNat 0) rfl ['a'] ['b'] 'n' (by decide) (by decide)
    (by decide) 7 (by decide)

/-- Counterexample to C12 as stated.  With `x = a`, `y = b` and `c` the zero
character, the input `quote a backslash c b quote` lexes to one token of kind
invalid with span 0..3: `read_escaped` does not consume the zero character and
`read_string` then takes it for the end of the input. -/
theorem C12_counterexample :
    (∀ d ∈ ['a'], d ≠ chardefs.quote ∧ d ≠ chardefs.back_slash) ∧
    (∀ d ∈ ['b'], d ≠ chardefs.quote ∧ d ≠ chardefs.back_slash) ∧
    lexer.lex_contents (Char.ofNat 0) 7
        (chardefs.quote ::
          (['a'] ++ chardefs.back_slash :: Char.ofNat 0 :: (['b'] ++ [chardefs.quote])))
      = some [⟨token_type.invalid, 0, 3, [chardefs.quote, 'a', chardefs.back_slash]⟩] ∧
    lexer.lex_contents (Char.ofNat 0) 7
        (chardefs.quote ::
          (['a'] ++ chardefs.back_slash :: Char.ofNat 0 :: (['b'] ++ [chardefs.quote])))
      ≠ some [⟨token_type.string, 0,
          (chardefs.quote ::
            (['a'] ++ chardefs.back_slash :: Char.ofNat 0 :: (['b'] ++ [chardefs.quote]))).length,
          chardefs.quote ::
            (['a'] ++ chardefs.back_slash :: Char.ofNat 0 :: (['b'] ++ [chardefs.quote]))⟩] := by
  refine ⟨?_, ?_, ?_, ?_⟩ <;> decide

/-- C13.  When the first character `c` of a token matches no dispatch rule (it is
not the sentinel, a quote, a letter, an underscore, a digit, whitespace or one
of the fourteen punctuation characters), `next_token` returns one token of kind
invalid whose span is exactly the maximal run of characters that are neither
whitespace nor the sentinel: the loop test of `read_unknown` is the rule
"consume while not whitespace and not end-of-input".  In particular the input
`@@@` yields a single invalid token covering all three characters.  The
sentinel is the zero character. -/
theorem C13_unknown_run (eof : Char) (heof : eof = Char.ofNat 0) (pre : List Char) (c : Char)
    (r : List Char) (ts : Nat) (n : Nat) (h1 : c ≠ eof) (h2 : c ≠ chardefs.quote)
    (h3 : isalpha c = false) (h3u : c ≠ chardefs.underscore) (h4 : isdigit c = false)
    (h5 : isspace c = false) (h6 : lexer.punctuation c = none) (hn : (c :: r).length < n) :
    lexer.next_token eof n (lexer.cursor pre (c :: r) ts [])
      = some (⟨token_type.invalid, pre.length,
            pre.length + ((c :: r).takeWhile (fun x => !isspace x && x != eof)).length,
            (c :: r).takeWhile (fun x => !isspace x && x != eof)⟩,
          lexer.cursor (pre ++ (c :: r).takeWhile (fun x => !isspace x && x != eof))
            ((c :: r).dropWhile (fun x => !isspace x && x != eof)) pre.length []) ∧
    (∀ x, lexer.unknown_cond eof x = (!isspace x && x != eof)) ∧
    (∀ m, 3 < m → lexer.lex_contents eof m ['@', '@', '@']
      = some [⟨token_type.invalid, 0, 3, ['@', '@', '@']⟩]) := by
  subst heof
  have key : ∀ (pre : List Char) (c : Char) (r : List Char) (ts n : Nat),
      c ≠ Char.ofNat 0 → c ≠ chardefs.quote → isalpha c = false → c ≠ chardefs.underscore →
      isdigit c = false → isspace c = false → lexer.punctuation c = none →
      (c :: r).length < n →
      lexer.next_token (Char.ofNat 0) n (lexer.cursor pre (c :: r) ts [])
        = some (⟨token_type.invalid, pre.length,
            pre.length
              + ((c :: r).takeWhile (fun x => !isspace x && x != Char.ofNat 0)).length,
            (c :: r).takeWhile (fun x => !isspace x && x != Char.ofNat 0)⟩,
          lexer.cursor (pre ++ (c :: r).takeWhile (fun x => !isspace x && x != Char.ofNat 0))
            ((c :: r).dropWhile (fun x => !isspace x && x != Char.ofNat 0)) pre.length []) := by
    intro pre c r ts n h1 h2 h3 h3u h4 h5 h6 hn
    obtain ⟨k, rfl⟩ : ∃ k, n = k + 1 := ⟨n - 1, by omega⟩
    rw [lexer.next_token_eq_read_unknown (Char.ofNat 0) k pre c r ts [] h1 h2
        (by simp [h3, h3u]) h4 h5 h6,
      lexer.read_unknown_eq (Char.ofNat 0) pre (c :: r) pre.length [] (k + 1) hn,
      lexer.unknown_cond_zero_fun]
    simp
  refine ⟨key pre c r ts n h1 h2 h3 h3u h4 h5 h6 hn, lexer.unknown_cond_zero, ?_⟩
  intro m hm
  have h := key [] '@' ['@', '@'] 0 m (by decide) (by decide) (by decide) (by decide)
    (by decide) (by decide) (by decide) (by simpa using hm)
  have e1 : (['@', '@', '@'].takeWhile (fun x => !isspace x && x != Char.ofNat 0))
      = ['@', '@', '@'] := by decide
  have e2 : (['@', '@', '@'].dropWhile (fun x => !isspace x && x != Char.ofNat 0)) = [] := by
    decide
  rw [e1, e2] at h
  exact lexer.lex_contents_of_whole (Char.ofNat 0) m ['@', '@', '@'] _ _ _ _
    (by simpa using hm) (by decide) h

/-- Witness of C13 on the input `x=#a$ 1`, at the character `#`. -/
theorem C13_unknown_run_witness :
    lexer.next_token (Char.ofNat 0) 6 (lexer.cursor ['x', '='] ('#' :: ['a', '$', ' ', '1']) 0 [])
      = some (⟨token_type.invalid, ['x', '='].length,
            ['x', '='].length
              + (('#' :: ['a', '$', ' ', '1']).takeWhile
                  (fun x => !isspace x && x != Char.ofNat 0)).length,
            ('#' :: ['a', '$', ' ', '1']).takeWhile (fun x => !isspace x && x != Char.ofNat 0)⟩,
          lexer.cursor
            (['x', '='] ++ ('#' :: ['a', '$', ' ', '1']).takeWhile
              (fun x => !isspace x && x != Char.ofNat 0))
            (('#' :: ['a', '$', ' ', '1']).dropWhile
              (fun x => !isspace x && x != Char.ofNat 0)) ['x', '='].length []) ∧
    (∀ x, lexer.unknown_cond (Char.ofNat 0) x = (!isspace x && x != Char.ofNat 0)) ∧
    (∀ m, 3 < m → lexer.lex_contents (Char.ofNat 0) m ['@', '@', '@']
      = some [⟨token_type.invalid, 0, 3, ['@', '@', '@']⟩]) :=
  C13_unknown_run (Char.ofNat 0) rfl ['x', '='] '#' ['a', '$', ' ', '1'] 0 6 (by decide)
    (by decide) (by decide) (by decide) (by decide) (by decide) (by decide) (by decide)

/-- C14.  For every non-empty input consisting only of whitespace characters,
`lex_contents` returns exactly one token: an end-of-input token with an empty
span located at offset `length(source)`.  The sentinel is the zero character. -/
theorem C14_whitespace_only (eof : Char) (heof : eof = Char.ofNat 0) (w : List Char)
    (hne : w ≠ []) (hw : ∀ c ∈ w, isspace c = true) (n : Nat) (hn : w.length < n) :
    lexer.lex_contents eof n w = some [⟨token_type.eof, w.length, w.length, []⟩] := by
  have hpos := List.length_pos.mpr hne
  obtain ⟨k, rfl⟩ : ∃ k, n = k + 2 := ⟨n - 2, by omega⟩
  have hE : isspace (([] : List Char).headD eof) = false := by subst heof; decide
  have h1 := lexer.next_token_skip eof heof (k + 1) [] w [] 0 [] hne hw hE (by omega)
  rw [List.append_nil, lexer.next_token_at_end] at h1
  have hhead : w.headD eof ≠ eof := by
    cases w with
    | nil => exact absurd rfl hne
    | cons c w0 =>
      simp only [List.headD_cons]
      intro hc
      have := hw c (by simp)
      subst heof
      rw [hc] at this
      exact absurd this (by decide)
  simp only [List.nil_append, List.length_nil] at h1
  exact lexer.lex_contents_of_whole eof (k + 2) w _ _ _ _ hn hhead h1

/-- Witness of C14 on the input made of a blank, a tab and a newline. -/
theorem C14_whitespace_only_witness :
    lexer.lex_contents (Char.ofNat 0) 4 [' ', Char.ofNat 9, Char.ofNat 10]
      = some [⟨token_type.eof, [' ', Char.ofNat 9, Char.ofNat 10].length,
          [' ', Char.ofNat 9, Char.ofNat 10].length, []⟩] :=
  C14_whitespace_only (Char.ofNat 0) rfl [' ', Char.ofNat 9, Char.ofNat 10] (by decide)
    (by decide) 4 (by decide)

/-- C15.  For each of the fourteen punctuation characters `+ - * / ( ) { } < >
[ ] , ;` and for every remaining input `r`, `next_token` started at that
character returns a token whose span is exactly that one character and whose
kind is the corresponding one; the fourteen characters and the fourteen kinds
are pairwise distinct; and no token of a punctuation kind, produced from any
state, is longer than one character.  The sentinel is the zero character. -/
theorem C15_punctuation_tokens (eof : Char) (heof : eof = Char.ofNat 0) (pre r : List Char)
    (ts : Nat) (n : Nat) (hn : 0 < n) :
    (∀ p ∈ punctuation_table,
      lexer.next_token eof n (lexer.cursor pre (p.1 :: r) ts [])
        = some (⟨p.2, pre.length, pre.length + 1, [p.1]⟩,
            lexer.cursor (pre ++ [p.1]) r pre.length [])) ∧
    punctuation_table.length = 14 ∧
    (punctuation_table.map Prod.fst).Nodup ∧
    (punctuation_table.map Prod.snd).Nodup ∧
    (∀ (s : lexer) (tok : token) (s1 : lexer), lexer.next_token eof n s = some (tok, s1) →
      tok.type ∈ punctuation_table.map Prod.snd → tok.stop = tok.start + 1) := by
  obtain ⟨k, rfl⟩ : ∃ k, n = k + 1 := ⟨n - 1, by omega⟩
  refine ⟨?_, by decide, by decide, by decide, lexer.next_token_punctuation_width eof (k + 1)⟩
  intro p hp
  have h := lexer.next_token_punctuation eof heof k pre p.1 p.2 r ts [] hp
  simpa using h

/-- Witness of C15 at the `(` of `f(x)`, with one unit of fuel. -/
theorem C15_punctuation_tokens_witness :
    (∀ p ∈ punctuation_table,
      lexer.next_token (Char.ofNat 0) 1 (lexer.cursor ['f'] (p.1 :: ['x', ')']) 0 [])
        = some (⟨p.2, ['f'].length, ['f'].length + 1, [p.1]⟩,
            lexer.cursor (['f'] ++ [p.1]) ['x', ')'] ['f'].length [])) ∧
    punctuation_table.length = 14 ∧
    (punctuation_table.map Prod.fst).Nodup ∧
    (punctuation_table.map Prod.snd).Nodup ∧
    (∀ (s : lexer) (tok : token) (s1 : lexer),
      lexer.next_token (Char.ofNat 0) 1 s = some (tok, s1) →
      tok.type ∈ punctuation_table.map Prod.snd → tok.stop = tok.start + 1) :=
  C15_punctuation_tokens (Char.ofNat 0) rfl ['f'] ['x', ')'] 0 1 (by decide)

/-- C16.  The float-suffix state consumes nothing and always emits single
precision: `read_float` leaves the index where it is and builds a
single-precision token ending there.  Hence for every numeric prefix that
reaches the Double state (`a.b`) or the Exponent state (`a e x`, `a.b e x`, with
an optional exponent sign) with at least one digit, and for every remaining
input `r`, the token starting at the prefix followed by `f` and `r` is of kind
single precision and its span ends immediately after that `f`, whatever `r`
starts with; `1.5fx` gives the single-precision token `1.5f` followed by the
identifier `x`.  The sentinel is the zero character. -/
theorem C16_float_suffix (eof : Char) (heof : eof = Char.ofNat 0) (pre a r : List Char)
    (ts : Nat) (n : Nat) (hane : a ≠ []) (ha : ∀ c ∈ a, isdigit c = true) :
    (∀ s : lexer, (lexer.read_float s).1.type = token_type.single_precision ∧
      (lexer.read_float s).1.stop = s.index ∧ (lexer.read_float s).2.index = s.index) ∧
    (∀ b, b ≠ [] → (∀ c ∈ b, isdigit c = true) → (a ++ b).length < n →
      lexer.next_token eof n (lexer.cursor pre (a ++ '.' :: (b ++ 'f' :: r)) ts [])
        = some (⟨token_type.single_precision, pre.length,
              (pre ++ (a ++ '.' :: (b ++ ['f']))).length, a ++ '.' :: (b ++ ['f'])⟩,
            lexer.cursor (pre ++ (a ++ '.' :: (b ++ ['f']))) r pre.length [])) ∧
    (∀ m sgn x, lexer.is_mantissa_opt m → lexer.is_sign_opt sgn → x ≠ [] →
      (∀ c ∈ x, isdigit c = true) → (a ++ (m ++ 'e' :: (sgn ++ (x ++ ['f'])))).length < n →
      lexer.next_token eof n
          (lexer.cursor pre (a ++ (m ++ 'e' :: (sgn ++ (x ++ 'f' :: r)))) ts [])
        = some (⟨token_type.single_precision, pre.length,
              (pre ++ (a ++ (m ++ 'e' :: (sgn ++ (x ++ ['f']))))).length,
              a ++ (m ++ 'e' :: (sgn ++ (x ++ ['f'])))⟩,
            lexer.cursor (pre ++ (a ++ (m ++ 'e' :: (sgn ++ (x ++ ['f']))))) r pre.length [])) ∧
    lexer.lex_contents eof 6 ['1', '.', '5', 'f', 'x']
      = some [⟨token_type.single_precision, 0, 4, ['1', '.', '5', 'f']⟩,
          ⟨token_type.identifier, 4, 5, ['x']⟩] := by
  refine ⟨fun s => ⟨rfl, rfl, rfl⟩, ?_, ?_, ?_⟩
  · intro b hbne hb hf
    exact lexer.next_token_decimal_f eof heof pre a b r ts n hane ha hbne hb hf
  · intro m sgn x hm hs hxne hx hf
    exact lexer.next_token_exponent_f_rest eof heof pre a m sgn x r ts n hane ha hm hs hxne hx hf
  · subst heof
    decide

/-- Witness of C16 at the digit run `12` after `y=`, for the inputs `y=12.5f9`
and `y=12.5e-3f9`. -/
theorem C16_float_suffix_witness :
    lexer.next_token (Char.ofNat 0) 12
        (lexer.cursor ['y', '='] (['1', '2'] ++ '.' :: (['5'] ++ 'f' :: ['9'])) 0 [])
      = some (⟨token_type.single_precision, ['y', '='].length,
            (['y', '='] ++ (['1', '2'] ++ '.' :: (['5'] ++ ['f']))).length,
            ['1', '2'] ++ '.' :: (['5'] ++ ['f'])⟩,
          lexer.cursor (['y', '='] ++ (['1', '2'] ++ '.' :: (['5'] ++ ['f']))) ['9']
            ['y', '='].length []) ∧
    lexer.next_token (Char.ofNat 0) 12
        (lexer.cursor ['y', '=']
          (['1', '2'] ++ (['.', '5'] ++ 'e' :: (['-'] ++ (['3'] ++ 'f' :: ['9'])))) 0 [])
      = some (⟨token_type.single_precision, ['y', '='].length,
            (['y', '='] ++ (['1', '2'] ++ (['.', '5'] ++ 'e' :: (['-'] ++ (['3'] ++ ['f']))))).length,
            ['1', '2'] ++ (['.', '5'] ++ 'e' :: (['-'] ++ (['3'] ++ ['f'])))⟩,
          lexer.cursor
            (['y', '='] ++ (['1', '2'] ++ (['.', '5'] ++ 'e' :: (['-'] ++ (['3'] ++ ['f'])))))
            ['9'] ['y', '='].length []) :=
  ⟨(C16_float_suffix (Char.ofNat 0) rfl ['y', '='] ['1', '2'] ['9'] 0 12 (by decide)
      (by decide)).2.1 ['5'] (by decide) (by decide) (by decide),
   (C16_float_suffix (Char.ofNat 0) rfl ['y', '='] ['1', '2'] ['9'] 0 12 (by decide)
      (by decide)).2.2.1 ['.', '5'] ['-'] ['3'] (by decide) (by decide) (by decide)
      (by decide) (by decide)⟩

/-- C18, as amended.  For every input that begins with a quote character, let
`body` be the text after it.  When no zero character occurs in `body` up to the
first quote that is preceded by an even number (possibly zero) of consecutive
backslashes, the first token ends immediately after that quote and its kind is
string; when there is no such quote and no zero character occurs in `body`,
the first token is of kind invalid and spans to the end of the input.  Here
`string_end body` is the offset of that quote in `body` and
`string_extent body` is `body` up to and including it (all of `body` when there
is none); none of the other recognised escape characters enters the rule.  The
sentinel is the zero character. -/
theorem C18_string_ends_at_unescaped_quote (eof : Char) (heof : eof = Char.ofNat 0)
    (pre body : List Char) (ts : Nat) (n : Nat) (hs : eof ∉ string_extent body)
    (hn : (chardefs.quote :: body).length < n) :
    lexer.next_token eof n (lexer.cursor pre (chardefs.quote :: body) ts [])
      = some (match string_end body with
        | some i =>
          (⟨token_type.string, pre.length, pre.length + (i + 2),
              chardefs.quote :: body.take (i + 1)⟩,
            lexer.cursor (pre ++ chardefs.quote :: body.take (i + 1)) (body.drop (i + 1))
              pre.length [])
        | none =>
          (⟨token_type.invalid, pre.length, pre.length + (body.length + 1),
              chardefs.quote :: body⟩,
            lexer.cursor (pre ++ chardefs.quote :: body) [] pre.length [])) := by
  rw [lexer.string_extent_eq_scanned] at hs
  rw [lexer.next_token_string_scanned eof heof pre body ts n hs hn]
  unfold string_outcome
  rw [lexer.string_scan_eq_string_end]
  cases hse : string_end body with
  | none => simp [Nat.add_comm]
  | some i =>
    have hlt := (lexer.string_end_lt hse).1
    have hmin : min (i + 1) body.length = i + 1 := by omega
    simp [hmin]

/-- Witness of C18 on the input made of a quote, a backslash, a quote, `b`, a
quote, a zero character and `c`: the first later quote follows one backslash,
the second follows none, and the zero character comes after it. -/
theorem C18_string_ends_at_unescaped_quote_witness :
    lexer.next_token (Char.ofNat 0) 8
        (lexer.cursor []
          (chardefs.quote ::
            [chardefs.back_slash, chardefs.quote, 'b', chardefs.quote, Char.ofNat 0, 'c'])
          0 [])
      = some (match string_end
            [chardefs.back_slash, chardefs.quote, 'b', chardefs.quote, Char.ofNat 0, 'c'] with
        | some i =>
          (⟨token_type.string, ([] : List Char).length, ([] : List Char).length + (i + 2),
              chardefs.quote ::
                [chardefs.back_slash, chardefs.quote, 'b', chardefs.quote, Char.ofNat 0,
                  'c'].take (i + 1)⟩,
            lexer.cursor
              ([] ++ chardefs.quote ::
                [chardefs.back_slash, chardefs.quote, 'b', chardefs.quote, Char.ofNat 0,
                  'c'].take (i + 1))
              ([chardefs.back_slash, chardefs.quote, 'b', chardefs.quote, Char.ofNat 0,
                'c'].drop (i + 1))
              ([] : List Char).length [])
        | none =>
          (⟨token_type.invalid, ([] : List Char).length,
              ([] : List Char).length
                + ([chardefs.back_slash, chardefs.quote, 'b', chardefs.quote, Char.ofNat 0,
                    'c'].length + 1),
              chardefs.quote ::
                [chardefs.back_slash, chardefs.quote, 'b', chardefs.quote, Char.ofNat 0, 'c']⟩,
            lexer.cursor
              ([] ++ chardefs.quote ::
                [chardefs.back_slash, chardefs.quote, 'b', chardefs.quote, Char.ofNat 0, 'c'])
              [] ([] : List Char).length [])) :=
  C18_string_ends_at_unescaped_quote (Char.ofNat 0) rfl []
    [chardefs.back_slash, chardefs.quote, 'b', chardefs.quote, Char.ofNat 0, 'c'] 0 8 (by decide)
    (by decide)

/-- Counterexample to C18 as stated.  In the input quote, `a`, zero character,
quote the first later quote preceded by an even number of backslashes is at
offset 2 of the text after the opening quote, so the claim puts the end of a
string token at offset 4; the first token is of kind invalid and ends at
offset 2: `read_string` takes the zero character for the end of the input. -/
theorem C18_counterexample :
    string_end ['a', Char.ofNat 0, chardefs.quote] = some 2 ∧
    lexer.next_token (Char.ofNat 0) 5
        (lexer.cursor [] (chardefs.quote :: ['a', Char.ofNat 0, chardefs.quote]) 0 [])
      = some (⟨token_type.invalid, 0, 2, [chardefs.quote, 'a']⟩,
          lexer.cursor [chardefs.quote, 'a'] [Char.ofNat 0, chardefs.quote] 0 []) ∧
    lexer.next_token (Char.ofNat 0) 5
        (lexer.cursor [] (chardefs.quote :: ['a', Char.ofNat 0, chardefs.quote]) 0 [])
      ≠ some (⟨token_type.string, 0, 4, chardefs.quote :: ['a', Char.ofNat 0, chardefs.quote]⟩,
          lexer.cursor (chardefs.quote :: ['a', Char.ofNat 0, chardefs.quote]) [] 0 []) ∧
    lexer.lex_contents (Char.ofNat 0) 5 (chardefs.quote :: ['a', Char.ofNat 0, chardefs.quote])
      = some [⟨token_type.invalid, 0, 2, [chardefs.quote, 'a']⟩] := by
  refine ⟨?_, ?_, ?_, ?_⟩ <;> decide

/-- C19.  The invalid token emitted for a malformed numeric literal swallows the
rest of the non-whitespace run.  For every non-empty digit run `a` and every
string `r` of characters that are neither whitespace nor the sentinel: when `r`
does not start with a digit, the input `a.r` lexes to exactly one token, of
kind invalid, spanning the whole input (so `1.+2` is one invalid token);
likewise `a.b.r` (second period after a non-empty mantissa `b`) and
`a m e sgn r` (empty exponent: `r` does not start with a digit, nor with a sign
when `sgn` is empty).  The sentinel is the zero character. -/
theorem C19_malformed_numeric_swallows_run (eof : Char) (heof : eof = Char.ofNat 0)
    (a r : List Char) (n : Nat) (hane : a ≠ []) (ha : ∀ c ∈ a, isdigit c = true)
    (hall : ∀ c ∈ r, isspace c = false ∧ c ≠ eof) :
    ((∀ c, r.head? = some c → isdigit c = false) → (a ++ '.' :: r).length < n →
      lexer.lex_contents eof n (a ++ '.' :: r)
        = some [⟨token_type.invalid, 0, (a ++ '.' :: r).length, a ++ '.' :: r⟩]) ∧
    (∀ b, b ≠ [] → (∀ c ∈ b, isdigit c = true) → (a ++ '.' :: (b ++ '.' :: r)).length < n →
      lexer.lex_contents eof n (a ++ '.' :: (b ++ '.' :: r))
        = some [⟨token_type.invalid, 0, (a ++ '.' :: (b ++ '.' :: r)).length,
            a ++ '.' :: (b ++ '.' :: r)⟩]) ∧
    (∀ m sgn, lexer.is_mantissa_opt m → lexer.is_sign_opt sgn →
      (∀ c, r.head? = some c → isdigit c = false ∧ (sgn = [] → c ≠ '+' ∧ c ≠ '-')) →
      (a ++ (m ++ 'e' :: (sgn ++ r))).length < n →
      lexer.lex_contents eof n (a ++ (m ++ 'e' :: (sgn ++ r)))
        = some [⟨token_type.invalid, 0, (a ++ (m ++ 'e' :: (sgn ++ r))).length,
            a ++ (m ++ 'e' :: (sgn ++ r))⟩]) ∧
    lexer.lex_contents eof 5 ['1', '.', '+', '2']
      = some [⟨token_type.invalid, 0, 4, ['1', '.', '+', '2']⟩] := by
  refine ⟨?_, ?_, ?_, ?_⟩
  · intro hr hf
    have h := lexer.next_token_no_mantissa_all eof heof [] a r 0 n hane ha hr hall hf
    exact lexer.lex_contents_of_whole eof n _ _ _ _ _ hf
      (lexer.digits_head_ne_eof heof _ hane ha) h
  · intro b hbne hb hf
    have h := lexer.next_token_second_period_all eof heof [] a b r 0 n hane ha hbne hb hall hf
    exact lexer.lex_contents_of_whole eof n _ _ _ _ _ hf
      (lexer.digits_head_ne_eof heof _ hane ha) h
  · intro m sgn hm hs hr hf
    have h := lexer.next_token_no_exponent_all eof heof [] a m sgn r 0 n hane ha hm hs hr hall hf
    exact lexer.lex_contents_of_whole eof n _ _ _ _ _ hf
      (lexer.digits_head_ne_eof heof _ hane ha) h
  · subst heof
    decide

/-- Witness of C19 on the inputs `7.x;`, `7.25.x;` and `7e-x;`. -/
theorem C19_malformed_numeric_swallows_run_witness :
    lexer.lex_contents (Char.ofNat 0) 9 (['7'] ++ '.' :: ['x', ';'])
      = some [⟨token_type.invalid, 0, (['7'] ++ '.' :: ['x', ';']).length,
          ['7'] ++ '.' :: ['x', ';']⟩] ∧
    lexer.lex_contents (Char.ofNat 0) 9 (['7'] ++ '.' :: (['2', '5'] ++ '.' :: ['x', ';']))
      = some [⟨token_type.invalid, 0, (['7'] ++ '.' :: (['2', '5'] ++ '.' :: ['x', ';'])).length,
          ['7'] ++ '.' :: (['2', '5'] ++ '.' :: ['x', ';'])⟩] ∧
    lexer.lex_contents (Char.ofNat 0) 9 (['7'] ++ ([] ++ 'e' :: (['-'] ++ ['x', ';'])))
      = some [⟨token_type.invalid, 0, (['7'] ++ ([] ++ 'e' :: (['-'] ++ ['x', ';']))).length,
          ['7'] ++ ([] ++ 'e' :: (['-'] ++ ['x', ';']))⟩] :=
  ⟨(C19_malformed_numeric_swallows_run (Char.ofNat 0) rfl ['7'] ['x', ';'] 9 (by decide)
      (by decide) (by decide)).1 (by decide) (by decide),
   (C19_malformed_numeric_swallows_run (Char.ofNat 0) rfl ['7'] ['x', ';'] 9 (by decide)
      (by decide) (by decide)).2.1 ['2', '5'] (by decide) (by decide) (by decide),
   (C19_malformed_numeric_swallows_run (Char.ofNat 0) rfl ['7'] ['x', ';'] 9 (by decide)
      (by decide) (by decide)).2.2.1 [] ['-'] (by decide) (by decide) (by decide) (by decide)⟩

/-- C20, as amended.  Leading whitespace only shifts offsets: for every string
`w` of whitespace characters and every non-empty input `s` whose first
character is not the zero character, `lex_contents (w ++ s)` is the sequence
`lex_contents s` with the same token kinds and texts in the same order and
every span start and end increased by `length(w)`.  The sentinel is the zero
character. -/
theorem C20_leading_whitespace_shifts (eof : Char) (heof : eof = Char.ofNat 0)
    (w s : List Char) (hw : ∀ c ∈ w, isspace c = true) (hs : s ≠ [])
    (hhead : ∀ c, s.head? = some c → c ≠ eof) (n : Nat) (hn : (w ++ s).length < n) :
    ∃ toks, lexer.lex_contents eof n s = some toks ∧
      lexer.lex_contents eof n (w ++ s) = some (toks.map (shift_token w.length)) := by
  have hlen : s.length < n := by simp only [List.length_append] at hn; omega
  obtain ⟨toks, h1, _⟩ := lexer.lex_contents_lexed eof heof s n hlen
  refine ⟨toks, h1, ?_⟩
  by_cases hwne : w = []
  · subst hwne
    simp [lexer.shift_token_zero, h1]
  · have hh : s.headD eof ≠ eof := by
      cases s with
      | nil => exact absurd rfl hs
      | cons c s0 => exact hhead c rfl
    rw [lexer.lex_contents_leading_space eof heof w s hwne hw hs hh n hn, h1]
    rfl

/-- Witness of C20 with two blanks in front of `a+1 `. -/
theorem C20_leading_whitespace_shifts_witness :
    ∃ toks, lexer.lex_contents (Char.ofNat 0) 7 ['a', '+', '1', ' '] = some toks ∧
      lexer.lex_contents (Char.ofNat 0) 7 ([' ', ' '] ++ ['a', '+', '1', ' '])
        = some (toks.map (shift_token [' ', ' '].length)) :=
  C20_leading_whitespace_shifts (Char.ofNat 0) rfl [' ', ' '] ['a', '+', '1', ' '] (by decide)
    (by decide) (by decide) 7 (by decide)

/-- Counterexample to C20 as stated.  The input `s` made of the zero character
and `x` is not empty and lexes to the empty sequence, but with one blank in
front the result is one end-of-input token (at offset 1), which is not a
shifted copy of the empty sequence: after the blank `next_token` takes the zero
character for the end of the input and builds the token. -/
theorem C20_counterexample :
    (∀ c ∈ [' '], isspace c = true) ∧ [Char.ofNat 0, 'x'] ≠ [] ∧
    lexer.lex_contents (Char.ofNat 0) 4 [Char.ofNat 0, 'x'] = some [] ∧
    lexer.lex_contents (Char.ofNat 0) 4 ([' '] ++ [Char.ofNat 0, 'x'])
      = some [⟨token_type.eof, 1, 1, []⟩] ∧
    lexer.lex_contents (Char.ofNat 0) 4 ([' '] ++ [Char.ofNat 0, 'x'])
      ≠ (lexer.lex_contents (Char.ofNat 0) 4 [Char.ofNat 0, 'x']).map
          (List.map (shift_token [' '].length)) := by
  refine ⟨?_, ?_, ?_, ?_, ?_⟩ <;> decide
